import Mathlib

/-!
Verification of the bitonic counting-network crate.

The Rust source (`src/networks/bitonic.rs`, `src/counters.rs`, `src/util.rs`)
is shallowly embedded below: heap pointers become indices into a balancer
store, atomics become explicit state passing, and operations that can panic
return `Option` (`none` models a panic).
-/

namespace CountingNetworks

/-! ### util.rs -/

/-- Structural computation of `⌊log2 n⌋` (fuel-based so that it reduces in
the kernel; the first argument is the fuel). -/
def log2_aux : Nat → Nat → Nat
  | 0, _ => 0
  | fuel + 1, n => if 2 ≤ n then log2_aux fuel (n / 2) + 1 else 0

/-- Model of `util::log2_floor` (`63 - n.leading_zeros()`).  For `n ≥ 1` — the
only inputs reachable behind the power-of-two assertion — this equals
`⌊log2 n⌋`; at `n = 0` the Rust expression underflows in `u32`. -/
def log2_floor (n : Nat) : Nat := log2_aux n n

/-- Model of `util::binomial_coefficient`.  The `u64` subtraction `n - k` is
modelled by truncating `Nat` subtraction; every use in the crate keeps all
intermediates far below `2^64`, so `u64` wrapping never occurs on reachable
inputs.  The loop accumulates `result = result * (n + 1 - value) / value`. -/
def binomial_coefficient (n k0 : Nat) : Nat :=
  let k := if k0 > n - k0 then n - k0 else k0
  (List.range k).foldl (fun result i => result * (n + 1 - (i + 1)) / (i + 1)) 1

/-- Model of `usize::is_power_of_two` (`count_ones() == 1`), used by the
`assert!` gate of `BitonicNetwork::new`. -/
def is_power_of_two (n : Nat) : Bool := n != 0 && (n &&& (n - 1)) == 0

/-! ### networks/bitonic.rs: construction state -/

/-- A wire as in `bitonic.rs`: its index `value` and the chronological list
`balancer_history` of balancers placed on it, each entry recording the
balancer id and whether the wire enters it as the lower input (`up = true`). -/
structure Wire where
  value : Nat
  history : List (Nat × Bool)
deriving Repr, DecidableEq

/-- A successor slot of a balancer: another balancer, an output leaf
(identified by output position), or the `NonNull::dangling()` placeholder. -/
inductive Seg where
  | internal (id : Nat)
  | leaf (pos : Nat)
  | dangling
deriving Repr, DecidableEq

/-- One `InternalBalancer`: the `AtomicUsize` toggle counter (initially 0) and
the two successor slots `outputs[0]`, `outputs[1]`. -/
structure Bal where
  cnt : Nat
  out0 : Seg
  out1 : Seg
deriving Repr, DecidableEq

/-- The balancer heap: balancer ids are allocation-order indices. -/
abbrev Store := List Bal

/-- Construction state: the store plus, for each balancer id in creation
order, the pair of wire values it joins (`(upper.value, lower.value)`). -/
structure BState where
  store : Store
  pairs : List (Nat × Nat)
deriving Repr, DecidableEq

/-- Write successor slot `up` of balancer `b`. -/
def setSlot (σ : Store) (b : Nat) (up : Bool) (s : Seg) : Store :=
  match σ.get? b with
  | none => σ
  | some bal => σ.set b (if up then { bal with out1 := s } else { bal with out0 := s })

/-- The `wire.last()` patch of `merge_wires`: write `s` into the slot named
by the last history entry (no write if the history is empty — the Rust code
guards with `num_balancers() > 0`). -/
def writeLast (σ : Store) (hist : List (Nat × Bool)) (s : Seg) : Store :=
  match hist.getLast? with
  | some (b, up) => setSlot σ b up s
  | none => σ

/-- One step of `merge_wires`: allocate a fresh dangling balancer, patch the
previous last balancer of both wires to point at it, and record the joined
pair of wire values. -/
def pushBal (st : BState) (u l : Wire) : BState :=
  ⟨writeLast
      (writeLast (st.store ++ [⟨0, Seg.dangling, Seg.dangling⟩]) u.history
        (Seg.internal st.store.length))
      l.history (Seg.internal st.store.length),
   st.pairs ++ [(u.value, l.value)]⟩

/-- Model of `merge_wires`: walk the zipped wire pairs; for each pair allocate
a fresh balancer, patch the previous last balancer of both wires to point at
it, and append it to both histories (`up = false` on the upper wire,
`up = true` on the lower), emitting the wires as `upper, lower` in order. -/
def merge_wires : List Wire → List Wire → BState → List Wire × BState
  | u :: us, l :: ls, st =>
    let u' : Wire := ⟨u.value, u.history ++ [(st.store.length, false)]⟩
    let l' : Wire := ⟨l.value, l.history ++ [(st.store.length, true)]⟩
    let r := merge_wires us ls (pushBal st u l)
    (u' :: l' :: r.1, r.2)
  | _, _, st => ([], st)

/-- Model of `split_even_odd`: stable partition of a wire list by index
parity. -/
def split_even_odd : List Wire → List Wire × List Wire
  | [] => ([], [])
  | [x] => ([x], [])
  | x :: y :: rest =>
    let r := split_even_odd rest
    (x :: r.1, y :: r.2)

/-- Model of `merge_networks`.  The Rust recursion is on the halved wire
lists; a fuel argument makes it structural here (`none` = fuel exhausted,
shown never to happen for the power-of-two shapes the crate builds). -/
def merge_networks : Nat → List Wire → List Wire → BState → Option (List Wire × BState)
  | 0, _, _, _ => none
  | fuel + 1, upper, lower, st =>
    if upper.length + lower.length == 2 then
      some (merge_wires upper lower st)
    else
      match merge_networks fuel (split_even_odd upper).1 (split_even_odd lower).2 st with
      | none => none
      | some r1 =>
        match merge_networks fuel (split_even_odd upper).2 (split_even_odd lower).1 r1.2 with
        | none => none
        | some r2 => some (merge_wires r1.1 r2.1 r2.2)

/-- Model of `construct_bitonic`, with the same fuel device as
`merge_networks` (the Rust recursion halves the width; the top-level call
passes the width itself as fuel, which is always sufficient).  Width 0 —
unreachable behind the power-of-two assertion — would recurse forever in
Rust and is mapped to `none`. -/
def construct_bitonic : Nat → Nat → Nat → BState → Option (List Wire × BState)
  | 0, _, _, _ => none
  | fuel + 1, w, base, st =>
    match w with
    | 0 => none
    | 1 => some ([⟨base, []⟩], st)
    | w + 2 =>
      match construct_bitonic fuel ((w + 2) / 2) base st with
      | none => none
      | some r1 =>
        match construct_bitonic fuel ((w + 2) / 2) (base + (w + 2) / 2) r1.2 with
        | none => none
        | some r2 => merge_networks (w + 2) r1.1 r2.1 r2.2

/-- Model of `num_layers`. -/
def num_layers (width : Nat) : Nat := binomial_coefficient (log2_floor width + 1) 2

/-! ### networks/bitonic.rs: the network value -/

/-- One pass of the layer-collection loop in `BitonicNetwork::new`: pop the
front balancer of every wire, keeping the first occurrence of each balancer
id together with the value of the wire that produced it (the `HashSet`
membership test is modelled by the `seen` accumulator). -/
def popLayer : List Wire → List Nat → List Wire × List (Nat × Nat)
  | [], _ => ([], [])
  | w :: ws, seen =>
    match w.history with
    | [] =>
      let r := popLayer ws seen
      (⟨w.value, []⟩ :: r.1, r.2)
    | (b, _) :: rest =>
      if b ∈ seen then
        let r := popLayer ws seen
        (⟨w.value, rest⟩ :: r.1, r.2)
      else
        let r := popLayer ws (b :: seen)
        (⟨w.value, rest⟩ :: r.1, (w.value, b) :: r.2)

/-- Stable insertion into a key-sorted association list (models the stable
`sort_by_key`). -/
def insertByKey (x : Nat × Nat) : List (Nat × Nat) → List (Nat × Nat)
  | [] => [x]
  | y :: ys => if y.1 ≤ x.1 then y :: insertByKey x ys else x :: y :: ys

/-- Stable insertion sort by key. -/
def sortByKey : List (Nat × Nat) → List (Nat × Nat)
  | [] => []
  | x :: xs => insertByKey x (sortByKey xs)

/-- The layer loop of `BitonicNetwork::new`: `n` layers, each sorted by wire
value, concatenated into the `balancers` vector. -/
def buildLayers : Nat → List Wire → List Nat
  | 0, _ => []
  | n + 1, ws =>
    let r := popLayer ws []
    (sortByKey r.2).map Prod.snd ++ buildLayers n r.1

/-- The constructed `BitonicNetwork`: width, output values in position order,
the balancer store, and the layered `balancers` index vector. -/
structure BitonicNetwork (L : Type) where
  width : Nat
  outputs : List L
  store : Store
  balancers : List Nat
deriving Repr, DecidableEq

/-- The output-attachment loop of `BitonicNetwork::new`: write output leaf
`p` into the last-balancer slot of the `p`-th wire.  `none` models the
index-out-of-bounds panic of `Wire::last` on an empty balancer history. -/
def attachLeaves : Store → List Wire → Nat → Option Store
  | σ, [], _ => some σ
  | σ, w :: ws, p =>
    match w.history.getLast? with
    | none => none
    | some (b, up) => attachLeaves (setSlot σ b up (Seg.leaf p)) ws (p + 1)

/-- Model of `BitonicNetwork::new` (`none` models a construction panic). -/
def bitonicNew {L : Type} (outputs : List L) : Option (BitonicNetwork L) :=
  if is_power_of_two outputs.length then
    match construct_bitonic outputs.length outputs.length 0 ⟨[], []⟩ with
    | none => none
    | some (wires, st) =>
      match attachLeaves st.store wires 0 with
      | none => none
      | some σ =>
        some ⟨outputs.length, outputs, σ, buildLayers (num_layers outputs.length) wires⟩
  else none

/-- The traversal loop: follow successor slots, bumping each balancer's
counter (`fetch_add`) and branching on the pre-increment parity
(`outputs[old % 2]`).  Returns the output position reached, the new store,
and the number of balancer toggles performed. -/
def walkFrom : Nat → Store → Nat → Option (Nat × Store × Nat)
  | 0, _, _ => none
  | fuel + 1, σ, b =>
    match σ.get? b with
    | none => none
    | some bal =>
      let σ' := σ.set b ⟨bal.cnt + 1, bal.out0, bal.out1⟩
      match (if bal.cnt % 2 == 0 then bal.out0 else bal.out1) with
      | Seg.leaf p => some (p, σ', 1)
      | Seg.internal b2 =>
        (walkFrom fuel σ' b2).map (fun r => (r.1, r.2.1, r.2.2 + 1))
      | Seg.dangling => none

/-- Model of `BitonicNetwork::traverse` for a thread whose identity hashes to
entry wire `slot`: start at `balancers[get_layer_range(0, w/2)][slot / 2]`
and follow the toggles to an output. -/
def BitonicNetwork.traverse {L : Type} (net : BitonicNetwork L) (slot : Nat) :
    Option (Nat × BitonicNetwork L × Nat) :=
  match (net.balancers.take (net.width / 2)).get? (slot / 2) with
  | none => none
  | some b =>
    (walkFrom (net.store.length + 1) net.store b).map
      (fun r => (r.1, { net with store := r.2.1 }, r.2.2))

/-- `T` sequential `traverse` calls from one thread, collecting the exit
positions. -/
def traverseRun {L : Type} : BitonicNetwork L → Nat → Nat → Option (List Nat × BitonicNetwork L)
  | net, _, 0 => some ([], net)
  | net, slot, T + 1 =>
    match net.traverse slot with
    | none => none
    | some (p, net', _) =>
      match traverseRun net' slot T with
      | none => none
      | some (ps, net2) => some (p :: ps, net2)

/-! ### counters.rs -/

/-- A `CountingBucket` holds one `AtomicUsize` value. -/
abbrev CountingBucket := Nat

/-- `CountingBucket::get` (relaxed load). -/
def bucketGet (b : CountingBucket) : Nat := b

/-- `CountingBucket::inc` (`fetch_add`, SeqCst). -/
def bucketInc (b : CountingBucket) (increment : Nat) : CountingBucket := b + increment

/-- `BitonicCountingNetwork` wraps a network whose outputs are buckets. -/
abbrev BitonicCountingNetwork := BitonicNetwork CountingBucket

/-- Model of `BitonicCountingNetwork::new`: buckets `CountingBucket::new(k)`
for `k` in `0..width`. -/
def countingNew (width : Nat) : Option BitonicCountingNetwork :=
  bitonicNew (List.range width)

/-- Model of `Counter::next` for `BitonicCountingNetwork`: traverse to a
bucket, `get()` it, then `inc(width)`.  The read and the add are two separate
atomic operations in the source, modelled as separate functions. -/
def countingNext (c : BitonicCountingNetwork) (slot : Nat) :
    Option (Nat × BitonicCountingNetwork) :=
  match c.traverse slot with
  | none => none
  | some (p, c', _) =>
    match c'.outputs.get? p with
    | none => none
    | some v =>
      some (bucketGet v, { c' with outputs := c'.outputs.set p (bucketInc v c'.width) })

/-- `T` sequential `next()` calls from one thread (fixed entry slot),
collecting the returned values in call order. -/
def countingRun : BitonicCountingNetwork → Nat → Nat → Option (List Nat × BitonicCountingNetwork)
  | c, _, 0 => some ([], c)
  | c, slot, T + 1 =>
    match countingNext c slot with
    | none => none
    | some (v, c') =>
      match countingRun c' slot T with
      | none => none
      | some (vs, c2) => some (v :: vs, c2)

/-! ### Balancer step models (for the balancer contract) -/

/-- `InternalBalancer::toggle_up` / `next` (bitonic.rs): `fetch_add(1)` on the
counter, select `outputs[old % 2]`.  Returns (selected successor index, new
counter). -/
def toggle_up (value : Nat) : Nat × Nat := (value % 2, value + 1)

/-- `Balancer::toggle_up` / `next_segment` (common.rs): `fetch_xor(true)`
returns the pre-flip bit, which indexes `next_segments`. -/
def toggle_up_common (value : Bool) : Nat × Bool := ((if value then 1 else 0), !value)

/-- A standalone `CountingBucket` serving `m` tokens of a width-`w` counter:
each token performs `get()` then `inc(w)`.  Returns the emitted values in
order and the final stored value. -/
def bucketRun (b w : Nat) : Nat → List Nat × Nat
  | 0 => ([], b)
  | m + 1 =>
    let r := bucketRun (bucketInc b w) w m
    (bucketGet b :: r.1, r.2)

/-- Model of `PartialEq for BitonicNetwork`: compare the output values only. -/
def bnetEq {L : Type} [BEq L] (n m : BitonicNetwork L) : Bool :=
  n.outputs == m.outputs

/-- Model of `Clone for BitonicNetwork`: rebuild from the cloned outputs. -/
def bnetClone {L : Type} (n : BitonicNetwork L) : Option (BitonicNetwork L) :=
  bitonicNew n.outputs

/-- An interleaved execution witness: two threads (entry slots `sA`, `sB`)
each perform two `next()` calls on a shared width-2 counter, but thread A is
suspended between the bucket `get()` and the bucket `inc()` of its first
call.  Every step below is one of the source's primitive operations in a
legal order.  Returns (values of A, values of B). -/
def interleavedRun (sA sB : Nat) : Option (List Nat × List Nat) :=
  match countingNew 2 with
  | none => none
  | some c0 =>
    -- A, call 1: traverse, then get(), then suspend before inc()
    match c0.traverse sA with
    | none => none
    | some (pA, c1, _) =>
      match c1.outputs.get? pA with
      | none => none
      | some bA =>
        let vA1 := bucketGet bA
        -- B, call 1 (complete) and call 2 (complete)
        match countingNext c1 sB with
        | none => none
        | some (vB1, c2) =>
          match countingNext c2 sB with
          | none => none
          | some (vB2, c3) =>
            -- A resumes: inc() of call 1, then call 2 runs completely
            let c4 : BitonicCountingNetwork :=
              { c3 with outputs := c3.outputs.set pA (bucketInc (c3.outputs.getD pA 0) c3.width) }
            match countingNext c4 sA with
            | none => none
            | some (vA2, _) => some ([vA1, vA2], [vB1, vB2])

/-! ### Specification-side helpers

Everything below is proof infrastructure: the canonical step profile `chi`,
a wire-level scan semantics for balancer lists, the count-flow abstraction,
and shape predicates tying the pointer store to the emitted balancer list. -/

/-- The canonical step profile: `chi S m p = ⌈(S - p) / m⌉`, the number of
integers `t < S` with `t % m = p`.  Output `p` of a width-`m` counting
network has emitted `chi S m p` tokens once `S` tokens have left. -/
def chi (S m p : Nat) : Nat := (S + m - 1 - p) / m

/-- `L(w)` for `w = 2^e`: the number of balancer layers, `e·(e+1)/2`. -/
def Lfun (e : Nat) : Nat := e * (e + 1) / 2

/-- First index at which wire value `v` occurs in a pair list. -/
def findOcc (v : Nat) : List (Nat × Nat) → Option Nat
  | [] => none
  | pr :: ps => if v = pr.1 ∨ v = pr.2 then some 0 else (findOcc v ps).map (· + 1)

/-- All indices of pairs containing `v`, in order, each with the flag telling
whether `v` enters as the lower component. -/
def occs : List (Nat × Nat) → Nat → List (Nat × Bool)
  | [], _ => []
  | pr :: ps, v =>
    (if v = pr.1 then [(0, false)] else if v = pr.2 then [(0, true)] else []) ++
    (occs ps v).map (fun e => (e.1 + 1, e.2))

/-- The successor that slot of wire `v` after position `k` must hold while
the network is being built: the next balancer on `v`, else dangling. -/
def linkOfD (pairs : List (Nat × Nat)) (v : Nat) (k : Nat) : Seg :=
  match findOcc v (pairs.drop k) with
  | some d => Seg.internal (k + d)
  | none => Seg.dangling

/-- The successor that slot of wire `v` after position `k` holds in the
finished network: the next balancer on `v`, else the leaf of `v`'s output
position in `order`. -/
def linkOf (pairs : List (Nat × Nat)) (order : List Nat) (v : Nat) (k : Nat) : Seg :=
  match findOcc v (pairs.drop k) with
  | some d => Seg.internal (k + d)
  | none => Seg.leaf (order.indexOf v)

/-- The counter values of a store. -/
def cnts (σ : Store) : List Nat := σ.map Bal.cnt

/-- Replace the counter values of a store, keeping the successor slots. -/
def applyCnts (σ : Store) (cs : List Nat) : Store :=
  List.zipWith (fun bal c => Bal.mk c bal.out0 bal.out1) σ cs

/-- Store shape during construction: slot `k` of balancer `b` links to the
next balancer of the corresponding wire, else dangles; counters are zero. -/
def Building (st : BState) : Prop :=
  st.store.length = st.pairs.length ∧
  ∀ b i j, st.pairs.get? b = some (i, j) →
    i ≠ j ∧
    ∃ bal, st.store.get? b = some bal ∧ bal.cnt = 0 ∧
      bal.out0 = linkOfD st.pairs i (b + 1) ∧ bal.out1 = linkOfD st.pairs j (b + 1)

/-- Store shape of a finished network with output order `order`; the counter
values are unconstrained. -/
def StoreShape (pairs : List (Nat × Nat)) (order : List Nat) (σ : Store) : Prop :=
  σ.length = pairs.length ∧
  ∀ b i j, pairs.get? b = some (i, j) →
    i ≠ j ∧
    ∃ bal, σ.get? b = some bal ∧
      bal.out0 = linkOf pairs order i (b + 1) ∧ bal.out1 = linkOf pairs order j (b + 1)

/-- Wires currently in play: histories list exactly the pairs containing
their value. -/
def WiresMatch (st : BState) (ws : List Wire) : Prop :=
  ∀ w ∈ ws, w.history = occs st.pairs w.value

/-- One token crossing a balancer list carrying its counts: at each pair
containing the token's current wire, branch on the count parity and bump the
count.  Returns final wire, updated list, number of balancers crossed. -/
def scanToken : List ((Nat × Nat) × Nat) → Nat → Nat × List ((Nat × Nat) × Nat) × Nat
  | [], t => (t, [], 0)
  | ((i, j), c) :: ps, t =>
    if t = i ∨ t = j then
      let r := scanToken ps (if c % 2 = 0 then i else j)
      (r.1, ((i, j), c + 1) :: r.2.1, r.2.2 + 1)
    else
      let r := scanToken ps t
      (r.1, ((i, j), c) :: r.2.1, r.2.2)

/-- Sequential tokens through a balancer list: exits in order, final list. -/
def seqScan : List ((Nat × Nat) × Nat) → List Nat → List Nat × List ((Nat × Nat) × Nat)
  | ps, [] => ([], ps)
  | ps, t :: ts =>
    let r := scanToken ps t
    let rest := seqScan r.2.1 ts
    (r.1 :: rest.1, rest.2)

/-- The exit wires of a token stream crossing one balancer `(i, j)` whose
counter starts at `c`; tokens on other wires pass through unchanged. -/
def tokensThrough (i j : Nat) : Nat → List Nat → List Nat × Nat
  | c, [] => ([], c)
  | c, t :: ts =>
    if t = i ∨ t = j then
      let r := tokensThrough i j (c + 1) ts
      ((if c % 2 = 0 then i else j) :: r.1, r.2)
    else
      let r := tokensThrough i j c ts
      (t :: r.1, r.2)

/-- Count-profile transfer of one balancer starting from a zero counter: the
upper wire receives the ceiling half of the combined tokens, the lower the
floor half. -/
def flowStep (v : Nat → Nat) (pr : Nat × Nat) : Nat → Nat := fun x =>
  if x = pr.1 then (v pr.1 + v pr.2 + 1) / 2
  else if x = pr.2 then (v pr.1 + v pr.2) / 2
  else v x

/-- Count-profile transfer of a balancer list (zero initial counters). -/
def flowCounts (ps : List (Nat × Nat)) (v : Nat → Nat) : Nat → Nat :=
  ps.foldl flowStep v

/-- Interleave two lists (the output arrangement of `merge_wires`). -/
def interleave : List Nat → List Nat → List Nat
  | x :: xs, y :: ys => x :: y :: interleave xs ys
  | _, _ => []

/-- `v` assigns to the `p`-th wire of `vs` the canonical step-profile value
`chi S vs.length p`. -/
def chiProfile (S : Nat) (vs : List Nat) (v : Nat → Nat) : Prop :=
  ∀ p x, vs.get? p = some x → v x = chi S vs.length p

/-- Successor indices returned by `n` successive `next()` calls on one
`InternalBalancer` (bitonic.rs) whose counter starts at `c`. -/
def toggleCalls (c : Nat) : Nat → List Nat
  | 0 => []
  | n + 1 => (toggle_up c).1 :: toggleCalls (toggle_up c).2 n

/-- Successor indices returned by `n` successive `next_segment()` calls on
one `Balancer` (common.rs) whose bit starts at `b`. -/
def toggleCallsCommon (b : Bool) : Nat → List Nat
  | 0 => []
  | n + 1 => (toggle_up_common b).1 :: toggleCallsCommon (toggle_up_common b).2 n

/-- Everything the traversal proofs need to know about a constructed network
of width `2 ^ e`: the store has the finished shape over the balancer pair
list `dl` and output order `order`, the entry row of `balancers` holds the
first balancer of each input wire pair, a single-entry token load flows to
the canonical step profile, and every token crosses exactly `Lfun e`
balancers. -/
def NetCtx {L : Type} (e : Nat) (dl : List (Nat × Nat)) (order : List Nat)
    (B : Nat → Nat) (net : BitonicNetwork L) : Prop :=
  net.width = 2 ^ e ∧
  order.Nodup ∧
  order.Perm (List.range (2 ^ e)) ∧
  StoreShape dl order net.store ∧
  (∀ pr ∈ dl, pr.1 ∈ order ∧ pr.2 ∈ order ∧ pr.1 ≠ pr.2) ∧
  (∀ q, q < 2 ^ e / 2 →
    (net.balancers.take (2 ^ e / 2)).get? q = some (B q) ∧
    findOcc (2 * q) dl = some (B q) ∧ findOcc (2 * q + 1) dl = some (B q)) ∧
  (∀ (S t0 : Nat) (v : Nat → Nat), t0 < 2 ^ e → v t0 = S →
    (∀ x, x < 2 ^ e → x ≠ t0 → v x = 0) →
    chiProfile S order (flowCounts dl v)) ∧
  (∀ (l : List ((Nat × Nat) × Nat)) (t : Nat), l.map Prod.fst = dl → t ∈ order →
    (scanToken l t).1 ∈ order ∧ (scanToken l t).2.2 = Lfun e)

/-! ## Arithmetic of the step profile -/

theorem chi_zero (m p : Nat) (hm : 0 < m) : chi 0 m p = 0 :=
  Nat.div_eq_of_lt (by omega)

theorem chi_one (S : Nat) : chi S 1 0 = S := by
  unfold chi; omega

theorem chi_mono_succ (S m p : Nat) : chi S m p ≤ chi (S + 1) m p :=
  Nat.div_le_div_right (by omega)

theorem chi_succ_le (S m p : Nat) (hm : 0 < m) : chi (S + 1) m p ≤ chi S m p + 1 := by
  unfold chi
  calc (S + 1 + m - 1 - p) / m ≤ ((S + m - 1 - p) + m) / m :=
        Nat.div_le_div_right (by omega)
    _ = (S + m - 1 - p) / m + 1 := Nat.add_div_right _ hm

theorem chi_split_even (S h p : Nat) (hp : p < h) :
    chi S (2 * h) (2 * p) = chi (S - S / 2) h p := by
  unfold chi
  rw [show (2 * h) = 2 * h from rfl, ← Nat.div_div_eq_div_mul]
  have e2 : (S + 2 * h - 1 - 2 * p) / 2 = S - S / 2 + h - 1 - p := by omega
  rw [e2]

theorem chi_split_odd (S h p : Nat) (hp : p < h) :
    chi S (2 * h) (2 * p + 1) = chi (S / 2) h p := by
  unfold chi
  rw [← Nat.div_div_eq_div_mul]
  have e2 : (S + 2 * h - 1 - (2 * p + 1)) / 2 = S / 2 + h - 1 - p := by omega
  rw [e2]

theorem chi_succ_eq (S m q : Nat) (hq : q < m) :
    chi (S + 1) m q = chi S m q + (if q = S % m then 1 else 0) := by
  have hm : 0 < m := by omega
  unfold chi
  have hnum : S + 1 + m - 1 - q = (S + m - 1 - q) + 1 := by omega
  rw [hnum, Nat.succ_div]
  congr 1
  have hmod := Nat.div_add_mod S m
  have hrlt := Nat.mod_lt S hm
  have h1 : S + m - 1 - q + 1 = m * (S / m) + (S % m + m - q) := by omega
  have hdvd : (m ∣ S + m - 1 - q + 1) ↔ q = S % m := by
    rw [h1, Nat.dvd_add_right (Dvd.intro _ rfl)]
    constructor
    · rintro ⟨c, hc⟩
      match c with
      | 0 => omega
      | 1 => omega
      | c + 2 =>
        have : m * 2 ≤ m * (c + 2) := Nat.mul_le_mul_left m (by omega)
        omega
    · intro h; exact ⟨1, by omega⟩
  by_cases hcase : q = S % m
  · rw [if_pos (hdvd.mpr hcase), if_pos hcase]
  · have hnd : ¬ (m ∣ S + m - 1 - q + 1) := fun hd => hcase (hdvd.mp hd)
    rw [if_neg hnd, if_neg hcase]

theorem chi_mod_self (t w : Nat) (hw : 0 < w) : chi t w (t % w) = t / w := by
  unfold chi
  have h := Nat.div_add_mod t w
  have hlt := Nat.mod_lt t hw
  have hnum : t + w - 1 - t % w = w * (t / w) + (w - 1) := by omega
  rw [hnum, Nat.mul_add_div hw]
  have h0 : (w - 1) / w = 0 := Nat.div_eq_of_lt (by omega)
  omega

theorem chi_step (S m i j : Nat) (hij : i ≤ j) (hj : j < m) :
    chi S m j ≤ chi S m i ∧ chi S m i ≤ chi S m j + 1 := by
  have hm : 0 < m := by omega
  constructor
  · exact Nat.div_le_div_right (by omega)
  · unfold chi
    calc (S + m - 1 - i) / m ≤ ((S + m - 1 - j) + m) / m :=
          Nat.div_le_div_right (by omega)
      _ = (S + m - 1 - j) / m + 1 := Nat.add_div_right _ hm

theorem chi_combine (S1 S2 K p : Nat) (hle1 : S1 ≤ S2 + 1) (hle2 : S2 ≤ S1 + 1)
    (hp : p < K) :
    (chi S1 K p + chi S2 K p + 1) / 2 = chi (S1 + S2) (2 * K) (2 * p) ∧
    (chi S1 K p + chi S2 K p) / 2 = chi (S1 + S2) (2 * K) (2 * p + 1) := by
  rw [chi_split_even _ _ _ hp, chi_split_odd _ _ _ hp]
  rcases Nat.lt_trichotomy S1 S2 with h | h | h
  · -- S2 = S1 + 1
    have hS2 : S2 = S1 + 1 := by omega
    subst hS2
    have e1 : S1 + (S1 + 1) - (S1 + (S1 + 1)) / 2 = S1 + 1 := by omega
    have e2 : (S1 + (S1 + 1)) / 2 = S1 := by omega
    rw [e1, e2]
    have m1 := chi_mono_succ S1 K p
    have m2 := chi_succ_le S1 K p (by omega)
    omega
  · subst h
    have e1 : S1 + S1 - (S1 + S1) / 2 = S1 := by omega
    have e2 : (S1 + S1) / 2 = S1 := by omega
    rw [e1, e2]
    omega
  · -- S1 = S2 + 1
    have hS1 : S1 = S2 + 1 := by omega
    subst hS1
    have e1 : S2 + 1 + S2 - (S2 + 1 + S2) / 2 = S2 + 1 := by omega
    have e2 : (S2 + 1 + S2) / 2 = S2 := by omega
    rw [e1, e2]
    have m1 := chi_mono_succ S2 K p
    have m2 := chi_succ_le S2 K p (by omega)
    omega

/-! ## The power-of-two gate -/

theorem is_power_of_two_iff (n : Nat) : is_power_of_two n = true ↔ ∃ e, n = 2 ^ e := by
  constructor
  · intro h
    unfold is_power_of_two at h
    simp only [Bool.and_eq_true, bne_iff_ne, ne_eq, beq_iff_eq] at h
    obtain ⟨hne, hand⟩ := h
    refine ⟨n.log2, ?_⟩
    by_contra hne2
    have hlow : 2 ^ n.log2 ≤ n := Nat.log2_self_le hne
    have hhigh : n < 2 ^ (n.log2 + 1) := Nat.lt_log2_self
    rw [pow_succ] at hhigh
    have hgt : 2 ^ n.log2 + 1 ≤ n := by omega
    have hdiv : n / 2 ^ n.log2 = 1 :=
      Nat.div_eq_of_lt_le (by omega) (by omega)
    have hdiv2 : (n - 1) / 2 ^ n.log2 = 1 :=
      Nat.div_eq_of_lt_le (by omega) (by omega)
    have hb1 : n.testBit n.log2 = true := by
      rw [Nat.testBit_to_div_mod, hdiv]; rfl
    have hb2 : (n - 1).testBit n.log2 = true := by
      rw [Nat.testBit_to_div_mod, hdiv2]; rfl
    have hb : (n &&& (n - 1)).testBit n.log2 = true := by
      rw [Nat.testBit_land, hb1, hb2]; rfl
    rw [hand, Nat.zero_testBit] at hb
    exact Bool.noConfusion hb
  · rintro ⟨e, rfl⟩
    unfold is_power_of_two
    have hpos : 0 < (2 : Nat) ^ e := Nat.pos_pow_of_pos _ (by omega)
    have hand : 2 ^ e &&& (2 ^ e - 1) = 0 := by
      apply Nat.eq_of_testBit_eq
      intro i
      rw [Nat.testBit_land, Nat.zero_testBit, Nat.testBit_two_pow,
        Nat.testBit_two_pow_sub_one]
      by_cases hie : e = i
      · subst hie; simp
      · simp [hie]
    simp only [Bool.and_eq_true, bne_iff_ne, ne_eq, beq_iff_eq]
    exact ⟨by omega, hand⟩

/-! ## Basic facts about the model -/

theorem bitonicNew_fields {L : Type} (outs : List L) (n : BitonicNetwork L)
    (h : bitonicNew outs = some n) : n.outputs = outs ∧ n.width = outs.length := by
  unfold bitonicNew at h
  split at h
  · split at h
    · exact absurd h (by simp)
    · split at h
      · exact absurd h (by simp)
      · cases h; exact ⟨rfl, rfl⟩
  · exact absurd h (by simp)

theorem traverse_fields {L : Type} (net : BitonicNetwork L) (slot p : Nat)
    (net' : BitonicNetwork L) (t : Nat) (h : net.traverse slot = some (p, net', t)) :
    net'.outputs = net.outputs ∧ net'.width = net.width ∧ net'.balancers = net.balancers := by
  unfold BitonicNetwork.traverse at h
  split at h
  · exact absurd h (by simp)
  · cases hw : walkFrom (net.store.length + 1) net.store _ with
    | none => rw [hw] at h; exact absurd h (by simp)
    | some r => rw [hw] at h; simp only [Option.map_some'] at h; cases h; exact ⟨rfl, rfl, rfl⟩

theorem traverseRun_fields {L : Type} :
    ∀ (T : Nat) (net : BitonicNetwork L) (slot : Nat) (ps : List Nat) (netK : BitonicNetwork L),
    traverseRun net slot T = some (ps, netK) →
    netK.outputs = net.outputs ∧ netK.width = net.width ∧ netK.balancers = net.balancers := by
  intro T
  induction T with
  | zero =>
    intro net slot ps netK h
    unfold traverseRun at h
    cases h; exact ⟨rfl, rfl, rfl⟩
  | succ T ih =>
    intro net slot ps netK h
    unfold traverseRun at h
    split at h
    · exact absurd h (by simp)
    · rename_i p net' t heq
      split at h
      · exact absurd h (by simp)
      · rename_i ps' net2 heq2
        cases h
        have h1 := traverse_fields net slot p net' t heq
        have h2 := ih net' slot ps' netK heq2
        exact ⟨h2.1.trans h1.1, h2.2.1.trans h1.2.1, h2.2.2.trans h1.2.2⟩

theorem setSlot_cnt (σ : Store) (b : Nat) (up : Bool) (s : Seg)
    (h : ∀ bal ∈ σ, bal.cnt = 0) : ∀ bal ∈ setSlot σ b up s, bal.cnt = 0 := by
  unfold setSlot
  split
  · exact h
  · rename_i bal0 heq
    intro bal hb
    rcases List.mem_or_eq_of_mem_set hb with h1 | h1
    · exact h bal h1
    · have hb0 : bal0 ∈ σ := by
        have := List.get?_eq_some.mp heq
        obtain ⟨hlt, hget⟩ := this
        exact hget ▸ List.get_mem σ _ hlt
      subst h1
      split <;> exact h bal0 hb0

theorem writeLast_cnt (σ : Store) (hist : List (Nat × Bool)) (s : Seg)
    (h : ∀ bal ∈ σ, bal.cnt = 0) : ∀ bal ∈ writeLast σ hist s, bal.cnt = 0 := by
  unfold writeLast
  split
  · exact setSlot_cnt _ _ _ _ h
  · exact h

theorem merge_wires_cnt : ∀ (u l : List Wire) (st : BState),
    (∀ bal ∈ st.store, bal.cnt = 0) →
    ∀ bal ∈ (merge_wires u l st).2.store, bal.cnt = 0 := by
  intro u
  induction u with
  | nil =>
    intro l st h
    unfold merge_wires
    exact h
  | cons u us ih =>
    intro l st h
    cases l with
    | nil => unfold merge_wires; exact h
    | cons l ls =>
      show ∀ bal ∈ (merge_wires (u :: us) (l :: ls) st).2.store, bal.cnt = 0
      unfold merge_wires
      apply ih
      have hbase : ∀ bal ∈ st.store ++ [(⟨0, Seg.dangling, Seg.dangling⟩ : Bal)], bal.cnt = 0 := by
        intro bal hb
        rcases List.mem_append.mp hb with h1 | h1
        · exact h bal h1
        · simp at h1; rw [h1]
      exact writeLast_cnt _ _ _ (writeLast_cnt _ _ _ hbase)

theorem merge_networks_cnt : ∀ (fuel : Nat) (u l : List Wire) (st : BState)
    (r : List Wire × BState), merge_networks fuel u l st = some r →
    (∀ bal ∈ st.store, bal.cnt = 0) → ∀ bal ∈ r.2.store, bal.cnt = 0 := by
  intro fuel
  induction fuel with
  | zero => intro u l st r h; exact absurd h (by simp [merge_networks])
  | succ fuel ih =>
    intro u l st r h h0
    unfold merge_networks at h
    split at h
    · cases h; exact merge_wires_cnt u l st h0
    · split at h
      · exact absurd h (by simp)
      · rename_i r1 heq1
        split at h
        · exact absurd h (by simp)
        · rename_i r2 heq2
          cases h
          exact merge_wires_cnt _ _ _ (ih _ _ _ _ heq2 (ih _ _ _ _ heq1 h0))

theorem construct_bitonic_cnt : ∀ (fuel w base : Nat) (st : BState) (r : List Wire × BState),
    construct_bitonic fuel w base st = some r →
    (∀ bal ∈ st.store, bal.cnt = 0) → ∀ bal ∈ r.2.store, bal.cnt = 0 := by
  intro fuel
  induction fuel with
  | zero => intro w base st r h; exact absurd h (by simp [construct_bitonic])
  | succ fuel ih =>
    intro w base st r h h0
    match w with
    | 0 => exact absurd h (by simp [construct_bitonic])
    | 1 =>
      unfold construct_bitonic at h
      cases h; exact h0
    | w + 2 =>
      unfold construct_bitonic at h
      split at h
      · exact absurd h (by simp)
      · rename_i heqw
        exact absurd heqw (by omega)
      · rename_i w1 w2 heqw
        have hw : w2 = w := by omega
        subst hw
        split at h
        · exact absurd h (by simp)
        · rename_i r1 heq1
          split at h
          · exact absurd h (by simp)
          · rename_i r2 heq2
            exact merge_networks_cnt _ _ _ _ _ h
              (ih _ _ _ _ heq2 (ih _ _ _ _ heq1 h0))

theorem attachLeaves_cnt : ∀ (ws : List Wire) (σ : Store) (p : Nat) (σ2 : Store),
    attachLeaves σ ws p = some σ2 →
    (∀ bal ∈ σ, bal.cnt = 0) → ∀ bal ∈ σ2, bal.cnt = 0 := by
  intro ws
  induction ws with
  | nil =>
    intro σ p σ2 h h0
    unfold attachLeaves at h
    cases h; exact h0
  | cons w ws ih =>
    intro σ p σ2 h h0
    unfold attachLeaves at h
    split at h
    · exact absurd h (by simp)
    · rename_i b up heq
      exact ih _ _ _ h (setSlot_cnt _ _ _ _ h0)

theorem bitonicNew_cnt {L : Type} (outs : List L) (n : BitonicNetwork L)
    (h : bitonicNew outs = some n) : ∀ bal ∈ n.store, bal.cnt = 0 := by
  unfold bitonicNew at h
  split at h
  · split at h
    · exact absurd h (by simp)
    · split at h
      · exact absurd h (by simp)
      · cases h
        rename_i hpow x1 wires st hc x2 σ ha
        apply attachLeaves_cnt _ _ _ _ ha
        apply construct_bitonic_cnt _ _ _ _ (wires, st) hc
        intro bal hb
        exact absurd hb (by simp)
  · exact absurd h (by simp)

theorem log2_aux_eq : ∀ (fuel n : Nat), n ≤ fuel → log2_aux fuel n = Nat.log2 n := by
  intro fuel
  induction fuel with
  | zero =>
    intro n hn
    have h0 : n = 0 := by omega
    subst h0
    unfold Nat.log2
    rfl
  | succ fuel ih =>
    intro n hn
    unfold log2_aux
    unfold Nat.log2
    by_cases h2 : 2 ≤ n
    · rw [if_pos h2, if_pos h2, ih (n / 2) (by omega)]
    · rw [if_neg h2, if_neg h2]

theorem log2_floor_pow (e : Nat) : log2_floor (2 ^ e) = e := by
  unfold log2_floor
  rw [log2_aux_eq _ _ (Nat.le_refl _), Nat.log2_two_pow]

theorem num_layers_pow (e : Nat) (he : 1 ≤ e) : num_layers (2 ^ e) = Lfun e := by
  unfold num_layers
  rw [log2_floor_pow]
  unfold binomial_coefficient Lfun
  match e, he with
  | 1, _ => decide
  | 2, _ => decide
  | e + 3, _ =>
    have hk : ¬ (2 > e + 3 + 1 - 2) := by omega
    simp only [hk, if_false]
    show (List.range 2).foldl _ 1 = _
    have : List.range 2 = [0, 1] := by decide
    rw [this]
    simp only [List.foldl_cons, List.foldl_nil]
    have e1 : 1 * (e + 3 + 1 + 1 - (0 + 1)) / (0 + 1) = e + 4 := by omega
    rw [e1]
    have e2 : e + 3 + 1 + 1 - (1 + 1) = e + 3 := by omega
    rw [e2]
    congr 1
    ring

/-! ## Balancer alternation -/

theorem toggleCalls_eq (n : Nat) : ∀ c : Nat,
    toggleCalls c n = (List.range n).map (fun k => (c + k) % 2) := by
  induction n with
  | zero => intro c; rfl
  | succ n ih =>
    intro c
    show (c % 2) :: toggleCalls (c + 1) n = _
    rw [List.range_succ_eq_map, List.map_cons, List.map_map, ih (c + 1)]
    refine congrArg₂ List.cons (by simp) ?_
    congr 1
    funext k
    simp only [Function.comp_apply, Nat.succ_eq_add_one]
    congr 1
    omega

theorem toggleCallsCommon_eq (n : Nat) : ∀ b : Bool,
    toggleCallsCommon b n =
      (List.range n).map (fun k => if b ^^ decide (k % 2 = 1) then 1 else 0) := by
  induction n with
  | zero => intro b; rfl
  | succ n ih =>
    intro b
    show (if b then 1 else 0) :: toggleCallsCommon (!b) n = _
    rw [List.range_succ_eq_map, List.map_cons, List.map_map, ih (!b)]
    refine congrArg₂ List.cons (by cases b <;> rfl) ?_
    congr 1
    funext k
    simp only [Function.comp_apply, Nat.succ_eq_add_one]
    have hd : decide ((k + 1) % 2 = 1) = !decide (k % 2 = 1) := by
      by_cases hk : k % 2 = 1
      · have h1 : (k + 1) % 2 = 0 := by omega
        simp [hk, h1]
      · have hk0 : k % 2 = 0 := by omega
        have h1 : (k + 1) % 2 = 1 := by omega
        simp [hk0, h1]
    rw [hd]
    cases b <;> cases hdk : decide (k % 2 = 1) <;> rfl

/-- C7: each balancer step selects the successor by the pre-flip state (the
`k`-th call on the bitonic.rs balancer returns index `(c+k) % 2`, on the
common.rs balancer the pre-flip bit), and consecutive calls always return
different successors, for both balancer implementations. -/
theorem balancer_alternates :
    (∀ c n k : Nat, k < n → (toggleCalls c n).get? k = some ((c + k) % 2)) ∧
    (∀ c n k : Nat, k + 1 < n →
      (toggleCalls c n).get? k ≠ (toggleCalls c n).get? (k + 1)) ∧
    (∀ (b : Bool) (n k : Nat), k < n →
      (toggleCallsCommon b n).get? k = some (if b ^^ decide (k % 2 = 1) then 1 else 0)) ∧
    (∀ (b : Bool) (n k : Nat), k + 1 < n →
      (toggleCallsCommon b n).get? k ≠ (toggleCallsCommon b n).get? (k + 1)) := by
  have hget : ∀ (f : Nat → Nat) (n k : Nat), k < n →
      ((List.range n).map f).get? k = some (f k) := by
    intro f n k hk
    rw [List.get?_map, List.get?_range hk]
    rfl
  refine ⟨?_, ?_, ?_, ?_⟩
  · intro c n k hk
    rw [toggleCalls_eq]
    exact hget _ _ _ hk
  · intro c n k hk
    rw [toggleCalls_eq, hget _ _ _ (by omega), hget _ _ _ hk]
    intro hcon
    simp only [Option.some_inj] at hcon
    omega
  · intro b n k hk
    rw [toggleCallsCommon_eq]
    exact hget _ _ _ hk
  · intro b n k hk
    rw [toggleCallsCommon_eq, hget _ _ _ (by omega), hget _ _ _ hk]
    intro hcon
    simp only [Option.some_inj] at hcon
    have hd : decide ((k + 1) % 2 = 1) = !decide (k % 2 = 1) := by
      by_cases hkk : k % 2 = 1
      · have h1 : (k + 1) % 2 = 0 := by omega
        simp [hkk, h1]
      · have hk0 : k % 2 = 0 := by omega
        have h1 : (k + 1) % 2 = 1 := by omega
        simp [hk0, h1]
    rw [hd] at hcon
    cases b <;> cases hdk : decide (k % 2 = 1) <;> rw [hdk] at hcon <;> simp at hcon

/-- Witness for the balancer contract at concrete inputs. -/
theorem balancer_alternates_witness :
    (toggleCalls 0 4).get? 1 = some 1 ∧
    (toggleCalls 0 4).get? 1 ≠ (toggleCalls 0 4).get? 2 ∧
    (toggleCallsCommon true 4).get? 0 = some 1 ∧
    (toggleCallsCommon true 4).get? 0 ≠ (toggleCallsCommon true 4).get? 1 :=
  ⟨balancer_alternates.1 0 4 1 (by decide),
   balancer_alternates.2.1 0 4 1 (by decide),
   balancer_alternates.2.2.1 true 4 0 (by decide),
   balancer_alternates.2.2.2 true 4 0 (by decide)⟩

/-! ## The counting bucket -/

theorem bucketRun_eq (w : Nat) : ∀ (m b : Nat),
    bucketRun b w m = ((List.range m).map (fun i => b + i * w), b + m * w) := by
  intro m
  induction m with
  | zero => intro b; simp [bucketRun]
  | succ m ih =>
    intro b
    show ((bucketGet b) :: (bucketRun (bucketInc b w) w m).1,
          (bucketRun (bucketInc b w) w m).2) = _
    rw [ih (bucketInc b w)]
    unfold bucketGet bucketInc
    rw [List.range_succ_eq_map, List.map_cons, List.map_map]
    dsimp only
    refine congrArg₂ Prod.mk (congrArg₂ List.cons (by omega) ?_) (by ring)
    congr 1
    funext i
    simp only [Function.comp_apply, Nat.succ_eq_add_one]
    ring

/-- C9: a counting bucket with starting value `k` on a width-`w` network
stores `k + m·w` after emitting `m` tokens; each of the `m` `next()` calls
that landed on it returned the value observed before the add, namely
`k + i·w` for `i = 0, 1, …`; and the counter facade builds the bucket of
output `k` with starting value `k`. -/
theorem counting_bucket_series (k w m : Nat) :
    (bucketRun k w m).1 = (List.range m).map (fun i => k + i * w) ∧
    (bucketRun k w m).2 = k + m * w ∧
    (∀ c, countingNew w = some c → c.outputs = List.range w) := by
  refine ⟨?_, ?_, ?_⟩
  · rw [bucketRun_eq]
  · rw [bucketRun_eq]
  · intro c hc
    exact (bitonicNew_fields _ _ hc).1

/-- Witness for the bucket series at concrete inputs. -/
theorem counting_bucket_series_witness :
    (bucketRun 3 4 5).1 = [3, 7, 11, 15, 19] ∧ (bucketRun 3 4 5).2 = 23 ∧
    ∀ c, countingNew 4 = some c → c.outputs = [0, 1, 2, 3] := by
  have h := counting_bucket_series 3 4 5
  have h2 := counting_bucket_series 0 4 0
  refine ⟨?_, ?_, ?_⟩
  · rw [h.1]; decide
  · rw [h.2.1]
  · intro c hc
    have := h2.2.2 c hc
    rw [this]; decide

/-! ## Width-1 construction -/

/-- C4: evaluating the model at the failing input.  Constructing the
degenerate width-1 counter does not succeed: `Wire::last` indexes an empty
balancer history, so construction panics and no `next()` call can return
0, 1, 2, 3.  The same failure hits `BitonicNetwork::new` on any singleton
output sequence, although 1 is a power of two. -/
theorem width_one_construction_fails :
    countingNew 1 = none ∧
    (∀ x : Nat, bitonicNew [x] = none) ∧
    is_power_of_two 1 = true := by
  refine ⟨rfl, ?_, rfl⟩
  intro x
  have h1 : ([x] : List Nat).length = 1 := rfl
  unfold bitonicNew
  rw [h1]
  rfl

/-! ## The emitted balancer sequence for width 4 -/

/-- C5 counterexample: the sixth pair emitted for width 4 is `(3, 2)` — the
top wire is wire 3 — so the emission sequence is not
`[(0,1), (2,3), (0,3), (1,2), (0,1), (2,3)]` and `i < j` fails for that
emitted pair. -/
theorem merge_emission_order_w4_refuted :
    (construct_bitonic 4 4 0 ⟨[], []⟩).map (fun r => r.2.pairs) =
      some [(0, 1), (2, 3), (0, 3), (1, 2), (0, 1), (3, 2)] ∧
    (construct_bitonic 4 4 0 ⟨[], []⟩).map (fun r => r.2.pairs) ≠
      some [(0, 1), (2, 3), (0, 3), (1, 2), (0, 1), (2, 3)] ∧
    ¬ (3 : Nat) < 2 := by
  refine ⟨by decide, by decide, by decide⟩

/-! ## The concurrent counter is not duplicate-free -/

/-- C2 refuted: there is a legal interleaving of two threads, each calling
`next()` twice on a shared width-2 counter, in which the relaxed
`get`-then-`inc` bucket access returns the duplicate value 0 to both
threads and never returns 2: the union of results is `{0, 0, 1, 3}`, not
`{0, 1, 2, 3}`.  This holds whatever entry wires the two threads hash to. -/
theorem concurrent_duplicate_interleaving :
    (∀ sA < 2, ∀ sB < 2, interleavedRun sA sB = some ([0, 3], [1, 0])) ∧
    ¬ ([0, 3] ++ [1, 0]).Perm (List.range (2 * 2)) := by
  refine ⟨by decide, by decide⟩

/-! ## Occurrence lists and links -/

theorem findOcc_append_some (v : Nat) (xs ys : List (Nat × Nat)) (d : Nat)
    (h : findOcc v xs = some d) : findOcc v (xs ++ ys) = some d := by
  induction xs generalizing d with
  | nil => exact absurd h (by simp [findOcc])
  | cons pr ps ih =>
    rw [List.cons_append]
    simp only [findOcc] at h ⊢
    by_cases hv : v = pr.1 ∨ v = pr.2
    · rw [if_pos hv] at h ⊢
      exact h
    · rw [if_neg hv] at h ⊢
      cases hf : findOcc v ps with
      | none => rw [hf] at h; exact absurd h (by simp)
      | some d0 =>
        rw [hf] at h
        simp only [Option.map_some'] at h
        rw [ih d0 hf]
        simpa using h

theorem findOcc_append_none (v : Nat) (xs ys : List (Nat × Nat))
    (h : findOcc v xs = none) :
    findOcc v (xs ++ ys) = (findOcc v ys).map (· + xs.length) := by
  induction xs with
  | nil =>
    show findOcc v ys = (findOcc v ys).map (· + ([] : List (Nat × Nat)).length)
    cases hf : findOcc v ys <;> simp
  | cons pr ps ih =>
    rw [List.cons_append]
    simp only [findOcc] at h ⊢
    by_cases hv : v = pr.1 ∨ v = pr.2
    · rw [if_pos hv] at h; exact absurd h (by simp)
    · rw [if_neg hv] at h ⊢
      have hps : findOcc v ps = none := by
        cases hf : findOcc v ps with
        | none => rfl
        | some d0 => rw [hf] at h; exact absurd h (by simp)
      rw [ih hps]
      cases hf : findOcc v ys <;> simp [List.length_cons] <;> omega

theorem findOcc_none_iff (v : Nat) (xs : List (Nat × Nat)) :
    findOcc v xs = none ↔ ∀ pr ∈ xs, v ≠ pr.1 ∧ v ≠ pr.2 := by
  induction xs with
  | nil => simp [findOcc]
  | cons pr ps ih =>
    simp only [findOcc]
    by_cases hv : v = pr.1 ∨ v = pr.2
    · rw [if_pos hv]
      simp only [List.mem_cons]
      constructor
      · intro hcon; exact absurd hcon (by simp)
      · intro hall
        have := hall pr (Or.inl rfl)
        tauto
    · rw [if_neg hv]
      push_neg at hv
      simp only [List.mem_cons, Option.map_eq_none', ih]
      constructor
      · intro hall pr2 hpr2
        rcases hpr2 with rfl | hpr2
        · exact hv
        · exact hall pr2 hpr2
      · intro hall pr2 hpr2
        exact hall pr2 (Or.inr hpr2)

theorem occs_snoc (ps : List (Nat × Nat)) (pr : Nat × Nat) (v : Nat) :
    occs (ps ++ [pr]) v = occs ps v ++
      (if v = pr.1 then [(ps.length, false)]
       else if v = pr.2 then [(ps.length, true)] else []) := by
  induction ps with
  | nil =>
    show occs [pr] v = [] ++ _
    simp only [occs, List.nil_append]
    split
    · simp
    · split <;> simp
  | cons q ps ih =>
    rw [List.cons_append]
    simp only [occs]
    rw [ih, List.map_append, List.append_assoc]
    congr 1
    congr 1
    by_cases hp1 : v = pr.1
    · simp [hp1, List.length_cons]
    · by_cases hp2 : v = pr.2
      · subst hp2
        simp [hp1, List.length_cons]
      · simp [hp1, hp2, List.length_cons]

theorem occs_bound (ps : List (Nat × Nat)) (v : Nat) :
    ∀ e ∈ occs ps v, e.1 < ps.length := by
  induction ps with
  | nil => simp [occs]
  | cons q ps ih =>
    intro e he
    unfold occs at he
    rcases List.mem_append.mp he with h1 | h1
    · split at h1 <;> (try split at h1) <;> simp_all <;> omega
    · obtain ⟨e0, he0, rfl⟩ := List.mem_map.mp h1
      have := ih e0 he0
      simp [List.length_cons]
      omega

theorem occs_getLast (ps : List (Nat × Nat)) (v : Nat) :
    (occs ps v = [] → findOcc v ps = none) ∧
    (∀ b f, (occs ps v).getLast? = some (b, f) →
      b < ps.length ∧
      (∃ pr, ps.get? b = some pr ∧
        (f = false → v = pr.1) ∧ (f = true → v = pr.2)) ∧
      findOcc v (ps.drop (b + 1)) = none) := by
  induction ps using List.reverseRecOn with
  | nil =>
    refine ⟨fun _ => rfl, ?_⟩
    intro b f h
    exact absurd h (by simp [occs])
  | append_singleton ps pr ih =>
    rw [occs_snoc]
    by_cases h1 : v = pr.1
    · rw [if_pos h1]
      refine ⟨fun hcon => absurd hcon (by simp), ?_⟩
      intro b f h
      rw [List.getLast?_concat] at h
      simp only [Option.some_inj, Prod.mk.injEq] at h
      obtain ⟨rfl, rfl⟩ := h
      refine ⟨by simp, ⟨pr, ?_, fun _ => h1, fun hcon => by simp at hcon⟩, ?_⟩
      · exact List.get?_concat_length ps pr
      · have : (ps ++ [pr]).drop (ps.length + 1) = [] := by
          apply List.drop_eq_nil_of_le
          simp
        rw [this]
        rfl
    · rw [if_neg h1]
      by_cases h2 : v = pr.2
      · rw [if_pos h2]
        refine ⟨fun hcon => absurd hcon (by simp), ?_⟩
        intro b f h
        rw [List.getLast?_concat] at h
        simp only [Option.some_inj, Prod.mk.injEq] at h
        obtain ⟨rfl, rfl⟩ := h
        refine ⟨by simp, ⟨pr, ?_, fun hcon => by simp at hcon, fun _ => h2⟩, ?_⟩
        · exact List.get?_concat_length ps pr
        · have : (ps ++ [pr]).drop (ps.length + 1) = [] := by
            apply List.drop_eq_nil_of_le
            simp
          rw [this]
          rfl
      · rw [if_neg h2, List.append_nil]
        have hnpr : findOcc v [pr] = none := by
          unfold findOcc
          rw [if_neg (by tauto)]
          rfl
        refine ⟨?_, ?_⟩
        · intro hemp
          rw [findOcc_append_none v ps [pr] (ih.1 hemp), hnpr]
          rfl
        · intro b f h
          obtain ⟨hb, ⟨pr0, hpr0, hf0, hf1⟩, hno⟩ := ih.2 b f h
          refine ⟨by simp; omega, ⟨pr0, ?_, hf0, hf1⟩, ?_⟩
          · rw [List.get?_append hb]
            exact hpr0
          · rw [List.drop_append_eq_append_drop, findOcc_append_none v _ _ hno]
            have h0 : b + 1 - ps.length = 0 := by omega
            rw [h0]
            show Option.map _ (findOcc v [pr]) = none
            rw [hnpr]
            rfl

theorem occs_head (ps : List (Nat × Nat)) (v : Nat) :
    findOcc v ps = (occs ps v).head?.map Prod.fst ∧
    (∀ b f, (occs ps v).head? = some (b, f) →
      ∃ pr, ps.get? b = some pr ∧
        (f = false → v = pr.1) ∧ (f = true → v = pr.2)) := by
  induction ps with
  | nil => exact ⟨rfl, fun b f h => absurd h (by simp [occs])⟩
  | cons q ps ih =>
    unfold occs findOcc
    by_cases h1 : v = q.1
    · rw [if_pos h1, if_pos (Or.inl h1)]
      exact ⟨rfl, by
        intro b f h
        simp only [List.cons_append, List.head?_cons, Option.some_inj, Prod.mk.injEq] at h
        obtain ⟨rfl, rfl⟩ := h
        exact ⟨q, rfl, fun _ => h1, fun hcon => by simp at hcon⟩⟩
    · rw [if_neg h1]
      by_cases h2 : v = q.2
      · rw [if_pos h2, if_pos (Or.inr h2)]
        exact ⟨rfl, by
          intro b f h
          simp only [List.cons_append, List.head?_cons, Option.some_inj, Prod.mk.injEq] at h
          obtain ⟨rfl, rfl⟩ := h
          exact ⟨q, rfl, fun hcon => by simp at hcon, fun _ => h2⟩⟩
      · rw [if_neg h2, if_neg (by tauto), List.nil_append]
        constructor
        · rw [ih.1]
          cases hocc : occs ps v with
          | nil => rfl
          | cons e es => simp
        · intro b f h
          cases hocc : occs ps v with
          | nil => rw [hocc] at h; exact absurd h (by simp)
          | cons e es =>
            rw [hocc] at h
            simp only [List.map_cons, List.head?_cons, Option.some_inj] at h
            obtain ⟨pr0, hpr0, hf0, hf1⟩ := ih.2 e.1 e.2 (by rw [hocc]; rfl)
            injection h with hb hf
            subst hb
            subst hf
            exact ⟨pr0, hpr0, hf0, hf1⟩

theorem setSlot_length (σ : Store) (b : Nat) (up : Bool) (s : Seg) :
    (setSlot σ b up s).length = σ.length := by
  unfold setSlot
  split
  · rfl
  · exact List.length_set σ _ _

theorem setSlot_get_ne (σ : Store) (b : Nat) (up : Bool) (s : Seg) (b' : Nat)
    (hne : b' ≠ b) : (setSlot σ b up s).get? b' = σ.get? b' := by
  unfold setSlot
  split
  · rfl
  · exact List.get?_set_ne _ _ (fun hc => hne hc.symm)

theorem setSlot_get_eq (σ : Store) (b : Nat) (up : Bool) (s : Seg) (bal : Bal)
    (h : σ.get? b = some bal) :
    (setSlot σ b up s).get? b =
      some (if up then { bal with out1 := s } else { bal with out0 := s }) := by
  unfold setSlot
  rw [h]
  have hb : b < σ.length := (List.get?_eq_some.mp h).1
  rw [List.get?_set_eq]
  rw [h]
  rfl

/-! ## One construction step -/

theorem occ_lt_of_none (ps : List (Nat × Nat)) (x : Nat) (e k : Nat) (pr : Nat × Nat)
    (hget : ps.get? e = some pr) (hx : x = pr.1 ∨ x = pr.2)
    (hnone : findOcc x (ps.drop k) = none) : e < k := by
  by_contra hge
  push_neg at hge
  have hmem : pr ∈ ps.drop k := by
    have h2 : (ps.drop k).get? (e - k) = some pr := by
      rw [List.get?_drop]
      rwa [show k + (e - k) = e by omega]
    exact List.get?_mem h2
  have := (findOcc_none_iff x _).mp hnone pr hmem
  tauto

theorem linkOfD_snoc (ps : List (Nat × Nat)) (pr : Nat × Nat) (x k : Nat)
    (hk : k ≤ ps.length) :
    linkOfD (ps ++ [pr]) x k =
      match findOcc x (ps.drop k) with
      | some d => Seg.internal (k + d)
      | none =>
        if x = pr.1 ∨ x = pr.2 then Seg.internal ps.length else Seg.dangling := by
  unfold linkOfD
  rw [List.drop_append_eq_append_drop]
  have h0 : k - ps.length = 0 := by omega
  rw [h0]
  cases hf : findOcc x (ps.drop k) with
  | some d => rw [findOcc_append_some _ _ _ _ hf]
  | none =>
    rw [findOcc_append_none _ _ _ hf]
    by_cases hx : x = pr.1 ∨ x = pr.2
    · have h1 : findOcc x (List.drop 0 [pr]) = some 0 := by
        show findOcc x [pr] = some 0
        simp only [findOcc]
        rw [if_pos hx]
      rw [h1]
      simp only [Option.map_some']
      rw [if_pos hx]
      have h2 : k + (0 + (ps.drop k).length) = ps.length := by
        rw [List.length_drop]
        omega
      rw [h2]
    · have h1 : findOcc x (List.drop 0 [pr]) = none := by
        show findOcc x [pr] = none
        simp only [findOcc]
        rw [if_neg hx]
        rfl
      rw [h1]
      simp only [Option.map_none']
      rw [if_neg hx]

theorem writeLast_length (σ : Store) (hist : List (Nat × Bool)) (s : Seg) :
    (writeLast σ hist s).length = σ.length := by
  unfold writeLast
  split
  · exact setSlot_length _ _ _ _
  · rfl

theorem writeLast_get_other (σ : Store) (hist : List (Nat × Bool)) (s : Seg) (b' : Nat)
    (h : ∀ f, hist.getLast? ≠ some (b', f)) :
    (writeLast σ hist s).get? b' = σ.get? b' := by
  unfold writeLast
  split
  · rename_i b f heq
    apply setSlot_get_ne
    intro hc
    subst hc
    exact h f heq
  · rfl

theorem writeLast_step (σ : Store) (hist : List (Nat × Bool)) (s : Seg) (b' : Nat)
    (bal1 : Bal) (h1 : σ.get? b' = some bal1) :
    ∃ bal2, (writeLast σ hist s).get? b' = some bal2 ∧
      bal2.cnt = bal1.cnt ∧
      bal2.out0 = (if hist.getLast? = some (b', false) then s else bal1.out0) ∧
      bal2.out1 = (if hist.getLast? = some (b', true) then s else bal1.out1) := by
  unfold writeLast
  cases hgu : hist.getLast? with
  | none => exact ⟨bal1, h1, rfl, by simp, by simp⟩
  | some e =>
    obtain ⟨b, f⟩ := e
    by_cases hb : b = b'
    · subst hb
      rw [setSlot_get_eq _ _ _ _ _ h1]
      refine ⟨_, rfl, ?_, ?_, ?_⟩
      · cases f <;> rfl
      · cases f <;> simp
      · cases f <;> simp
    · rw [setSlot_get_ne _ _ _ _ _ (fun hc => hb hc.symm)]
      refine ⟨bal1, h1, rfl, ?_, ?_⟩
      · rw [if_neg (by simp only [Option.some_inj, Prod.mk.injEq, not_and]; intro hc; exact absurd hc hb)]
      · rw [if_neg (by simp only [Option.some_inj, Prod.mk.injEq, not_and]; intro hc; exact absurd hc hb)]

theorem writeLast2_get (σ : Store) (h1 h2 : List (Nat × Bool)) (s : Seg) (b' : Nat)
    (bal0 : Bal) (h0 : σ.get? b' = some bal0) :
    ∃ balF, (writeLast (writeLast σ h1 s) h2 s).get? b' = some balF ∧
      balF.cnt = bal0.cnt ∧
      balF.out0 = (if h1.getLast? = some (b', false) ∨ h2.getLast? = some (b', false)
        then s else bal0.out0) ∧
      balF.out1 = (if h1.getLast? = some (b', true) ∨ h2.getLast? = some (b', true)
        then s else bal0.out1) := by
  obtain ⟨balA, hA, hcA, hoA, hiA⟩ := writeLast_step σ h1 s b' bal0 h0
  obtain ⟨balB, hB, hcB, hoB, hiB⟩ := writeLast_step _ h2 s b' balA hA
  refine ⟨balB, hB, hcB.trans hcA, ?_, ?_⟩
  · rw [hoB, hoA]
    by_cases ha : h1.getLast? = some (b', false) <;>
      by_cases hb2 : h2.getLast? = some (b', false) <;>
      simp [ha, hb2]
  · rw [hiB, hiA]
    by_cases ha : h1.getLast? = some (b', true) <;>
      by_cases hb2 : h2.getLast? = some (b', true) <;>
      simp [ha, hb2]

theorem hist_last_occ (ps : List (Nat × Nat)) (x : Nat) (hist : List (Nat × Bool))
    (hh : hist = occs ps x) (b : Nat) (f : Bool)
    (hg : hist.getLast? = some (b, f)) :
    b < ps.length ∧
    (∃ pr, ps.get? b = some pr ∧ (f = false → x = pr.1) ∧ (f = true → x = pr.2)) ∧
    findOcc x (ps.drop (b + 1)) = none := by
  subst hh
  exact (occs_getLast ps x).2 b f hg

theorem hist_last_of_occ (ps : List (Nat × Nat)) (x : Nat) (hist : List (Nat × Bool))
    (hh : hist = occs ps x) (b : Nat) (pr : Nat × Nat)
    (hget : ps.get? b = some pr) (hprne : pr.1 ≠ pr.2)
    (hx : x = pr.1 ∨ x = pr.2)
    (hnone : findOcc x (ps.drop (b + 1)) = none) :
    hist.getLast? = some (b, if x = pr.1 then false else true) := by
  cases hg : hist.getLast? with
  | none =>
    have hemp : hist = [] := List.getLast?_eq_none.mp hg
    rw [hemp] at hh
    have hfn : findOcc x ps = none := (occs_getLast ps x).1 hh.symm
    have := (findOcc_none_iff x ps).mp hfn pr (List.get?_mem hget)
    tauto
  | some e =>
    obtain ⟨bu, fu⟩ := e
    obtain ⟨hbu, ⟨pru, hpru, hfu0, hfu1⟩, hnu⟩ := hist_last_occ ps x hist hh bu fu hg
    have hxu : x = pru.1 ∨ x = pru.2 := by
      cases fu
      · exact Or.inl (hfu0 rfl)
      · exact Or.inr (hfu1 rfl)
    have hb1 : b < bu + 1 := occ_lt_of_none ps x b (bu + 1) pr hget hx hnu
    have hb2 : bu < b + 1 := occ_lt_of_none ps x bu (b + 1) pru hpru hxu hnone
    have hbb : bu = b := by omega
    subst hbb
    have hpr : pru = pr := by
      rw [hget] at hpru
      exact (Option.some_inj.mp hpru).symm
    rw [hpr] at hfu0 hfu1
    cases fu
    · have hx1 : x = pr.1 := hfu0 rfl
      rw [if_pos hx1]
    · have hx2 : x = pr.2 := hfu1 rfl
      have hx1 : ¬ x = pr.1 := by
        intro hc
        exact hprne (hc ▸ hx2 ▸ rfl)
      rw [if_neg hx1]

theorem pushBal_building (st : BState) (u l : Wire)
    (hB : Building st)
    (hu : u.history = occs st.pairs u.value)
    (hl : l.history = occs st.pairs l.value)
    (hne : u.value ≠ l.value) :
    Building (pushBal st u l) := by
  obtain ⟨hN, hslots⟩ := hB
  unfold Building pushBal
  dsimp only
  constructor
  · rw [writeLast_length, writeLast_length, List.length_append, List.length_append]
    simp [hN]
  · intro b i j hbij
    have hblt : b < st.pairs.length + 1 := by
      have h2 := (List.get?_eq_some.mp hbij).1
      simpa using h2
    by_cases hnew : b = st.pairs.length
    · -- the freshly appended balancer: both slots dangle
      subst hnew
      have hget : (st.pairs ++ [(u.value, l.value)]).get? st.pairs.length =
          some (u.value, l.value) := List.get?_concat_length _ _
      rw [hget] at hbij
      injection hbij with hbij2
      injection hbij2 with hi hj
      subst hi
      subst hj
      have hskipu : ∀ f, u.history.getLast? ≠ some (st.pairs.length, f) := by
        intro f hc
        obtain ⟨hb0, _, _⟩ := hist_last_occ st.pairs u.value u.history hu _ f hc
        omega
      have hskipl : ∀ f, l.history.getLast? ≠ some (st.pairs.length, f) := by
        intro f hc
        obtain ⟨hb0, _, _⟩ := hist_last_occ st.pairs l.value l.history hl _ f hc
        omega
      refine ⟨hne, ⟨0, Seg.dangling, Seg.dangling⟩, ?_, rfl, ?_, ?_⟩
      · rw [writeLast_get_other _ _ _ _ hskipl, writeLast_get_other _ _ _ _ hskipu]
        rw [show st.pairs.length = st.store.length from hN.symm]
        exact List.get?_concat_length _ _
      · show Seg.dangling = linkOfD _ u.value (st.pairs.length + 1)
        unfold linkOfD
        have hdrop : (st.pairs ++ [(u.value, l.value)]).drop (st.pairs.length + 1) = [] := by
          apply List.drop_eq_nil_of_le
          simp
        rw [hdrop]
        rfl
      · show Seg.dangling = linkOfD _ l.value (st.pairs.length + 1)
        unfold linkOfD
        have hdrop : (st.pairs ++ [(u.value, l.value)]).drop (st.pairs.length + 1) = [] := by
          apply List.drop_eq_nil_of_le
          simp
        rw [hdrop]
        rfl
    · -- an old balancer
      have hbps : b < st.pairs.length := by omega
      have hold : st.pairs.get? b = some (i, j) := by
        rw [List.get?_append hbps] at hbij
        exact hbij
      obtain ⟨hij, bal0, hbal0, hcnt0, hout0, hout1⟩ := hslots b i j hold
      have hσ1 : (st.store ++ [(⟨0, Seg.dangling, Seg.dangling⟩ : Bal)]).get? b = some bal0 := by
        rw [List.get?_append (by omega : b < st.store.length)]
        exact hbal0
      obtain ⟨balF, hF, hFc, hFo0, hFo1⟩ :=
        writeLast2_get _ u.history l.history (Seg.internal st.store.length) b bal0 hσ1
      refine ⟨hij, balF, hF, hFc.trans hcnt0, ?_, ?_⟩
      · -- out0 vs the link of component i
        rw [hFo0, hout0]
        rw [linkOfD_snoc _ _ _ _ (by omega : b + 1 ≤ st.pairs.length)]
        cases hfo : findOcc i (st.pairs.drop (b + 1)) with
        | some d =>
          have hcondu : ¬ u.history.getLast? = some (b, false) := by
            intro hc
            obtain ⟨_, ⟨pr0, hpr0, hf0, _⟩, hafter⟩ :=
              hist_last_occ st.pairs u.value u.history hu b false hc
            rw [hold] at hpr0
            have hpr0e := Option.some_inj.mp hpr0
            have : u.value = i := by rw [← hpr0e] at hf0; exact hf0 rfl
            rw [this] at hafter
            rw [hafter] at hfo
            exact Option.noConfusion hfo
          have hcondl : ¬ l.history.getLast? = some (b, false) := by
            intro hc
            obtain ⟨_, ⟨pr0, hpr0, hf0, _⟩, hafter⟩ :=
              hist_last_occ st.pairs l.value l.history hl b false hc
            rw [hold] at hpr0
            have hpr0e := Option.some_inj.mp hpr0
            have : l.value = i := by rw [← hpr0e] at hf0; exact hf0 rfl
            rw [this] at hafter
            rw [hafter] at hfo
            exact Option.noConfusion hfo
          rw [if_neg (by tauto)]
          unfold linkOfD
          rw [hfo]
        | none =>
          by_cases hiu : i = u.value
          · have hhit : u.history.getLast? = some (b, if u.value = i then false else true) := by
              apply hist_last_of_occ st.pairs u.value u.history hu b (i, j) hold hij
              · exact Or.inl hiu.symm
              · rw [← hiu]; exact hfo
            rw [if_pos hiu.symm] at hhit
            rw [if_pos (Or.inl hhit)]
            rw [if_pos (Or.inl hiu)]
            rw [hN]
          · by_cases hil : i = l.value
            · have hhit : l.history.getLast? = some (b, if l.value = i then false else true) := by
                apply hist_last_of_occ st.pairs l.value l.history hl b (i, j) hold hij
                · exact Or.inl hil.symm
                · rw [← hil]; exact hfo
              rw [if_pos hil.symm] at hhit
              rw [if_pos (Or.inr hhit)]
              rw [if_pos (Or.inr hil)]
              rw [hN]
            · have hcondu : ¬ u.history.getLast? = some (b, false) := by
                intro hc
                obtain ⟨_, ⟨pr0, hpr0, hf0, _⟩, _⟩ :=
                  hist_last_occ st.pairs u.value u.history hu b false hc
                rw [hold] at hpr0
                have hpr0e := Option.some_inj.mp hpr0
                have : u.value = i := by rw [← hpr0e] at hf0; exact hf0 rfl
                exact hiu this.symm
              have hcondl : ¬ l.history.getLast? = some (b, false) := by
                intro hc
                obtain ⟨_, ⟨pr0, hpr0, hf0, _⟩, _⟩ :=
                  hist_last_occ st.pairs l.value l.history hl b false hc
                rw [hold] at hpr0
                have hpr0e := Option.some_inj.mp hpr0
                have : l.value = i := by rw [← hpr0e] at hf0; exact hf0 rfl
                exact hil this.symm
              rw [if_neg (by tauto)]
              unfold linkOfD
              rw [hfo]
              rw [if_neg (by
                intro hc
                rcases hc with hc | hc
                · exact hiu hc
                · exact hil hc)]
      · -- out1 vs the link of component j
        rw [hFo1, hout1]
        rw [linkOfD_snoc _ _ _ _ (by omega : b + 1 ≤ st.pairs.length)]
        cases hfo : findOcc j (st.pairs.drop (b + 1)) with
        | some d =>
          have hcondu : ¬ u.history.getLast? = some (b, true) := by
            intro hc
            obtain ⟨_, ⟨pr0, hpr0, _, hf1⟩, hafter⟩ :=
              hist_last_occ st.pairs u.value u.history hu b true hc
            rw [hold] at hpr0
            have hpr0e := Option.some_inj.mp hpr0
            have : u.value = j := by rw [← hpr0e] at hf1; exact hf1 rfl
            rw [this] at hafter
            rw [hafter] at hfo
            exact Option.noConfusion hfo
          have hcondl : ¬ l.history.getLast? = some (b, true) := by
            intro hc
            obtain ⟨_, ⟨pr0, hpr0, _, hf1⟩, hafter⟩ :=
              hist_last_occ st.pairs l.value l.history hl b true hc
            rw [hold] at hpr0
            have hpr0e := Option.some_inj.mp hpr0
            have : l.value = j := by rw [← hpr0e] at hf1; exact hf1 rfl
            rw [this] at hafter
            rw [hafter] at hfo
            exact Option.noConfusion hfo
          rw [if_neg (by tauto)]
          unfold linkOfD
          rw [hfo]
        | none =>
          by_cases hju : j = u.value
          · have hhit : u.history.getLast? = some (b, if u.value = i then false else true) := by
              apply hist_last_of_occ st.pairs u.value u.history hu b (i, j) hold hij
              · exact Or.inr hju.symm
              · rw [← hju]; exact hfo
            have hui : ¬ u.value = i := by
              intro hc
              exact hij (hc.symm.trans hju.symm)
            rw [if_neg hui] at hhit
            rw [if_pos (Or.inl hhit)]
            rw [if_pos (Or.inl hju)]
            rw [hN]
          · by_cases hjl : j = l.value
            · have hhit : l.history.getLast? = some (b, if l.value = i then false else true) := by
                apply hist_last_of_occ st.pairs l.value l.history hl b (i, j) hold hij
                · exact Or.inr hjl.symm
                · rw [← hjl]; exact hfo
              have hli : ¬ l.value = i := by
                intro hc
                exact hij (hc.symm.trans hjl.symm)
              rw [if_neg hli] at hhit
              rw [if_pos (Or.inr hhit)]
              rw [if_pos (Or.inr hjl)]
              rw [hN]
            · have hcondu : ¬ u.history.getLast? = some (b, true) := by
                intro hc
                obtain ⟨_, ⟨pr0, hpr0, _, hf1⟩, _⟩ :=
                  hist_last_occ st.pairs u.value u.history hu b true hc
                rw [hold] at hpr0
                have hpr0e := Option.some_inj.mp hpr0
                have : u.value = j := by rw [← hpr0e] at hf1; exact hf1 rfl
                exact hju this.symm
              have hcondl : ¬ l.history.getLast? = some (b, true) := by
                intro hc
                obtain ⟨_, ⟨pr0, hpr0, _, hf1⟩, _⟩ :=
                  hist_last_occ st.pairs l.value l.history hl b true hc
                rw [hold] at hpr0
                have hpr0e := Option.some_inj.mp hpr0
                have : l.value = j := by rw [← hpr0e] at hf1; exact hf1 rfl
                exact hjl this.symm
              rw [if_neg (by tauto)]
              unfold linkOfD
              rw [hfo]
              rw [if_neg (by
                intro hc
                rcases hc with hc | hc
                · exact hju hc
                · exact hjl hc)]

theorem occs_append_none (ps qs : List (Nat × Nat)) (v : Nat)
    (h : ∀ pr ∈ qs, v ≠ pr.1 ∧ v ≠ pr.2) : occs (ps ++ qs) v = occs ps v := by
  induction qs using List.reverseRecOn with
  | nil => rw [List.append_nil]
  | append_singleton qs pr ih =>
    rw [← List.append_assoc, occs_snoc]
    have hpr := h pr (by simp)
    rw [if_neg hpr.1, if_neg hpr.2, List.append_nil]
    exact ih (fun pr2 hpr2 => h pr2 (by simp [hpr2]))

theorem pushBal_spec (st : BState) (u l : Wire)
    (hB : Building st)
    (hu : u.history = occs st.pairs u.value)
    (hl : l.history = occs st.pairs l.value)
    (hne : u.value ≠ l.value) :
    (pushBal st u l).pairs = st.pairs ++ [(u.value, l.value)] ∧
    Building (pushBal st u l) ∧
    (∀ v, v ≠ u.value → v ≠ l.value →
      occs (pushBal st u l).pairs v = occs st.pairs v) ∧
    occs (pushBal st u l).pairs u.value =
      occs st.pairs u.value ++ [(st.pairs.length, false)] ∧
    occs (pushBal st u l).pairs l.value =
      occs st.pairs l.value ++ [(st.pairs.length, true)] := by
  refine ⟨rfl, pushBal_building st u l hB hu hl hne, ?_, ?_, ?_⟩
  · intro v hvu hvl
    show occs (st.pairs ++ [(u.value, l.value)]) v = _
    rw [occs_snoc]
    dsimp only
    rw [if_neg hvu, if_neg hvl, List.append_nil]
  · show occs (st.pairs ++ [(u.value, l.value)]) u.value = _
    rw [occs_snoc]
    dsimp only
    rw [if_pos rfl]
  · show occs (st.pairs ++ [(u.value, l.value)]) l.value = _
    rw [occs_snoc]
    dsimp only
    rw [if_neg (fun hc => hne hc.symm), if_pos rfl]

theorem merge_wires_spec : ∀ (u l : List Wire) (st : BState),
    u.length = l.length →
    Building st →
    (∀ w ∈ u ++ l, w.history = occs st.pairs w.value) →
    ((u ++ l).map Wire.value).Nodup →
    (merge_wires u l st).2.pairs =
      st.pairs ++ (u.zip l).map (fun p => (p.1.value, p.2.value)) ∧
    Building (merge_wires u l st).2 ∧
    (∀ w ∈ (merge_wires u l st).1,
      w.history = occs (merge_wires u l st).2.pairs w.value) ∧
    (merge_wires u l st).1.map Wire.value =
      interleave (u.map Wire.value) (l.map Wire.value) ∧
    (merge_wires u l st).1.length = u.length + l.length := by
  intro u
  induction u with
  | nil =>
    intro l st hlen hB hw hnd
    have hl0 : l = [] := by
      cases l with
      | nil => rfl
      | cons x xs => exact absurd hlen (by simp)
    subst hl0
    exact ⟨by simp [merge_wires], hB, by simp [merge_wires], rfl, rfl⟩
  | cons u us ih =>
    intro l st hlen hB hw hnd
    cases l with
    | nil => exact absurd hlen (by simp)
    | cons l ls =>
      have hu : u.history = occs st.pairs u.value := hw u (by simp)
      have hl : l.history = occs st.pairs l.value := hw l (by simp)
      -- value bookkeeping
      have hmap : ((u :: us) ++ l :: ls).map Wire.value =
          u.value :: (us.map Wire.value ++ l.value :: ls.map Wire.value) := by
        simp
      rw [hmap] at hnd
      have hnd1 := List.nodup_cons.mp hnd
      obtain ⟨huv_not, hnd2⟩ := hnd1
      have hnd3 : (l.value :: (us.map Wire.value ++ ls.map Wire.value)).Nodup :=
        List.nodup_middle.mp hnd2
      have hnd4 := List.nodup_cons.mp hnd3
      obtain ⟨hlv_not, hnd5⟩ := hnd4
      have hne : u.value ≠ l.value := by
        intro hc
        exact huv_not (by rw [hc]; simp)
      obtain ⟨hpairs1, hB1, hocc_other, hocc_u, hocc_l⟩ :=
        pushBal_spec st u l hB hu hl hne
      -- the inner wires still match after the push
      have hw1 : ∀ w ∈ us ++ ls, w.history = occs (pushBal st u l).pairs w.value := by
        intro w hwmem
        have hv_ne_u : w.value ≠ u.value := by
          intro hc
          apply huv_not
          rw [← hc]
          rcases List.mem_append.mp hwmem with h1 | h1
          · exact List.mem_append.mpr (Or.inl (List.mem_map_of_mem _ h1))
          · exact List.mem_append.mpr (Or.inr (List.mem_cons_of_mem _ (List.mem_map_of_mem _ h1)))
        have hv_ne_l : w.value ≠ l.value := by
          intro hc
          apply hlv_not
          rw [← hc]
          rcases List.mem_append.mp hwmem with h1 | h1
          · exact List.mem_append.mpr (Or.inl (List.mem_map_of_mem _ h1))
          · exact List.mem_append.mpr (Or.inr (List.mem_map_of_mem _ h1))
        rw [hocc_other w.value hv_ne_u hv_ne_l]
        exact hw w (by
          rcases List.mem_append.mp hwmem with h1 | h1
          · exact List.mem_append.mpr (Or.inl (List.mem_cons_of_mem _ h1))
          · exact List.mem_append.mpr (Or.inr (List.mem_cons_of_mem _ h1)))
      have hnd6 : ((us ++ ls).map Wire.value).Nodup := by
        rw [List.map_append]
        exact hnd5
      obtain ⟨ihpairs, ihB, ihw, ihint, ihlen⟩ :=
        ih ls (pushBal st u l) (by simpa using hlen) hB1 hw1 hnd6
      -- the pairs appended by the recursive call avoid u.value and l.value
      have hrest_avoid : ∀ x : Nat, x = u.value ∨ x = l.value →
          ∀ pr ∈ (us.zip ls).map (fun p => (p.1.value, p.2.value)),
          x ≠ pr.1 ∧ x ≠ pr.2 := by
        intro x hx pr hpr
        obtain ⟨p, hpmem, rfl⟩ := List.mem_map.mp hpr
        obtain ⟨hp1, hp2⟩ := List.of_mem_zip hpmem
        have hm1 : p.1.value ∈ us.map Wire.value ++ l.value :: ls.map Wire.value :=
          List.mem_append.mpr (Or.inl (List.mem_map_of_mem _ hp1))
        have hm1b : p.1.value ∈ us.map Wire.value ++ ls.map Wire.value :=
          List.mem_append.mpr (Or.inl (List.mem_map_of_mem _ hp1))
        have hm2 : p.2.value ∈ us.map Wire.value ++ l.value :: ls.map Wire.value :=
          List.mem_append.mpr (Or.inr (List.mem_cons_of_mem _ (List.mem_map_of_mem _ hp2)))
        have hm2b : p.2.value ∈ us.map Wire.value ++ ls.map Wire.value :=
          List.mem_append.mpr (Or.inr (List.mem_map_of_mem _ hp2))
        constructor
        · intro hc
          rcases hx with rfl | rfl
          · exact huv_not (by rw [hc]; exact hm1)
          · exact hlv_not (by rw [hc]; exact hm1b)
        · intro hc
          rcases hx with rfl | rfl
          · exact huv_not (by rw [hc]; exact hm2)
          · exact hlv_not (by rw [hc]; exact hm2b)
      have hres : merge_wires (u :: us) (l :: ls) st =
          (⟨u.value, u.history ++ [(st.store.length, false)]⟩ ::
           ⟨l.value, l.history ++ [(st.store.length, true)]⟩ ::
           (merge_wires us ls (pushBal st u l)).1,
           (merge_wires us ls (pushBal st u l)).2) := rfl
      rw [hres]
      have hstlen : st.store.length = st.pairs.length := hB.1
      refine ⟨?_, ihB, ?_, ?_, ?_⟩
      · rw [ihpairs, hpairs1]
        simp [List.append_assoc]
      · intro w hwmem
        rcases List.mem_cons.mp hwmem with rfl | hwmem
        · show u.history ++ [(st.store.length, false)] = _
          rw [ihpairs,
            occs_append_none _ _ _ (hrest_avoid u.value (Or.inl rfl)),
            hocc_u, ← hu, hstlen]
        · rcases List.mem_cons.mp hwmem with rfl | hwmem
          · show l.history ++ [(st.store.length, true)] = _
            rw [ihpairs,
              occs_append_none _ _ _ (hrest_avoid l.value (Or.inr rfl)),
              hocc_l, ← hl, hstlen]
          · exact ihw w hwmem
      · show u.value :: l.value :: (merge_wires us ls (pushBal st u l)).1.map Wire.value = _
        rw [ihint]
        rfl
      · show (merge_wires us ls (pushBal st u l)).1.length + 1 + 1 = _
        rw [ihlen]
        simp
        omega

/-! ## Equality and cloning ignore balancer state -/

/-- C10: network equality and cloning depend only on the output values.
Two networks with equal outputs compare equal; a network that has served
any number `k` of traversals still compares and clones exactly like the
fresh network; and every balancer of any clone holds the initial toggle
counter 0, whatever the state of the original. -/
theorem eq_clone_ignore_balancer_state {L : Type} [BEq L] [LawfulBEq L]
    (outs : List L) (net netK net2 : BitonicNetwork L) (slot k : Nat) (ps : List Nat)
    (hnew : bitonicNew outs = some net)
    (hrun : traverseRun net slot k = some (ps, netK)) :
    (∀ n m : BitonicNetwork L, n.outputs = m.outputs → bnetEq n m = true) ∧
    bnetEq netK net2 = bnetEq net net2 ∧
    bnetClone netK = bnetClone net ∧
    (∀ m, bnetClone netK = some m → ∀ bal ∈ m.store, bal.cnt = 0) := by
  have hf := traverseRun_fields k net slot ps netK hrun
  refine ⟨?_, ?_, ?_, ?_⟩
  · intro n m hnm
    unfold bnetEq
    rw [hnm]
    exact beq_self_eq_true m.outputs
  · unfold bnetEq
    rw [hf.1]
  · unfold bnetClone
    rw [hf.1]
  · intro m hm
    exact bitonicNew_cnt _ _ hm

/-- Witness: a width-2 network after three traversals (balancer counter 3)
still compares equal to, and clones identically to, the fresh network. -/
theorem eq_clone_ignore_balancer_state_witness :
    (∀ n m : BitonicNetwork Nat, n.outputs = m.outputs → bnetEq n m = true) ∧
    bnetEq (⟨2, [7, 9], [⟨3, Seg.leaf 0, Seg.leaf 1⟩], [0]⟩ : BitonicNetwork Nat)
      ⟨2, [7, 9], [⟨0, Seg.leaf 0, Seg.leaf 1⟩], [0]⟩ =
      bnetEq (⟨2, [7, 9], [⟨0, Seg.leaf 0, Seg.leaf 1⟩], [0]⟩ : BitonicNetwork Nat)
        ⟨2, [7, 9], [⟨0, Seg.leaf 0, Seg.leaf 1⟩], [0]⟩ ∧
    bnetClone (⟨2, [7, 9], [⟨3, Seg.leaf 0, Seg.leaf 1⟩], [0]⟩ : BitonicNetwork Nat) =
      bnetClone (⟨2, [7, 9], [⟨0, Seg.leaf 0, Seg.leaf 1⟩], [0]⟩ : BitonicNetwork Nat) ∧
    (∀ m, bnetClone (⟨2, [7, 9], [⟨3, Seg.leaf 0, Seg.leaf 1⟩], [0]⟩ : BitonicNetwork Nat) =
      some m → ∀ bal ∈ m.store, bal.cnt = 0) :=
  eq_clone_ignore_balancer_state [7, 9]
    ⟨2, [7, 9], [⟨0, Seg.leaf 0, Seg.leaf 1⟩], [0]⟩
    ⟨2, [7, 9], [⟨3, Seg.leaf 0, Seg.leaf 1⟩], [0]⟩
    ⟨2, [7, 9], [⟨0, Seg.leaf 0, Seg.leaf 1⟩], [0]⟩ 0 3 [0, 1, 0]
    (by decide) (by decide)

/-! ## Splitting and interleaving wire lists -/

theorem split_facts_aux : ∀ (n : Nat) (xs : List Wire), xs.length ≤ n →
    (split_even_odd xs).1.length = (xs.length + 1) / 2 ∧
    (split_even_odd xs).2.length = xs.length / 2 ∧
    (∀ p, (split_even_odd xs).1.get? p = xs.get? (2 * p)) ∧
    (∀ p, (split_even_odd xs).2.get? p = xs.get? (2 * p + 1)) ∧
    (split_even_odd xs).1.Sublist xs ∧
    (split_even_odd xs).2.Sublist xs ∧
    ((split_even_odd xs).1 ++ (split_even_odd xs).2).Perm xs := by
  intro n
  induction n with
  | zero =>
    intro xs h
    have hx : xs = [] := List.eq_nil_of_length_eq_zero (Nat.le_zero.mp h)
    subst hx
    exact ⟨rfl, rfl, fun p => rfl, fun p => rfl, List.nil_sublist _,
      List.nil_sublist _, List.Perm.refl _⟩
  | succ n ih =>
    intro xs h
    match xs with
    | [] =>
      exact ⟨rfl, rfl, fun p => rfl, fun p => rfl, List.nil_sublist _,
        List.nil_sublist _, List.Perm.refl _⟩
    | [x] =>
      refine ⟨by simp [split_even_odd], by simp [split_even_odd], ?_, ?_,
        List.Sublist.refl _, List.nil_sublist _, List.Perm.refl _⟩
      · intro p
        cases p with
        | zero => rfl
        | succ q =>
          show ([x] : List Wire).get? (q + 1) = ([x] : List Wire).get? (2 * (q + 1))
          have e1 : ([x] : List Wire).get? (q + 1) = none :=
            List.get?_eq_none.mpr (by simp only [List.length_singleton]; omega)
          have e2 : ([x] : List Wire).get? (2 * (q + 1)) = none :=
            List.get?_eq_none.mpr (by simp only [List.length_singleton]; omega)
          rw [e1, e2]
      · intro p
        show ([] : List Wire).get? p = ([x] : List Wire).get? (2 * p + 1)
        have e1 : ([x] : List Wire).get? (2 * p + 1) = none :=
          List.get?_eq_none.mpr (by simp only [List.length_singleton]; omega)
        rw [e1]
        rfl
    | x :: y :: rest =>
      obtain ⟨h1, h2, h3, h4, h5, h6, h7⟩ := ih rest (by simp at h; omega)
      have hspl : split_even_odd (x :: y :: rest) =
          (x :: (split_even_odd rest).1, y :: (split_even_odd rest).2) := rfl
      rw [hspl]
      refine ⟨?_, ?_, ?_, ?_, ?_, ?_, ?_⟩
      · simp only [List.length_cons, h1]; omega
      · simp only [List.length_cons, h2]; omega
      · intro p
        cases p with
        | zero => rfl
        | succ q =>
          rw [show 2 * (q + 1) = 2 * q + 1 + 1 by omega]
          show (split_even_odd rest).1.get? q = (y :: rest).get? (2 * q + 1)
          rw [h3 q]
          rfl
      · intro p
        cases p with
        | zero => rfl
        | succ q =>
          rw [show 2 * (q + 1) + 1 = 2 * q + 1 + 1 + 1 by omega]
          show (split_even_odd rest).2.get? q = (y :: rest).get? (2 * q + 1 + 1)
          rw [h4 q]
          rfl
      · exact List.Sublist.cons₂ x (List.Sublist.cons y h5)
      · exact List.Sublist.cons x (List.Sublist.cons₂ y h6)
      · show (x :: ((split_even_odd rest).1 ++ y :: (split_even_odd rest).2)).Perm _
        exact List.Perm.cons x (List.perm_middle.trans (List.Perm.cons y h7))

theorem split_facts (xs : List Wire) :
    (split_even_odd xs).1.length = (xs.length + 1) / 2 ∧
    (split_even_odd xs).2.length = xs.length / 2 ∧
    (∀ p, (split_even_odd xs).1.get? p = xs.get? (2 * p)) ∧
    (∀ p, (split_even_odd xs).2.get? p = xs.get? (2 * p + 1)) ∧
    (split_even_odd xs).1.Sublist xs ∧
    (split_even_odd xs).2.Sublist xs ∧
    ((split_even_odd xs).1 ++ (split_even_odd xs).2).Perm xs :=
  split_facts_aux xs.length xs (Nat.le_refl _)

theorem interleave_facts : ∀ (xs ys : List Nat), xs.length = ys.length →
    (interleave xs ys).length = xs.length + ys.length ∧
    (∀ p, (interleave xs ys).get? (2 * p) = xs.get? p) ∧
    (∀ p, (interleave xs ys).get? (2 * p + 1) = ys.get? p) ∧
    (interleave xs ys).Perm (xs ++ ys) := by
  intro xs
  induction xs with
  | nil =>
    intro ys h
    have hy : ys = [] := List.eq_nil_of_length_eq_zero h.symm
    subst hy
    exact ⟨rfl, fun p => rfl, fun p => rfl, List.Perm.refl _⟩
  | cons x xs ih =>
    intro ys h
    cases ys with
    | nil => simp at h
    | cons y ys =>
      obtain ⟨h1, h2, h3, h4⟩ := ih ys (by simpa using h)
      have hil : interleave (x :: xs) (y :: ys) = x :: y :: interleave xs ys := rfl
      rw [hil]
      refine ⟨by simp only [List.length_cons, h1]; omega, ?_, ?_, ?_⟩
      · intro p
        cases p with
        | zero => rfl
        | succ q =>
          rw [show 2 * (q + 1) = 2 * q + 1 + 1 by omega]
          show (interleave xs ys).get? (2 * q) = xs.get? q
          exact h2 q
      · intro p
        cases p with
        | zero => rfl
        | succ q =>
          rw [show 2 * (q + 1) + 1 = 2 * q + 1 + 1 + 1 by omega]
          show (interleave xs ys).get? (2 * q + 1) = ys.get? q
          exact h3 q
      · exact List.Perm.cons x ((List.Perm.cons y h4).trans List.perm_middle.symm)

theorem nodup_indexOf_of_get : ∀ (xs : List Nat) (p : Nat) (v : Nat),
    xs.Nodup → xs.get? p = some v → xs.indexOf v = p := by
  intro xs
  induction xs with
  | nil => intro p v _ h; exact absurd h (by simp)
  | cons a t ih =>
    intro p v hnd h
    cases p with
    | zero =>
      have hva : a = v := by simpa using h
      subst hva
      simp
    | succ q =>
      have ht : t.get? q = some v := h
      have hva : a ≠ v := by
        intro hc
        subst hc
        exact (List.nodup_cons.mp hnd).1 (List.get?_mem ht)
      rw [List.indexOf_cons_ne _ hva, ih q v (List.nodup_cons.mp hnd).2 ht]

/-! ## Scan semantics of a balancer list -/

theorem scanToken_append : ∀ (l1 l2 : List ((Nat × Nat) × Nat)) (t : Nat),
    scanToken (l1 ++ l2) t =
      ((scanToken l2 (scanToken l1 t).1).1,
       (scanToken l1 t).2.1 ++ (scanToken l2 (scanToken l1 t).1).2.1,
       (scanToken l1 t).2.2 + (scanToken l2 (scanToken l1 t).1).2.2) := by
  intro l1
  induction l1 with
  | nil =>
    intro l2 t
    simp [scanToken]
  | cons pc l1 ih =>
    intro l2 t
    obtain ⟨⟨i, j⟩, c⟩ := pc
    show scanToken (((i, j), c) :: (l1 ++ l2)) t = _
    by_cases h : t = i ∨ t = j
    · simp only [scanToken, if_pos h, ih]
      simp [Prod.ext_iff]
      omega
    · simp only [scanToken, if_neg h, ih]
      simp [Prod.ext_iff]

theorem scanToken_skip : ∀ (l : List ((Nat × Nat) × Nat)) (t : Nat),
    (∀ pc ∈ l, t ≠ pc.1.1 ∧ t ≠ pc.1.2) → scanToken l t = (t, l, 0) := by
  intro l
  induction l with
  | nil => intro t _; rfl
  | cons pc l ih =>
    intro t h
    obtain ⟨⟨i, j⟩, c⟩ := pc
    have hh := h ((i, j), c) (by simp)
    simp only [scanToken, if_neg (by simpa using (not_or.mpr hh) : ¬(t = i ∨ t = j))]
    rw [ih t (fun pc2 hpc2 => h pc2 (List.mem_cons_of_mem _ hpc2))]

theorem seqScan_nil_pairs : ∀ ts : List Nat, seqScan [] ts = (ts, []) := by
  intro ts
  induction ts with
  | nil => rfl
  | cons t ts ih => simp [seqScan, scanToken, ih]

theorem seqScan_append_tokens : ∀ (ts1 ts2 : List Nat) (l : List ((Nat × Nat) × Nat)),
    seqScan l (ts1 ++ ts2) =
      ((seqScan l ts1).1 ++ (seqScan (seqScan l ts1).2 ts2).1,
       (seqScan (seqScan l ts1).2 ts2).2) := by
  intro ts1
  induction ts1 with
  | nil => intro ts2 l; simp [seqScan]
  | cons t ts1 ih =>
    intro ts2 l
    show seqScan l (t :: (ts1 ++ ts2)) = _
    simp only [seqScan, ih]
    simp [Prod.ext_iff]

theorem seqScan_cons_pair : ∀ (ts : List Nat) (i j c : Nat) (l : List ((Nat × Nat) × Nat)),
    seqScan (((i, j), c) :: l) ts =
      ((seqScan l (tokensThrough i j c ts).1).1,
       ((i, j), (tokensThrough i j c ts).2) :: (seqScan l (tokensThrough i j c ts).1).2) := by
  intro ts
  induction ts with
  | nil => intro i j c l; rfl
  | cons t ts ih =>
    intro i j c l
    by_cases h : t = i ∨ t = j
    · show seqScan (((i, j), c) :: l) (t :: ts) = _
      simp only [seqScan, scanToken, if_pos h, ih, tokensThrough]
    · show seqScan (((i, j), c) :: l) (t :: ts) = _
      simp only [seqScan, scanToken, if_neg h, ih, tokensThrough]

theorem tokensThrough_counts (i j : Nat) (hij : i ≠ j) : ∀ (ts : List Nat) (c : Nat),
    (tokensThrough i j c ts).1.count i = (ts.count i + ts.count j + 1 - c % 2) / 2 ∧
    (tokensThrough i j c ts).1.count j = (ts.count i + ts.count j + c % 2) / 2 ∧
    (∀ x, x ≠ i → x ≠ j → (tokensThrough i j c ts).1.count x = ts.count x) ∧
    (tokensThrough i j c ts).2 = c + (ts.count i + ts.count j) := by
  have hji : j ≠ i := Ne.symm hij
  intro ts
  induction ts with
  | nil =>
    intro c
    refine ⟨?_, ?_, fun x _ _ => rfl, ?_⟩
    · show ([] : List Nat).count i = _
      simp only [List.count_nil]
      omega
    · show ([] : List Nat).count j = _
      simp only [List.count_nil]
      omega
    · show c = _
      simp only [List.count_nil]
      omega
  | cons t ts ih =>
    intro c
    obtain ⟨r1, r2, r3, r4⟩ := ih (c + 1)
    obtain ⟨s1, s2, s3, s4⟩ := ih c
    by_cases h : t = i ∨ t = j
    · have heq : tokensThrough i j c (t :: ts) =
          ((if c % 2 = 0 then i else j) :: (tokensThrough i j (c + 1) ts).1,
           (tokensThrough i j (c + 1) ts).2) := by
        simp only [tokensThrough]
        rw [if_pos h]
      rw [heq]
      rcases h with h1 | h1
      · rw [h1]
        refine ⟨?_, ?_, ?_, ?_⟩
        · by_cases hc : c % 2 = 0
          · simp only [if_pos hc, List.count_cons_self, List.count_cons_of_ne hji, r1]
            omega
          · simp only [if_neg hc, List.count_cons_self, List.count_cons_of_ne hji,
              List.count_cons_of_ne hij, r1]
            omega
        · by_cases hc : c % 2 = 0
          · simp only [if_pos hc, List.count_cons_self, List.count_cons_of_ne hji, r2]
            omega
          · simp only [if_neg hc, List.count_cons_self, List.count_cons_of_ne hji,
              List.count_cons_of_ne hij, r2]
            omega
        · intro x hxi hxj
          by_cases hc : c % 2 = 0
          · simp only [if_pos hc, List.count_cons_of_ne hxi, r3 x hxi hxj]
          · simp only [if_neg hc, List.count_cons_of_ne hxi, List.count_cons_of_ne hxj,
              r3 x hxi hxj]
        · simp only [List.count_cons_self, List.count_cons_of_ne hji, r4]
          omega
      · rw [h1]
        refine ⟨?_, ?_, ?_, ?_⟩
        · by_cases hc : c % 2 = 0
          · simp only [if_pos hc, List.count_cons_self, List.count_cons_of_ne hij, r1]
            omega
          · simp only [if_neg hc, List.count_cons_self, List.count_cons_of_ne hji,
              List.count_cons_of_ne hij, r1]
            omega
        · by_cases hc : c % 2 = 0
          · simp only [if_pos hc, List.count_cons_self, List.count_cons_of_ne hji,
              List.count_cons_of_ne hij, r2]
            omega
          · simp only [if_neg hc, List.count_cons_self, List.count_cons_of_ne hij, r2]
            omega
        · intro x hxi hxj
          by_cases hc : c % 2 = 0
          · simp only [if_pos hc, List.count_cons_of_ne hxi, List.count_cons_of_ne hxj,
              r3 x hxi hxj]
          · simp only [if_neg hc, List.count_cons_of_ne hxj, r3 x hxi hxj]
        · simp only [List.count_cons_self, List.count_cons_of_ne hij, r4]
          omega
    · have hno := not_or.mp h
      have heq : tokensThrough i j c (t :: ts) =
          (t :: (tokensThrough i j c ts).1, (tokensThrough i j c ts).2) := by
        simp only [tokensThrough]
        rw [if_neg h]
      rw [heq]
      refine ⟨?_, ?_, ?_, ?_⟩
      · simp only [List.count_cons_of_ne (Ne.symm hno.1),
          List.count_cons_of_ne (Ne.symm hno.2), s1]
      · simp only [List.count_cons_of_ne (Ne.symm hno.1),
          List.count_cons_of_ne (Ne.symm hno.2), s2]
      · intro x hxi hxj
        by_cases hxt : x = t
        · subst hxt
          simp only [List.count_cons_self, s3 x hxi hxj]
        · simp only [List.count_cons_of_ne hxt, s3 x hxi hxj]
      · simp only [List.count_cons_of_ne (Ne.symm hno.1), List.count_cons_of_ne (Ne.symm hno.2), s4]

/-! ## Count-flow abstraction -/

theorem flowCounts_cons (pr : Nat × Nat) (ps : List (Nat × Nat)) (v : Nat → Nat) :
    flowCounts (pr :: ps) v = flowCounts ps (flowStep v pr) := rfl

theorem flowCounts_append (ps qs : List (Nat × Nat)) (v : Nat → Nat) :
    flowCounts (ps ++ qs) v = flowCounts qs (flowCounts ps v) :=
  List.foldl_append _ _ _ _

theorem flowStep_frame (v : Nat → Nat) (pr : Nat × Nat) (x : Nat)
    (h1 : x ≠ pr.1) (h2 : x ≠ pr.2) : flowStep v pr x = v x := by
  unfold flowStep
  rw [if_neg h1, if_neg h2]

theorem flowCounts_frame : ∀ (ps : List (Nat × Nat)) (v : Nat → Nat) (x : Nat),
    (∀ pr ∈ ps, x ≠ pr.1 ∧ x ≠ pr.2) → flowCounts ps v x = v x := by
  intro ps
  induction ps with
  | nil => intro v x _; rfl
  | cons pr ps ih =>
    intro v x h
    rw [flowCounts_cons, ih _ _ (fun q hq => h q (List.mem_cons_of_mem _ hq)),
      flowStep_frame _ _ _ (h pr (by simp)).1 (h pr (by simp)).2]

theorem seqScan_counts : ∀ (ps : List (Nat × Nat)), (∀ pr ∈ ps, pr.1 ≠ pr.2) →
    ∀ (ts : List Nat) (x : Nat),
    ((seqScan (ps.map (fun pr => (pr, 0))) ts).1).count x =
      flowCounts ps (fun y => ts.count y) x := by
  intro ps
  induction ps with
  | nil =>
    intro _ ts x
    rw [List.map_nil, seqScan_nil_pairs]
    rfl
  | cons pr ps ih =>
    intro hne ts x
    obtain ⟨i, j⟩ := pr
    have hij : i ≠ j := hne (i, j) (by simp)
    have hji : j ≠ i := Ne.symm hij
    rw [List.map_cons, seqScan_cons_pair,
      ih (fun q hq => hne q (List.mem_cons_of_mem _ hq)) (tokensThrough i j 0 ts).1 x,
      flowCounts_cons]
    have hfun : (fun y => (tokensThrough i j 0 ts).1.count y) =
        flowStep (fun y => ts.count y) (i, j) := by
      funext y
      obtain ⟨c1, c2, c3, _⟩ := tokensThrough_counts i j hij ts 0
      by_cases hyi : y = i
      · subst hyi
        rw [c1]
        unfold flowStep
        dsimp only
        rw [if_pos rfl]
        omega
      · by_cases hyj : y = j
        · subst hyj
          rw [c2]
          unfold flowStep
          dsimp only
          rw [if_neg hji, if_pos rfl]
          omega
        · rw [c3 y hyi hyj, flowStep_frame _ _ _ hyi hyj]
    rw [hfun]

/-! ## Structural facts of the scan -/

theorem scanToken_fst : ∀ (l : List ((Nat × Nat) × Nat)) (t : Nat),
    (scanToken l t).2.1.map Prod.fst = l.map Prod.fst := by
  intro l
  induction l with
  | nil => intro t; rfl
  | cons pc l ih =>
    intro t
    obtain ⟨⟨i, j⟩, c⟩ := pc
    by_cases h : t = i ∨ t = j
    · simp only [scanToken, if_pos h, List.map_cons, ih]
    · simp only [scanToken, if_neg h, List.map_cons, ih]

theorem seqScan_fst : ∀ (ts : List Nat) (l : List ((Nat × Nat) × Nat)),
    (seqScan l ts).2.map Prod.fst = l.map Prod.fst := by
  intro ts
  induction ts with
  | nil => intro l; rfl
  | cons t ts ih =>
    intro l
    show (seqScan (scanToken l t).2.1 ts).2.map Prod.fst = _
    rw [ih, scanToken_fst]

theorem map_fst_split : ∀ (l : List ((Nat × Nat) × Nat)) (d1 d2 : List (Nat × Nat)),
    l.map Prod.fst = d1 ++ d2 →
    ∃ l1 l2, l = l1 ++ l2 ∧ l1.map Prod.fst = d1 ∧ l2.map Prod.fst = d2 := by
  intro l d1
  induction d1 generalizing l with
  | nil => intro d2 h; exact ⟨[], l, rfl, rfl, h⟩
  | cons a d1 ih =>
    intro d2 h
    cases l with
    | nil => simp at h
    | cons pc l =>
      simp only [List.map_cons, List.cons_append] at h
      injection h with h1 h2
      obtain ⟨l1, l2, rfl, hm1, hm2⟩ := ih l d2 h2
      exact ⟨pc :: l1, l2, rfl, by simp [hm1, h1], hm2⟩

theorem scanToken_ziplayer : ∀ (w1 : List Nat) (w2 : List Nat)
    (l : List ((Nat × Nat) × Nat)) (t : Nat),
    w1.length = w2.length → l.map Prod.fst = List.zip w1 w2 → (w1 ++ w2).Nodup →
    t ∈ w1 ++ w2 →
    (scanToken l t).1 ∈ w1 ++ w2 ∧ (scanToken l t).2.2 = 1 := by
  intro w1
  induction w1 with
  | nil =>
    intro w2 l t hlen hmap hnd hmem
    have hw2 : w2 = [] := List.eq_nil_of_length_eq_zero hlen.symm
    subst hw2
    simp at hmem
  | cons x xs ih =>
    intro w2 l t hlen hmap hnd hmem
    cases w2 with
    | nil => simp at hlen
    | cons y ys =>
      cases l with
      | nil => simp [List.zip_cons_cons] at hmap
      | cons pc l =>
        obtain ⟨pr, c⟩ := pc
        rw [List.zip_cons_cons] at hmap
        simp only [List.map_cons] at hmap
        have hpr : pr = (x, y) := by injection hmap
        have hl : l.map Prod.fst = List.zip xs ys := by injection hmap
        subst hpr
        have hx_not : x ∉ xs ++ y :: ys := (List.nodup_cons.mp hnd).1
        have hnd2 := (List.nodup_cons.mp hnd).2
        have hy_not : y ∉ xs ++ ys := (List.nodup_cons.mp (List.nodup_middle.mp hnd2)).1
        have hnd3 : (xs ++ ys).Nodup := (List.nodup_cons.mp (List.nodup_middle.mp hnd2)).2
        have hcomp : ∀ pc2 ∈ l, pc2.1.1 ∈ xs ∧ pc2.1.2 ∈ ys := by
          intro pc2 hpc2
          have hmem2 : (pc2.1.1, pc2.1.2) ∈ List.zip xs ys := by
            rw [← hl]
            exact List.mem_map_of_mem _ hpc2
          exact List.of_mem_zip hmem2
        by_cases h : t = x ∨ t = y
        · have hstep : scanToken (((x, y), c) :: l) t =
              ((scanToken l (if c % 2 = 0 then x else y)).1,
               ((x, y), c + 1) :: (scanToken l (if c % 2 = 0 then x else y)).2.1,
               (scanToken l (if c % 2 = 0 then x else y)).2.2 + 1) := by
            simp only [scanToken]
            rw [if_pos h]
          rw [hstep]
          have hskip : scanToken l (if c % 2 = 0 then x else y) =
              ((if c % 2 = 0 then x else y), l, 0) := by
            apply scanToken_skip
            intro pc2 hpc2
            obtain ⟨hc1, hc2⟩ := hcomp pc2 hpc2
            by_cases hc : c % 2 = 0
            · rw [if_pos hc]
              constructor
              · intro hcon
                exact hx_not (by rw [hcon]; exact List.mem_append.mpr (Or.inl hc1))
              · intro hcon
                exact hx_not (by
                  rw [hcon]
                  exact List.mem_append.mpr (Or.inr (List.mem_cons_of_mem _ hc2)))
            · rw [if_neg hc]
              constructor
              · intro hcon
                exact hy_not (by rw [hcon]; exact List.mem_append.mpr (Or.inl hc1))
              · intro hcon
                exact hy_not (by rw [hcon]; exact List.mem_append.mpr (Or.inr hc2))
          rw [hskip]
          refine ⟨?_, rfl⟩
          by_cases hc : c % 2 = 0
          · rw [if_pos hc]
            exact List.mem_append.mpr (Or.inl (List.mem_cons_self _ _))
          · rw [if_neg hc]
            exact List.mem_append.mpr (Or.inr (List.mem_cons_self _ _))
        · have hstep : scanToken (((x, y), c) :: l) t =
              ((scanToken l t).1, ((x, y), c) :: (scanToken l t).2.1,
               (scanToken l t).2.2) := by
            simp only [scanToken]
            rw [if_neg h]
          rw [hstep]
          have hno := not_or.mp h
          have hmem2 : t ∈ xs ++ ys := by
            rcases List.mem_append.mp hmem with h1 | h1
            · rcases List.mem_cons.mp h1 with rfl | h1
              · exact absurd rfl hno.1
              · exact List.mem_append.mpr (Or.inl h1)
            · rcases List.mem_cons.mp h1 with rfl | h1
              · exact absurd rfl hno.2
              · exact List.mem_append.mpr (Or.inr h1)
          obtain ⟨hm, hs⟩ := ih ys l t (by simpa using hlen) hl hnd3 hmem2
          refine ⟨?_, hs⟩
          rcases List.mem_append.mp hm with h1 | h1
          · exact List.mem_append.mpr (Or.inl (List.mem_cons_of_mem _ h1))
          · exact List.mem_append.mpr (Or.inr (List.mem_cons_of_mem _ h1))

theorem flow_ziplayer : ∀ (w1 w2 : List Nat) (f : Nat → Nat),
    w1.length = w2.length → (w1 ++ w2).Nodup →
    (∀ q xq yq, w1.get? q = some xq → w2.get? q = some yq →
      flowCounts (List.zip w1 w2) f xq = (f xq + f yq + 1) / 2 ∧
      flowCounts (List.zip w1 w2) f yq = (f xq + f yq) / 2) ∧
    (∀ x, x ∉ w1 ++ w2 → flowCounts (List.zip w1 w2) f x = f x) := by
  intro w1
  induction w1 with
  | nil =>
    intro w2 f hlen hnd
    have hw2 : w2 = [] := List.eq_nil_of_length_eq_zero hlen.symm
    subst hw2
    exact ⟨fun q xq yq hq => absurd hq (by simp), fun x _ => rfl⟩
  | cons x xs ih =>
    intro w2 f hlen hnd
    cases w2 with
    | nil => simp at hlen
    | cons y ys =>
      rw [List.zip_cons_cons, flowCounts_cons]
      have hx_not : x ∉ xs ++ y :: ys := (List.nodup_cons.mp hnd).1
      have hnd2 := (List.nodup_cons.mp hnd).2
      have hy_not : y ∉ xs ++ ys := (List.nodup_cons.mp (List.nodup_middle.mp hnd2)).1
      have hnd3 : (xs ++ ys).Nodup := (List.nodup_cons.mp (List.nodup_middle.mp hnd2)).2
      have hxy : x ≠ y := fun hc => hx_not (by
        rw [hc]
        exact List.mem_append.mpr (Or.inr (List.mem_cons_self _ _)))
      have hzipfr : ∀ z, z ∉ xs ++ ys →
          flowCounts (List.zip xs ys) (flowStep f (x, y)) z = flowStep f (x, y) z := by
        intro z hz
        apply flowCounts_frame
        intro pr hpr
        obtain ⟨h1, h2⟩ := List.of_mem_zip (show (pr.1, pr.2) ∈ _ from hpr)
        constructor
        · intro hc
          exact hz (by rw [hc]; exact List.mem_append.mpr (Or.inl h1))
        · intro hc
          exact hz (by rw [hc]; exact List.mem_append.mpr (Or.inr h2))
      obtain ⟨ihq, ihf⟩ := ih ys (flowStep f (x, y)) (by simpa using hlen) hnd3
      constructor
      · intro q xq yq hxq hyq
        cases q with
        | zero =>
          have hxq0 : x = xq := by simpa using hxq
          have hyq0 : y = yq := by simpa using hyq
          subst hxq0
          subst hyq0
          have hxmem : x ∉ xs ++ ys := by
            intro hc
            rcases List.mem_append.mp hc with h1 | h1
            · exact hx_not (List.mem_append.mpr (Or.inl h1))
            · exact hx_not (List.mem_append.mpr (Or.inr (List.mem_cons_of_mem _ h1)))
          have hymem : y ∉ xs ++ ys := hy_not
          rw [hzipfr x hxmem, hzipfr y hymem]
          unfold flowStep
          dsimp only
          rw [if_pos rfl, if_neg (Ne.symm hxy), if_pos rfl]
          exact ⟨rfl, rfl⟩
        | succ q =>
          have hxq' : xs.get? q = some xq := hxq
          have hyq' : ys.get? q = some yq := hyq
          obtain ⟨e1, e2⟩ := ihq q xq yq hxq' hyq'
          rw [e1, e2]
          have hxqmem : xq ∈ xs := List.get?_mem hxq'
          have hyqmem : yq ∈ ys := List.get?_mem hyq'
          have h1 : xq ≠ x := fun hc => hx_not (by
            rw [← hc]
            exact List.mem_append.mpr (Or.inl hxqmem))
          have h2 : xq ≠ y := fun hc => hy_not (by
            rw [← hc]
            exact List.mem_append.mpr (Or.inl hxqmem))
          have h3 : yq ≠ x := fun hc => hx_not (by
            rw [← hc]
            exact List.mem_append.mpr (Or.inr (List.mem_cons_of_mem _ hyqmem)))
          have h4 : yq ≠ y := fun hc => hy_not (by
            rw [← hc]
            exact List.mem_append.mpr (Or.inr hyqmem))
          rw [flowStep_frame f (x, y) xq h1 h2, flowStep_frame f (x, y) yq h3 h4]
          exact ⟨rfl, rfl⟩
      · intro z hz
        have hz1 : z ∉ xs ++ ys := by
          intro hc
          rcases List.mem_append.mp hc with h1 | h1
          · exact hz (List.mem_append.mpr (Or.inl (List.mem_cons_of_mem _ h1)))
          · exact hz (List.mem_append.mpr (Or.inr (List.mem_cons_of_mem _ h1)))
        have hz2 : z ≠ x := fun hc => hz (by
          rw [hc]
          exact List.mem_append.mpr (Or.inl (List.mem_cons_self _ _)))
        have hz3 : z ≠ y := fun hc => hz (by
          rw [hc]
          exact List.mem_append.mpr (Or.inr (List.mem_cons_self _ _)))
        rw [ihf z hz1, flowStep_frame f (x, y) z hz2 hz3]


/-! ## The merger: shape, flow and depth (Aspnes–Herlihy–Shavit merge lemma) -/

theorem merge_master : ∀ (m : Nat) (fuel : Nat) (us ls : List Wire) (st : BState),
    m + 1 ≤ fuel →
    us.length = 2 ^ m → ls.length = 2 ^ m →
    Building st →
    (∀ w ∈ us ++ ls, w.history = occs st.pairs w.value) →
    ((us ++ ls).map Wire.value).Nodup →
    ∃ ws st2 dl,
      merge_networks fuel us ls st = some (ws, st2) ∧
      Building st2 ∧
      (∀ w ∈ ws, w.history = occs st2.pairs w.value) ∧
      (ws.map Wire.value).Perm ((us ++ ls).map Wire.value) ∧
      ws.length = 2 ^ (m + 1) ∧
      st2.pairs = st.pairs ++ dl ∧
      dl.length = (m + 1) * 2 ^ m ∧
      (∀ pr ∈ dl, pr.1 ∈ (us ++ ls).map Wire.value ∧
        pr.2 ∈ (us ++ ls).map Wire.value ∧ pr.1 ≠ pr.2) ∧
      (m = 0 → ∃ xu xl, us.map Wire.value = [xu] ∧ ls.map Wire.value = [xl] ∧
        dl = [(xu, xl)]) ∧
      (∀ (a b : Nat) (v : Nat → Nat),
        chiProfile a (us.map Wire.value) v →
        chiProfile b (ls.map Wire.value) v →
        chiProfile (a + b) (ws.map Wire.value) (flowCounts dl v) ∧
        (∀ x, x ∉ (us ++ ls).map Wire.value → flowCounts dl v x = v x)) ∧
      (∀ (l : List ((Nat × Nat) × Nat)) (t : Nat),
        l.map Prod.fst = dl → t ∈ (us ++ ls).map Wire.value →
        (scanToken l t).1 ∈ ws.map Wire.value ∧ (scanToken l t).2.2 = m + 1) := by
  intro m
  induction m with
  | zero =>
    intro fuel us ls st hfuel hlu hll hB hw hnd
    obtain ⟨u, rfl⟩ := List.length_eq_one.mp hlu
    obtain ⟨l, rfl⟩ := List.length_eq_one.mp hll
    cases fuel with
    | zero => omega
    | succ f =>
      have hred : merge_networks (f + 1) [u] [l] st = some (merge_wires [u] [l] st) := by
        simp [merge_networks]
      obtain ⟨mp, mB, mw, mint, mlen⟩ := merge_wires_spec [u] [l] st rfl hB hw hnd
      have hne : u.value ≠ l.value := by simpa using hnd
      refine ⟨(merge_wires [u] [l] st).1, (merge_wires [u] [l] st).2,
        [(u.value, l.value)], hred, mB, mw, ?_, ?_, ?_, rfl, ?_, ?_, ?_, ?_⟩
      · rw [mint]
        exact List.Perm.refl _
      · rw [mlen]
        rfl
      · rw [mp]
        simp
      · intro pr hpr
        have : pr = (u.value, l.value) := by simpa using hpr
        subst this
        refine ⟨by simp, by simp, hne⟩
      · intro _
        exact ⟨u.value, l.value, rfl, rfl, rfl⟩
      · intro a b v hA hB2
        have hva : v u.value = a := by
          have := hA 0 u.value (by simp)
          rw [this]
          exact chi_one a
        have hvb : v l.value = b := by
          have := hB2 0 l.value (by simp)
          rw [this]
          exact chi_one b
        have hflow : ∀ y, flowCounts [(u.value, l.value)] v y = flowStep v (u.value, l.value) y :=
          fun y => rfl
        constructor
        · intro p x hget
          rw [mint] at hget
          have hil : interleave ([u].map Wire.value) ([l].map Wire.value) =
              [u.value, l.value] := rfl
          rw [hil] at hget
          have hlen2 : ((merge_wires [u] [l] st).1.map Wire.value).length = 2 := by
            rw [mint]
            rfl
          rw [hlen2]
          match p, hget with
          | 0, hget =>
            have hx : x = u.value := by simpa using hget.symm
            subst hx
            rw [hflow]
            unfold flowStep
            dsimp only
            rw [if_pos rfl, hva, hvb]
            unfold chi
            congr 1
            try omega
          | 1, hget =>
            have hx : x = l.value := by simpa using hget.symm
            subst hx
            rw [hflow]
            unfold flowStep
            dsimp only
            rw [if_neg (Ne.symm hne), if_pos rfl, hva, hvb]
            unfold chi
            congr 1
            try omega
        · intro x hx
          have hx1 : x ≠ u.value := by
            intro hc
            exact hx (by rw [hc]; simp)
          have hx2 : x ≠ l.value := by
            intro hc
            exact hx (by rw [hc]; simp)
          rw [hflow]
          exact flowStep_frame v (u.value, l.value) x hx1 hx2
      · intro lst t hlst hmem
        cases lst with
        | nil => simp at hlst
        | cons pc lst2 =>
          obtain ⟨pr, c⟩ := pc
          simp only [List.map_cons] at hlst
          have hpr : pr = (u.value, l.value) := by injection hlst
          have hlst2 : lst2.map Prod.fst = [] := by injection hlst
          have hnil : lst2 = [] := List.map_eq_nil.mp hlst2
          subst hpr
          subst hnil
          have hor : t = u.value ∨ t = l.value := by simpa using hmem
          have hstep : scanToken [((u.value, l.value), c)] t =
              ((if c % 2 = 0 then u.value else l.value),
               [((u.value, l.value), c + 1)], 1) := by
            simp only [scanToken]
            rw [if_pos hor]
          rw [hstep]
          rw [mint]
          constructor
          · by_cases hc : c % 2 = 0
            · rw [if_pos hc]
              show u.value ∈ [u.value, l.value]
              simp
            · rw [if_neg hc]
              show l.value ∈ [u.value, l.value]
              simp
          · rfl
  | succ m ih =>
    intro fuel us ls st hfuel hlu hll hB hw hnd
    cases fuel with
    | zero => omega
    | succ f =>
      have h2m : (2:Nat) ^ (m + 1) = 2 * 2 ^ m := by rw [Nat.pow_succ]; ring
      have h2m2 : (2:Nat) ^ (m + 2) = 2 * 2 ^ (m + 1) := by rw [Nat.pow_succ]; ring
      have hpow1 : 1 ≤ (2:Nat) ^ m := Nat.one_le_two_pow
      obtain ⟨sU1len, sU2len, sU1get, sU2get, sU1sub, sU2sub, sUperm⟩ := split_facts us
      obtain ⟨sL1len, sL2len, sL1get, sL2get, sL1sub, sL2sub, sLperm⟩ := split_facts ls
      obtain ⟨uE, uO, huEO⟩ : ∃ a b, split_even_odd us = (a, b) := ⟨_, _, rfl⟩
      obtain ⟨lE, lO, hlEO⟩ : ∃ a b, split_even_odd ls = (a, b) := ⟨_, _, rfl⟩
      rw [huEO] at sU1len sU2len sU1get sU2get sU1sub sU2sub sUperm
      rw [hlEO] at sL1len sL2len sL1get sL2get sL1sub sL2sub sLperm
      dsimp only at sU1len sU2len sU1get sU2get sU1sub sU2sub sUperm
      dsimp only at sL1len sL2len sL1get sL2get sL1sub sL2sub sLperm
      have huElen : uE.length = 2 ^ m := by rw [sU1len, hlu, h2m]; omega
      have huOlen : uO.length = 2 ^ m := by rw [sU2len, hlu, h2m]; omega
      have hlElen : lE.length = 2 ^ m := by rw [sL1len, hll, h2m]; omega
      have hlOlen : lO.length = 2 ^ m := by rw [sL2len, hll, h2m]; omega
      have hmemU : ∀ w ∈ uE ++ lO, w ∈ us ++ ls := by
        intro w hwm
        rcases List.mem_append.mp hwm with h1 | h1
        · exact List.mem_append.mpr (Or.inl (sU1sub.subset h1))
        · exact List.mem_append.mpr (Or.inr (sL2sub.subset h1))
      have hmemO : ∀ w ∈ uO ++ lE, w ∈ us ++ ls := by
        intro w hwm
        rcases List.mem_append.mp hwm with h1 | h1
        · exact List.mem_append.mpr (Or.inl (sU2sub.subset h1))
        · exact List.mem_append.mpr (Or.inr (sL1sub.subset h1))
      have hgrp : (((uE ++ lO).map Wire.value) ++ ((uO ++ lE).map Wire.value)).Perm
          ((us ++ ls).map Wire.value) := by
        apply List.perm_iff_count.mpr
        intro x
        have c1 := (sUperm.map Wire.value).count_eq x
        have c2 := (sLperm.map Wire.value).count_eq x
        simp only [List.map_append, List.count_append] at c1 c2 ⊢
        omega
      have hnd_grp := (hgrp.nodup_iff).mpr hnd
      obtain ⟨nd1, nd2, disj⟩ := List.nodup_append.mp hnd_grp
      have hsubE : ∀ x ∈ (uE ++ lO).map Wire.value, x ∈ (us ++ ls).map Wire.value := by
        intro x hx
        obtain ⟨w, hwm, rfl⟩ := List.mem_map.mp hx
        exact List.mem_map_of_mem _ (hmemU w hwm)
      have hsubO : ∀ x ∈ (uO ++ lE).map Wire.value, x ∈ (us ++ ls).map Wire.value := by
        intro x hx
        obtain ⟨w, hwm, rfl⟩ := List.mem_map.mp hx
        exact List.mem_map_of_mem _ (hmemO w hwm)
      have hw1 : ∀ w ∈ uE ++ lO, w.history = occs st.pairs w.value :=
        fun w hwm => hw w (hmemU w hwm)
      obtain ⟨ws1, st1, dl1, r1eq, B1, w1hist, p1perm, len1, pairs1, dlen1, comp1, -,
        flow1, steps1⟩ := ih f uE lO st (by omega) huElen hlOlen hB hw1 nd1
      have hw2 : ∀ w ∈ uO ++ lE, w.history = occs st1.pairs w.value := by
        intro w hwm
        have hwv : w.value ∈ (uO ++ lE).map Wire.value := List.mem_map_of_mem _ hwm
        have hocc : occs (st.pairs ++ dl1) w.value = occs st.pairs w.value := by
          apply occs_append_none
          intro pr hpr
          obtain ⟨hc1, hc2, -⟩ := comp1 pr hpr
          constructor
          · intro hc
            exact disj (by rw [hc]; exact hc1) hwv
          · intro hc
            exact disj (by rw [hc]; exact hc2) hwv
        rw [pairs1, hocc]
        exact hw w (hmemO w hwm)
      obtain ⟨ws2, st2, dl2, r2eq, B2, w2hist, p2perm, len2, pairs2, dlen2, comp2, -,
        flow2, steps2⟩ := ih f uO lE st1 (by omega) huOlen hlElen B1 hw2 nd2
      have hlen12 : ws1.length = ws2.length := by rw [len1, len2]
      have hvlen12 : (ws1.map Wire.value).length = (ws2.map Wire.value).length := by
        rw [List.length_map, List.length_map, len1, len2]
      have hws1vlen : (ws1.map Wire.value).length = 2 ^ (m + 1) := by
        rw [List.length_map, len1]
      have hws2vlen : (ws2.map Wire.value).length = 2 ^ (m + 1) := by
        rw [List.length_map, len2]
      have hp12 : ((ws1.map Wire.value) ++ (ws2.map Wire.value)).Perm
          (((uE ++ lO).map Wire.value) ++ ((uO ++ lE).map Wire.value)) :=
        p1perm.append p2perm
      have hw12 : ∀ w ∈ ws1 ++ ws2, w.history = occs st2.pairs w.value := by
        intro w hwm
        rcases List.mem_append.mp hwm with h1 | h1
        · have hwv : w.value ∈ (uE ++ lO).map Wire.value :=
            p1perm.subset (List.mem_map_of_mem _ h1)
          have hocc : occs (st1.pairs ++ dl2) w.value = occs st1.pairs w.value := by
            apply occs_append_none
            intro pr hpr
            obtain ⟨hc1, hc2, -⟩ := comp2 pr hpr
            constructor
            · intro hc
              exact disj hwv (by rw [hc]; exact hc1)
            · intro hc
              exact disj hwv (by rw [hc]; exact hc2)
          rw [pairs2, hocc]
          exact w1hist w h1
        · exact w2hist w h1
      have hnd12 : ((ws1 ++ ws2).map Wire.value).Nodup := by
        rw [List.map_append]
        exact ((hp12.trans hgrp).nodup_iff).mpr hnd
      have hnd12' : ((ws1.map Wire.value) ++ (ws2.map Wire.value)).Nodup := by
        rw [← List.map_append]
        exact hnd12
      obtain ⟨mwpairs, mwB, mwhist, mwint, mwlen⟩ :=
        merge_wires_spec ws1 ws2 st2 hlen12 B2 hw12 hnd12
      obtain ⟨hillen, hil1, hil2, hilperm⟩ :=
        interleave_facts (ws1.map Wire.value) (ws2.map Wire.value) hvlen12
      have hguard : ¬ (us.length + ls.length == 2) = true := by
        rw [beq_iff_eq, hlu, hll, h2m]
        omega
      have hred : merge_networks (f + 1) us ls st = some (merge_wires ws1 ws2 st2) := by
        simp only [merge_networks]
        rw [if_neg hguard, huEO, hlEO]
        dsimp only
        rw [r1eq]
        dsimp only
        rw [r2eq]
      have hzm_eq : (ws1.zip ws2).map (fun p => (p.1.value, p.2.value)) =
          List.zip (ws1.map Wire.value) (ws2.map Wire.value) := by
        rw [List.zip_map]
        rfl
      refine ⟨(merge_wires ws1 ws2 st2).1, (merge_wires ws1 ws2 st2).2,
        dl1 ++ dl2 ++ (ws1.zip ws2).map (fun p => (p.1.value, p.2.value)),
        hred, mwB, mwhist, ?_, ?_, ?_, ?_, ?_, ?_, ?_, ?_⟩
      · rw [mwint]
        exact hilperm.trans (hp12.trans hgrp)
      · rw [mwlen, len1, len2, h2m2]
        omega
      · rw [mwpairs, pairs2, pairs1]
        simp [List.append_assoc]
      · simp only [List.length_append, dlen1, dlen2, List.length_map,
          List.length_zip, len1, len2, Nat.min_self, h2m]
        ring
      · intro pr hpr
        rcases List.mem_append.mp hpr with h1 | h1
        · rcases List.mem_append.mp h1 with h2 | h2
          · obtain ⟨hc1, hc2, hc3⟩ := comp1 pr h2
            exact ⟨hsubE _ hc1, hsubE _ hc2, hc3⟩
          · obtain ⟨hc1, hc2, hc3⟩ := comp2 pr h2
            exact ⟨hsubO _ hc1, hsubO _ hc2, hc3⟩
        · obtain ⟨p2, hp2mem, rfl⟩ := List.mem_map.mp h1
          obtain ⟨hz1, hz2⟩ := List.of_mem_zip (show (p2.1, p2.2) ∈ _ from hp2mem)
          have hv1 : p2.1.value ∈ ws1.map Wire.value := List.mem_map_of_mem _ hz1
          have hv2 : p2.2.value ∈ ws2.map Wire.value := List.mem_map_of_mem _ hz2
          obtain ⟨-, -, disj12⟩ := List.nodup_append.mp hnd12'
          refine ⟨hgrp.subset (hp12.subset (List.mem_append.mpr (Or.inl hv1))),
            hgrp.subset (hp12.subset (List.mem_append.mpr (Or.inr hv2))), ?_⟩
          intro hc
          dsimp only at hc
          exact disj12 (hc ▸ hv1) hv2
      · intro hc
        exact absurd hc (Nat.succ_ne_zero m)
      · intro a b v hA hB2
        have husvlen : (us.map Wire.value).length = 2 * 2 ^ m := by
          rw [List.length_map, hlu, h2m]
        have hlsvlen : (ls.map Wire.value).length = 2 * 2 ^ m := by
          rw [List.length_map, hll, h2m]
        have hAE : chiProfile (a - a / 2) (uE.map Wire.value) v := by
          intro p x hget
          rw [List.get?_map] at hget
          cases hu : uE.get? p with
          | none => rw [hu] at hget; exact absurd hget (by simp)
          | some w =>
            rw [hu] at hget
            simp only [Option.map_some'] at hget
            have hp : p < 2 ^ m := by
              have := (List.get?_eq_some.mp hu).1
              omega
            have husget : (us.map Wire.value).get? (2 * p) = some x := by
              rw [List.get?_map, ← sU1get p, hu, Option.map_some', hget]
            have hv := hA (2 * p) x husget
            rw [hv, husvlen, List.length_map, huElen]
            exact chi_split_even a (2 ^ m) p hp
        have hBO : chiProfile (b / 2) (lO.map Wire.value) v := by
          intro p x hget
          rw [List.get?_map] at hget
          cases hu : lO.get? p with
          | none => rw [hu] at hget; exact absurd hget (by simp)
          | some w =>
            rw [hu] at hget
            simp only [Option.map_some'] at hget
            have hp : p < 2 ^ m := by
              have := (List.get?_eq_some.mp hu).1
              omega
            have hlsget : (ls.map Wire.value).get? (2 * p + 1) = some x := by
              rw [List.get?_map, ← sL2get p, hu, Option.map_some', hget]
            have hv := hB2 (2 * p + 1) x hlsget
            rw [hv, hlsvlen, List.length_map, hlOlen]
            exact chi_split_odd b (2 ^ m) p hp
        obtain ⟨F1prof, F1fr⟩ := flow1 (a - a / 2) (b / 2) v hAE hBO
        have hAO : chiProfile (a / 2) (uO.map Wire.value) (flowCounts dl1 v) := by
          intro p x hget
          have hx_memO : x ∈ (uO ++ lE).map Wire.value := by
            rw [List.map_append]
            exact List.mem_append.mpr (Or.inl (List.get?_mem hget))
          have hx_not : x ∉ (uE ++ lO).map Wire.value := fun hc => disj hc hx_memO
          rw [F1fr x hx_not]
          rw [List.get?_map] at hget
          cases hu : uO.get? p with
          | none => rw [hu] at hget; exact absurd hget (by simp)
          | some w =>
            rw [hu] at hget
            simp only [Option.map_some'] at hget
            have hp : p < 2 ^ m := by
              have := (List.get?_eq_some.mp hu).1
              omega
            have husget : (us.map Wire.value).get? (2 * p + 1) = some x := by
              rw [List.get?_map, ← sU2get p, hu, Option.map_some', hget]
            have hv := hA (2 * p + 1) x husget
            rw [hv, husvlen, List.length_map, huOlen]
            exact chi_split_odd a (2 ^ m) p hp
        have hBE : chiProfile (b - b / 2) (lE.map Wire.value) (flowCounts dl1 v) := by
          intro p x hget
          have hx_memO : x ∈ (uO ++ lE).map Wire.value := by
            rw [List.map_append]
            exact List.mem_append.mpr (Or.inr (List.get?_mem hget))
          have hx_not : x ∉ (uE ++ lO).map Wire.value := fun hc => disj hc hx_memO
          rw [F1fr x hx_not]
          rw [List.get?_map] at hget
          cases hu : lE.get? p with
          | none => rw [hu] at hget; exact absurd hget (by simp)
          | some w =>
            rw [hu] at hget
            simp only [Option.map_some'] at hget
            have hp : p < 2 ^ m := by
              have := (List.get?_eq_some.mp hu).1
              omega
            have hlsget : (ls.map Wire.value).get? (2 * p) = some x := by
              rw [List.get?_map, ← sL1get p, hu, Option.map_some', hget]
            have hv := hB2 (2 * p) x hlsget
            rw [hv, hlsvlen, List.length_map, hlElen]
            exact chi_split_even b (2 ^ m) p hp
        obtain ⟨F2prof, F2fr⟩ := flow2 (a / 2) (b - b / 2) (flowCounts dl1 v) hAO hBE
        have F1prof2 : chiProfile (a - a / 2 + b / 2) (ws1.map Wire.value)
            (flowCounts dl2 (flowCounts dl1 v)) := by
          intro p x hget
          have hx1 : x ∈ ws1.map Wire.value := List.get?_mem hget
          have hx_not : x ∉ (uO ++ lE).map Wire.value := fun hc =>
            disj (p1perm.subset hx1) hc
          rw [F2fr x hx_not]
          exact F1prof p x hget
        obtain ⟨zq, zfr⟩ := flow_ziplayer (ws1.map Wire.value) (ws2.map Wire.value)
          (flowCounts dl2 (flowCounts dl1 v)) hvlen12 hnd12'
        have hfc : flowCounts (dl1 ++ dl2 ++ (ws1.zip ws2).map (fun p => (p.1.value, p.2.value))) v =
            flowCounts (List.zip (ws1.map Wire.value) (ws2.map Wire.value))
              (flowCounts dl2 (flowCounts dl1 v)) := by
          rw [flowCounts_append, flowCounts_append, hzm_eq]
        constructor
        · intro p x hget
          rw [mwint] at hget
          have hwsvlen : ((merge_wires ws1 ws2 st2).1.map Wire.value).length =
              2 * 2 ^ (m + 1) := by
            rw [mwint, hillen, hws1vlen, hws2vlen]
            omega
          rw [hfc, hwsvlen]
          by_cases hpar : p % 2 = 0
          · have hp : p = 2 * (p / 2) := by omega
            rw [hp] at hget
            rw [hil1 (p / 2)] at hget
            have hqlt : p / 2 < 2 ^ (m + 1) := by
              have := (List.get?_eq_some.mp hget).1
              omega
            cases hyq : (ws2.map Wire.value).get? (p / 2) with
            | none =>
              rw [List.get?_eq_none] at hyq
              omega
            | some yq =>
              obtain ⟨e1, e2⟩ := zq (p / 2) x yq hget hyq
              have hfx := F1prof2 (p / 2) x hget
              have hfy := F2prof (p / 2) yq hyq
              rw [hws1vlen] at hfx
              rw [hws2vlen] at hfy
              obtain ⟨ce, co⟩ := chi_combine (a - a / 2 + b / 2) (a / 2 + (b - b / 2))
                (2 ^ (m + 1)) (p / 2) (by omega) (by omega) hqlt
              rw [e1, hfx, hfy, ce]
              have hAB : (a - a / 2 + b / 2) + (a / 2 + (b - b / 2)) = a + b := by omega
              rw [hAB, ← hp]
          · have hp : p = 2 * (p / 2) + 1 := by omega
            rw [hp] at hget
            rw [hil2 (p / 2)] at hget
            have hqlt : p / 2 < 2 ^ (m + 1) := by
              have := (List.get?_eq_some.mp hget).1
              omega
            cases hxq : (ws1.map Wire.value).get? (p / 2) with
            | none =>
              rw [List.get?_eq_none] at hxq
              omega
            | some xq =>
              obtain ⟨e1, e2⟩ := zq (p / 2) xq x hxq hget
              have hfx := F1prof2 (p / 2) xq hxq
              have hfy := F2prof (p / 2) x hget
              rw [hws1vlen] at hfx
              rw [hws2vlen] at hfy
              obtain ⟨ce, co⟩ := chi_combine (a - a / 2 + b / 2) (a / 2 + (b - b / 2))
                (2 ^ (m + 1)) (p / 2) (by omega) (by omega) hqlt
              rw [e2, hfx, hfy, co]
              have hAB : (a - a / 2 + b / 2) + (a / 2 + (b - b / 2)) = a + b := by omega
              rw [hAB, ← hp]
        · intro x hx
          have hx1 : x ∉ (uE ++ lO).map Wire.value := fun hc => hx (hsubE x hc)
          have hx2 : x ∉ (uO ++ lE).map Wire.value := fun hc => hx (hsubO x hc)
          have hx3 : x ∉ (ws1.map Wire.value) ++ (ws2.map Wire.value) := by
            intro hc
            exact hx (hgrp.subset (hp12.subset hc))
          rw [hfc, zfr x hx3, F2fr x hx2, F1fr x hx1]
      · intro lst t hlst hmem
        obtain ⟨l12, lz, rfl, h12, hlz⟩ := map_fst_split lst (dl1 ++ dl2) _ hlst
        obtain ⟨l1, l2, rfl, hl1, hl2⟩ := map_fst_split l12 dl1 dl2 h12
        rw [List.append_assoc, scanToken_append, scanToken_append]
        have hmem' : t ∈ ((uE ++ lO).map Wire.value) ++ ((uO ++ lE).map Wire.value) :=
          (hgrp.mem_iff).mpr hmem
        rcases List.mem_append.mp hmem' with hA1 | hA1
        · obtain ⟨hm1, hs1⟩ := steps1 l1 t hl1 hA1
          have hskip2 : scanToken l2 (scanToken l1 t).1 = ((scanToken l1 t).1, l2, 0) := by
            apply scanToken_skip
            intro pc hpc
            have hpcm : pc.1 ∈ dl2 := by
              rw [← hl2]
              exact List.mem_map_of_mem _ hpc
            obtain ⟨hc1, hc2, -⟩ := comp2 pc.1 hpcm
            have hmv : (scanToken l1 t).1 ∈ (uE ++ lO).map Wire.value := p1perm.subset hm1
            constructor
            · intro hc
              exact disj hmv (by rw [hc]; exact hc1)
            · intro hc
              exact disj hmv (by rw [hc]; exact hc2)
          rw [hskip2]
          dsimp only
          obtain ⟨hmz, hsz⟩ := scanToken_ziplayer (ws1.map Wire.value) (ws2.map Wire.value)
            lz (scanToken l1 t).1 hvlen12 (by rw [hlz, hzm_eq]) hnd12'
            (List.mem_append.mpr (Or.inl hm1))
          constructor
          · rw [mwint]
            exact (hilperm.mem_iff).mpr hmz
          · rw [hs1, hsz]
        · have hskip1 : scanToken l1 t = (t, l1, 0) := by
            apply scanToken_skip
            intro pc hpc
            have hpcm : pc.1 ∈ dl1 := by
              rw [← hl1]
              exact List.mem_map_of_mem _ hpc
            obtain ⟨hc1, hc2, -⟩ := comp1 pc.1 hpcm
            constructor
            · intro hc
              exact disj (by rw [hc]; exact hc1) hA1
            · intro hc
              exact disj (by rw [hc]; exact hc2) hA1
          rw [hskip1]
          dsimp only
          obtain ⟨hm2, hs2⟩ := steps2 l2 t hl2 hA1
          obtain ⟨hmz, hsz⟩ := scanToken_ziplayer (ws1.map Wire.value) (ws2.map Wire.value)
            lz (scanToken l2 t).1 hvlen12 (by rw [hlz, hzm_eq]) hnd12'
            (List.mem_append.mpr (Or.inr hm2))
          constructor
          · rw [mwint]
            exact (hilperm.mem_iff).mpr hmz
          · rw [hs2, hsz]
            omega

theorem Lfun_succ (e : Nat) : Lfun (e + 1) = Lfun e + (e + 1) := by
  obtain ⟨k, hk⟩ := Nat.even_mul_succ_self e
  have hk2 : e * (e + 1) = 2 * k := by omega
  have h2 : (e + 1) * (e + 1 + 1) = 2 * k + 2 * (e + 1) := by
    have : (e + 1) * (e + 1 + 1) = e * (e + 1) + 2 * (e + 1) := by ring
    omega
  unfold Lfun
  rw [h2, hk2]
  omega

/-! ## The full bitonic construction (Aspnes–Herlihy–Shavit counting lemma) -/

theorem construct_master : ∀ (e : Nat) (fuel base : Nat) (st : BState),
    2 ^ e ≤ fuel →
    Building st →
    (∀ v, base ≤ v → v < base + 2 ^ e → occs st.pairs v = []) →
    ∃ ws st2 dl,
      construct_bitonic fuel (2 ^ e) base st = some (ws, st2) ∧
      Building st2 ∧
      (∀ w ∈ ws, w.history = occs st2.pairs w.value) ∧
      (ws.map Wire.value).Perm (List.range' base (2 ^ e)) ∧
      ws.length = 2 ^ e ∧
      st2.pairs = st.pairs ++ dl ∧
      2 * dl.length = 2 ^ e * Lfun e ∧
      (∀ pr ∈ dl, pr.1 ∈ ws.map Wire.value ∧ pr.2 ∈ ws.map Wire.value ∧
        pr.1 ≠ pr.2) ∧
      (∀ q, 2 * q + 1 < 2 ^ e → ∃ bq,
        dl.get? bq = some (base + 2 * q, base + 2 * q + 1) ∧
        findOcc (base + 2 * q) dl = some bq ∧
        findOcc (base + 2 * q + 1) dl = some bq) ∧
      (∀ (S t0 : Nat) (v : Nat → Nat), base ≤ t0 → t0 < base + 2 ^ e →
        v t0 = S → (∀ x, base ≤ x → x < base + 2 ^ e → x ≠ t0 → v x = 0) →
        chiProfile S (ws.map Wire.value) (flowCounts dl v) ∧
        (∀ x, x ∉ ws.map Wire.value → flowCounts dl v x = v x)) ∧
      (∀ (l : List ((Nat × Nat) × Nat)) (t : Nat),
        l.map Prod.fst = dl → t ∈ ws.map Wire.value →
        (scanToken l t).1 ∈ ws.map Wire.value ∧ (scanToken l t).2.2 = Lfun e) := by
  intro e
  induction e with
  | zero =>
    intro fuel base st hfuel hB hfresh
    cases fuel with
    | zero => omega
    | succ f =>
      have hred : construct_bitonic (f + 1) (2 ^ 0) base st =
          some ([⟨base, []⟩], st) := rfl
      have hocc0 : occs st.pairs base = [] := hfresh base (Nat.le_refl _) (by omega)
      refine ⟨[⟨base, []⟩], st, [], hred, hB, ?_, ?_, rfl, by simp, by decide, ?_, ?_, ?_, ?_⟩
      · intro w hwm
        have hw0 : w = ⟨base, []⟩ := by simpa using hwm
        subst hw0
        exact hocc0.symm
      · show ([base] : List Nat).Perm (List.range' base (2 ^ 0))
        rw [show (2:Nat) ^ 0 = 1 from rfl, List.range'_one]
      · intro pr hpr
        exact absurd hpr (by simp)
      · intro q hq
        omega
      · intro S t0 v hle hlt hv0 hzero
        have ht0 : base = t0 := by omega
        subst ht0
        constructor
        · intro p x hget
          match p, hget with
          | 0, hget =>
            have hx : base = x := by simpa using hget
            subst hx
            show v base = chi S _ 0
            rw [hv0]
            exact (chi_one S).symm
          | q + 1, hget =>
            exact absurd hget (by simp)
        · intro x _
          rfl
      · intro l t hl hmem
        have hnil : l = [] := List.map_eq_nil.mp hl
        subst hnil
        have ht : base = t := by
          have : t = base := by simpa using hmem
          omega
        subst ht
        constructor
        · show base ∈ _
          simpa using hmem
        · show (0 : Nat) = Lfun 0
          decide
  | succ e ih =>
    intro fuel base st hfuel hB hfresh
    cases fuel with
    | zero =>
      have h1 : 1 ≤ (2:Nat) ^ (e + 1) := Nat.one_le_two_pow
      omega
    | succ f =>
      have h2e1 : (2:Nat) ^ (e + 1) = 2 * 2 ^ e := by rw [Nat.pow_succ]; ring
      have hpow1 : 1 ≤ (2:Nat) ^ e := Nat.one_le_two_pow
      have hf1 : 2 ^ e ≤ f := by omega
      have hfresh1 : ∀ v, base ≤ v → v < base + 2 ^ e → occs st.pairs v = [] := by
        intro v h1 h2
        exact hfresh v h1 (by omega)
      obtain ⟨ws1, st1, dl1, r1eq, B1, w1hist, p1perm, len1, pairs1, dlen1, comp1, bp1,
        flow1, steps1⟩ := ih f base st hf1 hB hfresh1
      have hfresh2 : ∀ v, base + 2 ^ e ≤ v → v < base + 2 ^ e + 2 ^ e →
          occs st1.pairs v = [] := by
        intro v h1 h2
        have h0 : occs st.pairs v = [] := hfresh v (by omega) (by omega)
        have hocc : occs (st.pairs ++ dl1) v = occs st.pairs v := by
          apply occs_append_none
          intro pr hpr
          obtain ⟨hc1, hc2, -⟩ := comp1 pr hpr
          have hb1 := p1perm.subset hc1
          have hb2 := p1perm.subset hc2
          rw [List.mem_range'_1] at hb1 hb2
          exact ⟨by intro hc; omega, by intro hc; omega⟩
        rw [pairs1, hocc]
        exact h0
      obtain ⟨ws2, st2, dl2, r2eq, B2, w2hist, p2perm, len2, pairs2, dlen2, comp2, bp2,
        flow2, steps2⟩ := ih f (base + 2 ^ e) st1 hf1 B1 hfresh2
      have hr1 : ∀ x ∈ ws1.map Wire.value, base ≤ x ∧ x < base + 2 ^ e := by
        intro x hx
        have := p1perm.subset hx
        rwa [List.mem_range'_1] at this
      have hr2 : ∀ x ∈ ws2.map Wire.value, base + 2 ^ e ≤ x ∧ x < base + 2 ^ e + 2 ^ e := by
        intro x hx
        have := p2perm.subset hx
        rwa [List.mem_range'_1] at this
      have hw12 : ∀ w ∈ ws1 ++ ws2, w.history = occs st2.pairs w.value := by
        intro w hwm
        rcases List.mem_append.mp hwm with h1 | h1
        · have hocc : occs (st1.pairs ++ dl2) w.value = occs st1.pairs w.value := by
            apply occs_append_none
            intro pr hpr
            obtain ⟨hc1, hc2, -⟩ := comp2 pr hpr
            obtain ⟨ha1, ha2⟩ := hr2 pr.1 hc1
            obtain ⟨hb1, hb2⟩ := hr2 pr.2 hc2
            obtain ⟨hv1, hv2⟩ := hr1 w.value (List.mem_map_of_mem _ h1)
            exact ⟨by intro hc; omega, by intro hc; omega⟩
          rw [pairs2, hocc]
          exact w1hist w h1
        · exact w2hist w h1
      have hra : List.range' base (2 ^ e) ++ List.range' (base + 2 ^ e) (2 ^ e) =
          List.range' base (2 ^ (e + 1)) := by
        have h := List.range'_append base (2 ^ e) (2 ^ e) 1
        simp only [one_mul] at h
        rw [h]
        congr 1
        omega
      have hp12 : ((ws1 ++ ws2).map Wire.value).Perm (List.range' base (2 ^ (e + 1))) := by
        rw [List.map_append, ← hra]
        exact p1perm.append p2perm
      have hnd12 : ((ws1 ++ ws2).map Wire.value).Nodup :=
        (hp12.nodup_iff).mpr (List.nodup_range' _ _ _ (by omega))
      have hme : e + 1 ≤ 2 ^ (e + 1) := Nat.le_of_lt (Nat.lt_two_pow (e + 1))
      obtain ⟨wsM, stM, dlm, rMeq, BM, wMhist, pMperm, lenM, pairsM, dlenM, compM, baseM,
        flowM, stepsM⟩ := merge_master e (2 ^ (e + 1)) ws1 ws2 st2 hme len1 len2 B2 hw12 hnd12
      obtain ⟨k, hk⟩ : ∃ k, 2 ^ (e + 1) = k + 2 := ⟨2 ^ (e + 1) - 2, by omega⟩
      have hhalf : (k + 2) / 2 = 2 ^ e := by omega
      have hred : construct_bitonic (f + 1) (2 ^ (e + 1)) base st = some (wsM, stM) := by
        rw [hk]
        simp only [construct_bitonic]
        rw [hhalf, r1eq]
        dsimp only
        rw [r2eq]
        dsimp only
        rw [← hk, rMeq]
      have hsub1 : ∀ x ∈ ws1.map Wire.value, x ∈ wsM.map Wire.value := by
        intro x hx
        refine (pMperm.mem_iff).mpr ?_
        rw [List.map_append]
        exact List.mem_append.mpr (Or.inl hx)
      have hsub2 : ∀ x ∈ ws2.map Wire.value, x ∈ wsM.map Wire.value := by
        intro x hx
        refine (pMperm.mem_iff).mpr ?_
        rw [List.map_append]
        exact List.mem_append.mpr (Or.inr hx)
      refine ⟨wsM, stM, dl1 ++ dl2 ++ dlm, hred, BM, wMhist, pMperm.trans hp12, lenM,
        ?_, ?_, ?_, ?_, ?_, ?_⟩
      · rw [pairsM, pairs2, pairs1]
        simp [List.append_assoc]
      · simp only [List.length_append]
        rw [Lfun_succ, dlenM, h2e1]
        have hs : 2 * (dl1.length + dl2.length + (e + 1) * 2 ^ e) =
            2 * dl1.length + 2 * dl2.length + 2 * ((e + 1) * 2 ^ e) := by ring
        rw [hs, dlen1, dlen2]
        ring
      · intro pr hpr
        rcases List.mem_append.mp hpr with h1 | h1
        · rcases List.mem_append.mp h1 with h2 | h2
          · obtain ⟨hc1, hc2, hc3⟩ := comp1 pr h2
            exact ⟨hsub1 _ hc1, hsub1 _ hc2, hc3⟩
          · obtain ⟨hc1, hc2, hc3⟩ := comp2 pr h2
            exact ⟨hsub2 _ hc1, hsub2 _ hc2, hc3⟩
        · obtain ⟨hc1, hc2, hc3⟩ := compM pr h1
          refine ⟨(pMperm.mem_iff).mpr hc1, (pMperm.mem_iff).mpr hc2, hc3⟩
      · intro q hq
        rcases Nat.lt_or_ge (2 * q + 1) (2 ^ e) with hlow | hhigh
        · obtain ⟨bq, hget, hf1o, hf2o⟩ := bp1 q hlow
          have hb : bq < dl1.length := (List.get?_eq_some.mp hget).1
          refine ⟨bq, ?_, ?_, ?_⟩
          · rw [List.append_assoc, List.get?_append hb]
            exact hget
          · rw [List.append_assoc, findOcc_append_some _ _ _ _ hf1o]
          · rw [List.append_assoc, findOcc_append_some _ _ _ _ hf2o]
        · have hno1 : ∀ x : Nat, base + 2 ^ e ≤ x → findOcc x dl1 = none := by
            intro x hx
            rw [findOcc_none_iff]
            intro pr hpr
            obtain ⟨hc1, hc2, -⟩ := comp1 pr hpr
            obtain ⟨ha1, ha2⟩ := hr1 pr.1 hc1
            obtain ⟨hb1, hb2⟩ := hr1 pr.2 hc2
            exact ⟨by intro hc; omega, by intro hc; omega⟩
          cases e with
          | zero =>
            have hq0 : q = 0 := by omega
            subst hq0
            have hLf : (2:Nat) ^ 0 * Lfun 0 = 0 := by decide
            have hd1 : dl1 = [] :=
              List.eq_nil_of_length_eq_zero (by omega)
            have hd2 : dl2 = [] :=
              List.eq_nil_of_length_eq_zero (by omega)
            obtain ⟨xu, xl, hxu, hxl, hdlm⟩ := baseM rfl
            have hxu' : xu = base := by
              have hp := p1perm
              rw [hxu, show (2:Nat) ^ 0 = 1 from rfl, List.range'_one] at hp
              simpa using List.perm_singleton.mp hp
            have hxl' : xl = base + 1 := by
              have hp := p2perm
              rw [hxl, show (2:Nat) ^ 0 = 1 from rfl, List.range'_one] at hp
              simpa using List.perm_singleton.mp hp
            rw [hxu', hxl'] at hdlm
            refine ⟨0, ?_, ?_, ?_⟩
            · rw [hd1, hd2, hdlm]
              simp
            · rw [hd1, hd2, hdlm]
              simp only [List.nil_append]
              rw [show base + 2 * 0 = base by omega]
              simp [findOcc]
            · rw [hd1, hd2, hdlm]
              simp only [List.nil_append]
              rw [show base + 2 * 0 + 1 = base + 1 by omega]
              simp [findOcc]
          | succ e1 =>
            have heven : (2:Nat) ^ (e1 + 1) = 2 * 2 ^ e1 := by rw [Nat.pow_succ]; ring
            have hb2 : 2 * (q - 2 ^ e1) + 1 < 2 ^ (e1 + 1) := by omega
            obtain ⟨bq, hget, hf1o, hf2o⟩ := bp2 (q - 2 ^ e1) hb2
            have hval : base + 2 ^ (e1 + 1) + 2 * (q - 2 ^ e1) = base + 2 * q := by omega
            have hbb : bq < dl2.length := (List.get?_eq_some.mp hget).1
            refine ⟨dl1.length + bq, ?_, ?_, ?_⟩
            · rw [List.append_assoc, List.get?_append_right (by omega),
                show dl1.length + bq - dl1.length = bq by omega,
                List.get?_append hbb, hget]
              simp only [Option.some_inj, Prod.mk.injEq]
              omega
            · rw [List.append_assoc, findOcc_append_none _ _ _ (hno1 _ (by omega)),
                ← hval, findOcc_append_some _ _ _ _ hf1o]
              simp only [Option.map_some', Option.some_inj]
              omega
            · rw [List.append_assoc, findOcc_append_none _ _ _ (hno1 _ (by omega)),
                show base + 2 * q + 1 = base + 2 ^ (e1 + 1) + 2 * (q - 2 ^ e1) + 1 by omega,
                findOcc_append_some _ _ _ _ hf2o]
              simp only [Option.map_some', Option.some_inj]
              omega
      · intro S t0 v hle hlt hv0 hzero
        have hdisj12 : ∀ x, x ∈ ws1.map Wire.value → x ∈ ws2.map Wire.value → False := by
          intro x h1 h2
          obtain ⟨a1, a2⟩ := hr1 x h1
          obtain ⟨b1, b2⟩ := hr2 x h2
          omega
        have heq : flowCounts (dl1 ++ dl2 ++ dlm) v =
            flowCounts dlm (flowCounts dl2 (flowCounts dl1 v)) := by
          rw [flowCounts_append, flowCounts_append]
        rcases Nat.lt_or_ge t0 (base + 2 ^ e) with hcase | hcase
        · obtain ⟨F1, F1fr⟩ := flow1 S t0 v hle hcase hv0
            (fun x hx1 hx2 hx3 => hzero x hx1 (by omega) hx3)
          have hzero2 : ∀ x, base + 2 ^ e ≤ x → x < base + 2 ^ e + 2 ^ e →
              flowCounts dl1 v x = 0 := by
            intro x hx1 hx2
            have hxnot : x ∉ ws1.map Wire.value := by
              intro hc
              obtain ⟨a1, a2⟩ := hr1 x hc
              omega
            rw [F1fr x hxnot]
            exact hzero x (by omega) (by omega) (by omega)
          obtain ⟨F2, F2fr⟩ := flow2 0 (base + 2 ^ e) (flowCounts dl1 v) (Nat.le_refl _)
            (by omega) (hzero2 _ (Nat.le_refl _) (by omega))
            (fun x hx1 hx2 _ => hzero2 x hx1 hx2)
          have F1' : chiProfile S (ws1.map Wire.value)
              (flowCounts dl2 (flowCounts dl1 v)) := by
            intro p x hget
            have hx1 : x ∈ ws1.map Wire.value := List.get?_mem hget
            rw [F2fr x (fun hc => hdisj12 x hx1 hc)]
            exact F1 p x hget
          obtain ⟨FM, FMfr⟩ := flowM S 0 (flowCounts dl2 (flowCounts dl1 v)) F1' F2
          constructor
          · intro p x hget
            rw [heq]
            have hFM := FM p x hget
            rw [Nat.add_zero] at hFM
            exact hFM
          · intro x hx
            have hx1 : x ∉ ws1.map Wire.value := fun hc => hx (hsub1 _ hc)
            have hx2 : x ∉ ws2.map Wire.value := fun hc => hx (hsub2 _ hc)
            have hx12 : x ∉ (ws1 ++ ws2).map Wire.value := by
              rw [List.map_append]
              intro hc
              rcases List.mem_append.mp hc with h1 | h1
              · exact hx1 h1
              · exact hx2 h1
            rw [heq, FMfr x hx12, F2fr x hx2, F1fr x hx1]
        · have hv0' : v base = 0 := by
            refine hzero base (Nat.le_refl _) (by omega) ?_
            intro hc
            omega
          obtain ⟨F1, F1fr⟩ := flow1 0 base v (Nat.le_refl _) (by omega) hv0'
            (fun x hx1 hx2 hx3 => hzero x hx1 (by omega) (by omega))
          have ht0not : t0 ∉ ws1.map Wire.value := by
            intro hc
            obtain ⟨a1, a2⟩ := hr1 t0 hc
            omega
          have hzup : ∀ x, base + 2 ^ e ≤ x → x < base + 2 ^ e + 2 ^ e → x ≠ t0 →
              flowCounts dl1 v x = 0 := by
            intro x hx1 hx2 hx3
            have hxnot : x ∉ ws1.map Wire.value := by
              intro hc
              obtain ⟨a1, a2⟩ := hr1 x hc
              omega
            rw [F1fr x hxnot]
            exact hzero x (by omega) (by omega) hx3
          obtain ⟨F2, F2fr⟩ := flow2 S t0 (flowCounts dl1 v) hcase (by omega)
            (by rw [F1fr t0 ht0not]; exact hv0) hzup
          have F1' : chiProfile 0 (ws1.map Wire.value)
              (flowCounts dl2 (flowCounts dl1 v)) := by
            intro p x hget
            have hx1 : x ∈ ws1.map Wire.value := List.get?_mem hget
            rw [F2fr x (fun hc => hdisj12 x hx1 hc)]
            exact F1 p x hget
          obtain ⟨FM, FMfr⟩ := flowM 0 S (flowCounts dl2 (flowCounts dl1 v)) F1' F2
          constructor
          · intro p x hget
            rw [heq]
            have hFM := FM p x hget
            rw [Nat.zero_add] at hFM
            exact hFM
          · intro x hx
            have hx1 : x ∉ ws1.map Wire.value := fun hc => hx (hsub1 _ hc)
            have hx2 : x ∉ ws2.map Wire.value := fun hc => hx (hsub2 _ hc)
            have hx12 : x ∉ (ws1 ++ ws2).map Wire.value := by
              rw [List.map_append]
              intro hc
              rcases List.mem_append.mp hc with h1 | h1
              · exact hx1 h1
              · exact hx2 h1
            rw [heq, FMfr x hx12, F2fr x hx2, F1fr x hx1]
      · intro lst t hlst hmem
        obtain ⟨l12, lm, rfl, h12, hlm⟩ := map_fst_split lst (dl1 ++ dl2) _ hlst
        obtain ⟨l1, l2, rfl, hl1, hl2⟩ := map_fst_split l12 dl1 dl2 h12
        rw [List.append_assoc, scanToken_append, scanToken_append]
        have hbnds : base ≤ t ∧ t < base + 2 ^ (e + 1) := by
          have := (pMperm.trans hp12).subset hmem
          rwa [List.mem_range'_1] at this
        rcases Nat.lt_or_ge t (base + 2 ^ e) with hcase | hcase
        · have htm1 : t ∈ ws1.map Wire.value := by
            refine (p1perm.mem_iff).mpr ?_
            rw [List.mem_range'_1]
            exact ⟨hbnds.1, hcase⟩
          obtain ⟨hm1, hs1⟩ := steps1 l1 t hl1 htm1
          have hskip2 : scanToken l2 (scanToken l1 t).1 = ((scanToken l1 t).1, l2, 0) := by
            apply scanToken_skip
            intro pc hpc
            have hpcm : pc.1 ∈ dl2 := by
              rw [← hl2]
              exact List.mem_map_of_mem _ hpc
            obtain ⟨hc1, hc2, -⟩ := comp2 pc.1 hpcm
            obtain ⟨ha1, ha2⟩ := hr2 _ hc1
            obtain ⟨hb1, hb2⟩ := hr2 _ hc2
            obtain ⟨hv1, hv2⟩ := hr1 _ hm1
            exact ⟨by intro hc; omega, by intro hc; omega⟩
          rw [hskip2]
          dsimp only
          obtain ⟨hmz, hsz⟩ := stepsM lm (scanToken l1 t).1 hlm
            (by rw [List.map_append]; exact List.mem_append.mpr (Or.inl hm1))
          refine ⟨hmz, ?_⟩
          rw [hs1, hsz, Lfun_succ]
          omega
        · have htm2 : t ∈ ws2.map Wire.value := by
            refine (p2perm.mem_iff).mpr ?_
            rw [List.mem_range'_1]
            refine ⟨hcase, by omega⟩
          have hskip1 : scanToken l1 t = (t, l1, 0) := by
            apply scanToken_skip
            intro pc hpc
            have hpcm : pc.1 ∈ dl1 := by
              rw [← hl1]
              exact List.mem_map_of_mem _ hpc
            obtain ⟨hc1, hc2, -⟩ := comp1 pc.1 hpcm
            obtain ⟨ha1, ha2⟩ := hr1 _ hc1
            obtain ⟨hb1, hb2⟩ := hr1 _ hc2
            exact ⟨by intro hc; omega, by intro hc; omega⟩
          rw [hskip1]
          dsimp only
          obtain ⟨hm2, hs2⟩ := steps2 l2 t hl2 htm2
          obtain ⟨hmz, hsz⟩ := stepsM lm (scanToken l2 t).1 hlm
            (by rw [List.map_append]; exact List.mem_append.mpr (Or.inr hm2))
          refine ⟨hmz, ?_⟩
          rw [hs2, hsz, Lfun_succ]
          omega

/-! ## Store bookkeeping for the traversal -/

theorem zipWith_get3 {α β γ : Type} (f : α → β → γ) :
    ∀ (l1 : List α) (l2 : List β) (n : Nat),
    (List.zipWith f l1 l2).get? n =
      match l1.get? n, l2.get? n with
      | some a, some b => some (f a b)
      | _, _ => none := by
  intro l1
  induction l1 with
  | nil => intro l2 n; cases l2 <;> cases n <;> rfl
  | cons a l1 ih =>
    intro l2 n
    cases l2 with
    | nil =>
      cases n with
      | zero => rfl
      | succ n =>
        show (none : Option γ) = _
        split
        · simp_all
        · rfl
    | cons b l2 =>
      cases n with
      | zero => rfl
      | succ n => exact ih l2 n

theorem zip_get3 {α β : Type} (l1 : List α) (l2 : List β) (n : Nat) :
    (List.zip l1 l2).get? n =
      match l1.get? n, l2.get? n with
      | some a, some b => some (a, b)
      | _, _ => none :=
  zipWith_get3 _ l1 l2 n

theorem cnts_length (σ : Store) : (cnts σ).length = σ.length := List.length_map _ _

theorem cnts_get (σ : Store) (b : Nat) : (cnts σ).get? b = (σ.get? b).map Bal.cnt :=
  List.get?_map _ _ _

theorem cnts_set (σ : Store) (b : Nat) (bal : Bal) :
    cnts (σ.set b bal) = (cnts σ).set b bal.cnt := by
  unfold cnts
  exact List.map_set

theorem StoreShape_set_cnt (pairs : List (Nat × Nat)) (order : List Nat) (σ : Store)
    (b c : Nat) (bal : Bal) (hS : StoreShape pairs order σ) (hb : σ.get? b = some bal) :
    StoreShape pairs order (σ.set b ⟨c, bal.out0, bal.out1⟩) := by
  obtain ⟨hlen, hsh⟩ := hS
  refine ⟨by rw [List.length_set]; exact hlen, ?_⟩
  intro b2 i j hget
  obtain ⟨hij, bal2, hbal2, h0, h1⟩ := hsh b2 i j hget
  by_cases hbb : b2 = b
  · subst hbb
    have hb2 : bal2 = bal := by
      rw [hb] at hbal2
      injection hbal2 with hh
      exact hh.symm
    subst hb2
    refine ⟨hij, ⟨c, bal2.out0, bal2.out1⟩, ?_, h0, h1⟩
    rw [List.get?_set_eq]
    rw [hb]
    rfl
  · exact ⟨hij, bal2, by rw [List.get?_set_ne _ _ (fun hc => hbb hc.symm)]; exact hbal2,
      h0, h1⟩

theorem set_eq_take_cons_drop {α : Type} : ∀ (l : List α) (b : Nat) (x : α),
    b < l.length → l.set b x = l.take b ++ x :: l.drop (b + 1) := by
  intro l
  induction l with
  | nil => intro b x h; simp at h
  | cons a l ih =>
    intro b x h
    cases b with
    | zero => rfl
    | succ b =>
      show a :: l.set b x = a :: (l.take b ++ x :: l.drop (b + 1))
      rw [ih b x (by simpa using h)]

theorem drop_cons_get {α : Type} : ∀ (l : List α) (b : Nat) (x : α),
    l.get? b = some x → l.drop b = x :: l.drop (b + 1) := by
  intro l
  induction l with
  | nil => intro b x h; exact absurd h (by simp)
  | cons a l ih =>
    intro b x h
    cases b with
    | zero =>
      have : a = x := by simpa using h
      subst this
      rfl
    | succ b =>
      show l.drop b = x :: l.drop (b + 1)
      exact ih b x h

theorem set_append_len {α : Type} : ∀ (l1 : List α) (x y : α),
    (l1 ++ [x]).set l1.length y = l1 ++ [y] := by
  intro l1
  induction l1 with
  | nil => intro x y; rfl
  | cons a l1 ih =>
    intro x y
    show a :: (l1 ++ [x]).set l1.length y = a :: (l1 ++ [y])
    rw [ih]

theorem zip_set_snd {α β : Type} (l1 : List α) (l2 : List β) (b : Nat) (a : α) (x : β)
    (ha : l1.get? b = some a) :
    List.zip l1 (l2.set b x) =
      if b < l2.length then (List.zip l1 l2).set b (a, x) else List.zip l1 l2 := by
  by_cases hb : b < l2.length
  · rw [if_pos hb]
    apply List.ext_get?
    intro n
    by_cases hn : n = b
    · subst hn
      cases hl2 : l2.get? n with
      | none =>
        rw [List.get?_eq_none] at hl2
        omega
      | some y =>
        have hset2 : (l2.set n x).get? n = some x := by
          rw [List.get?_set_eq]
          rw [hl2]
          rfl
        have hsetz : ((List.zip l1 l2).set n (a, x)).get? n = some (a, x) := by
          rw [List.get?_set_eq]
          rw [zip_get3, ha, hl2]
          rfl
        rw [hsetz, zip_get3, ha, hset2]
    · rw [List.get?_set_ne _ _ (fun hc => hn hc.symm), zip_get3, zip_get3,
        List.get?_set_ne _ _ (fun hc => hn hc.symm)]
  · rw [if_neg hb]
    rw [List.set_eq_of_length_le (by omega)]

theorem findOcc_spec : ∀ (l : List (Nat × Nat)) (v d : Nat),
    findOcc v l = some d →
    (∃ pr, l.get? d = some pr ∧ (v = pr.1 ∨ v = pr.2)) ∧
    (∀ e, e < d → ∀ pr2, l.get? e = some pr2 → v ≠ pr2.1 ∧ v ≠ pr2.2) := by
  intro l
  induction l with
  | nil => intro v d h; exact absurd h (by simp [findOcc])
  | cons pr ps ih =>
    intro v d h
    simp only [findOcc] at h
    by_cases hv : v = pr.1 ∨ v = pr.2
    · rw [if_pos hv] at h
      have hd : d = 0 := by
        have : (0 : Nat) = d := by simpa using h
        omega
      subst hd
      exact ⟨⟨pr, rfl, hv⟩, fun e he => by omega⟩
    · rw [if_neg hv] at h
      cases hf : findOcc v ps with
      | none => rw [hf] at h; exact absurd h (by simp)
      | some d0 =>
        rw [hf] at h
        simp only [Option.map_some', Option.some_inj] at h
        subst h
        obtain ⟨⟨pr0, hpr0, hside⟩, hearl⟩ := ih v d0 hf
        refine ⟨⟨pr0, hpr0, hside⟩, ?_⟩
        intro e he pr2 hpr2
        cases e with
        | zero =>
          have : pr = pr2 := by simpa using hpr2
          subst this
          exact not_or.mp hv
        | succ e2 =>
          exact hearl e2 (by omega) pr2 hpr2

theorem set_take_succ {α : Type} : ∀ (l : List α) (n : Nat) (y : α), n < l.length →
    (l.set n y).take (n + 1) = l.take n ++ [y] := by
  intro l
  induction l with
  | nil => intro n y h; simp at h
  | cons a l ih =>
    intro n y h
    cases n with
    | zero => rfl
    | succ n =>
      show a :: (l.set n y).take (n + 1) = a :: (l.take n ++ [y])
      rw [ih n y (by simpa using h)]

theorem drop_set_lt {α : Type} (l : List α) (m n : Nat) (x : α) (h : m < n) :
    (l.set m x).drop n = l.drop n := by
  apply List.ext_get?
  intro q
  rw [List.get?_drop, List.get?_drop, List.get?_set_ne _ _ (by omega)]

theorem walk_scan_aux : ∀ (fuel : Nat) (pairs : List (Nat × Nat)) (order : List Nat)
    (σ : Store) (k d t : Nat),
    StoreShape pairs order σ →
    findOcc t (pairs.drop k) = some d →
    pairs.length - k < fuel →
    ∃ σ2,
      walkFrom fuel σ (k + d) =
        some (order.indexOf (scanToken ((pairs.zip (cnts σ)).drop k) t).1, σ2,
          (scanToken ((pairs.zip (cnts σ)).drop k) t).2.2) ∧
      StoreShape pairs order σ2 ∧
      pairs.zip (cnts σ2) =
        (pairs.zip (cnts σ)).take k ++ (scanToken ((pairs.zip (cnts σ)).drop k) t).2.1 := by
  intro fuel
  induction fuel with
  | zero => intro pairs order σ k d t hS hf hlen; omega
  | succ fuel ih =>
    intro pairs order σ k d t hS hf hfuel
    obtain ⟨⟨pr, hprd, hside⟩, hearl⟩ := findOcc_spec _ _ _ hf
    have hget : pairs.get? (k + d) = some pr := by
      rw [← List.get?_drop]
      exact hprd
    obtain ⟨i, j⟩ := pr
    obtain ⟨hij, bal, hbal, h0, h1⟩ := hS.2 (k + d) i j hget
    have hblt : k + d < pairs.length := (List.get?_eq_some.mp hget).1
    have hσlen : σ.length = pairs.length := hS.1
    have hAlen : (pairs.zip (cnts σ)).length = pairs.length := by
      rw [List.length_zip, cnts_length, hσlen, Nat.min_self]
    have hclen : (cnts σ).length = pairs.length := by rw [cnts_length, hσlen]
    have hcget : (cnts σ).get? (k + d) = some bal.cnt := by
      rw [cnts_get, hbal]
      rfl
    have hAget : (pairs.zip (cnts σ)).get? (k + d) = some ((i, j), bal.cnt) := by
      rw [zip_get3, hget, hcget]
    have hdropk : (pairs.zip (cnts σ)).drop k =
        ((pairs.zip (cnts σ)).drop k).take d ++ ((pairs.zip (cnts σ)).drop (k + d)) := by
      conv_lhs => rw [← List.take_append_drop d ((pairs.zip (cnts σ)).drop k)]
      congr 1
      rw [List.drop_drop, Nat.add_comm]
    have hskip : scanToken (((pairs.zip (cnts σ)).drop k).take d) t =
        (t, ((pairs.zip (cnts σ)).drop k).take d, 0) := by
      apply scanToken_skip
      intro pc hpc
      obtain ⟨e, he⟩ := List.mem_iff_get?.mp hpc
      have helt : e < d := by
        have h2 := (List.get?_eq_some.mp he).1
        have h3 : (((pairs.zip (cnts σ)).drop k).take d).length ≤ d := by
          rw [List.length_take]
          exact Nat.min_le_left _ _
        omega
      rw [List.get?_take helt, List.get?_drop, zip_get3] at he
      cases hp1 : pairs.get? (k + e) with
      | none => rw [hp1] at he; exact absurd he (by simp)
      | some pr2 =>
        rw [hp1] at he
        cases hc1 : (cnts σ).get? (k + e) with
        | none => rw [hc1] at he; exact absurd he (by simp)
        | some c2 =>
          rw [hc1] at he
          have hpc1 : pc.1 = pr2 := by
            injection he with hh
            rw [← hh]
          have hde : (pairs.drop k).get? e = some pr2 := by
            rw [List.get?_drop]
            exact hp1
          obtain ⟨hne1, hne2⟩ := hearl e helt pr2 hde
          rw [hpc1]
          exact ⟨hne1, hne2⟩
    have hdropb : (pairs.zip (cnts σ)).drop (k + d) =
        ((i, j), bal.cnt) :: (pairs.zip (cnts σ)).drop (k + d + 1) :=
      drop_cons_get _ _ _ hAget
    have hts : t = i ∨ t = j := hside
    have hscan : scanToken ((pairs.zip (cnts σ)).drop k) t =
        ((scanToken ((pairs.zip (cnts σ)).drop (k + d + 1))
            (if bal.cnt % 2 = 0 then i else j)).1,
         ((pairs.zip (cnts σ)).drop k).take d ++ ((i, j), bal.cnt + 1) ::
           (scanToken ((pairs.zip (cnts σ)).drop (k + d + 1))
             (if bal.cnt % 2 = 0 then i else j)).2.1,
         (scanToken ((pairs.zip (cnts σ)).drop (k + d + 1))
           (if bal.cnt % 2 = 0 then i else j)).2.2 + 1) := by
      conv_lhs => rw [hdropk]
      rw [scanToken_append, hskip, hdropb]
      simp only [scanToken]
      rw [if_pos hts]
      dsimp only
      simp
    have hchoose : (if (bal.cnt % 2 == 0) = true then bal.out0 else bal.out1) =
        linkOf pairs order (if bal.cnt % 2 = 0 then i else j) (k + d + 1) := by
      by_cases hc : bal.cnt % 2 = 0
      · rw [if_pos (by rw [beq_iff_eq]; exact hc), if_pos hc, h0]
      · rw [if_neg (by simp only [beq_iff_eq]; exact hc), if_neg hc, h1]
    have hwalk1 : walkFrom (fuel + 1) σ (k + d) =
        (match linkOf pairs order (if bal.cnt % 2 = 0 then i else j) (k + d + 1) with
          | Seg.leaf p => some (p, σ.set (k + d) ⟨bal.cnt + 1, bal.out0, bal.out1⟩, 1)
          | Seg.internal b2 =>
            (walkFrom fuel (σ.set (k + d) ⟨bal.cnt + 1, bal.out0, bal.out1⟩) b2).map
              (fun r => (r.1, r.2.1, r.2.2 + 1))
          | Seg.dangling => none) := by
      simp only [walkFrom]
      rw [hbal]
      dsimp only
      rw [hchoose]
    have hS' : StoreShape pairs order
        (σ.set (k + d) ⟨bal.cnt + 1, bal.out0, bal.out1⟩) :=
      StoreShape_set_cnt pairs order σ (k + d) (bal.cnt + 1) bal hS hbal
    have hzip' : pairs.zip (cnts (σ.set (k + d) ⟨bal.cnt + 1, bal.out0, bal.out1⟩)) =
        (pairs.zip (cnts σ)).set (k + d) ((i, j), bal.cnt + 1) := by
      rw [cnts_set]
      rw [zip_set_snd pairs (cnts σ) (k + d) (i, j) _ hget, if_pos (by omega)]
    have hzdrop : (pairs.zip (cnts (σ.set (k + d) ⟨bal.cnt + 1, bal.out0, bal.out1⟩))).drop
        (k + d + 1) = (pairs.zip (cnts σ)).drop (k + d + 1) := by
      rw [hzip', drop_set_lt _ _ _ _ (by omega)]
    have hztake : (pairs.zip (cnts (σ.set (k + d) ⟨bal.cnt + 1, bal.out0, bal.out1⟩))).take
        (k + d + 1) = (pairs.zip (cnts σ)).take (k + d) ++ [((i, j), bal.cnt + 1)] := by
      rw [hzip', set_take_succ _ _ _ (by omega)]
    have htake_kd : (pairs.zip (cnts σ)).take (k + d) =
        (pairs.zip (cnts σ)).take k ++ ((pairs.zip (cnts σ)).drop k).take d :=
      List.take_add _ k d
    cases hfo : findOcc (if bal.cnt % 2 = 0 then i else j) (pairs.drop (k + d + 1)) with
    | some d2 =>
      have hlink : linkOf pairs order (if bal.cnt % 2 = 0 then i else j) (k + d + 1) =
          Seg.internal (k + d + 1 + d2) := by
        unfold linkOf
        rw [hfo]
      obtain ⟨σ2, hw2, hS2, hz2⟩ := ih pairs order
        (σ.set (k + d) ⟨bal.cnt + 1, bal.out0, bal.out1⟩) (k + d + 1) d2
        (if bal.cnt % 2 = 0 then i else j) hS' hfo (by omega)
      rw [hzdrop] at hw2 hz2
      refine ⟨σ2, ?_, hS2, ?_⟩
      · rw [hwalk1, hlink]
        dsimp only
        rw [hw2]
        simp only [Option.map_some']
        rw [hscan]
      · rw [hz2, hscan]
        rw [hztake, htake_kd]
        simp [List.append_assoc]
    | none =>
      have hlink : linkOf pairs order (if bal.cnt % 2 = 0 then i else j) (k + d + 1) =
          Seg.leaf (order.indexOf (if bal.cnt % 2 = 0 then i else j)) := by
        unfold linkOf
        rw [hfo]
      have hskip2 : scanToken ((pairs.zip (cnts σ)).drop (k + d + 1))
          (if bal.cnt % 2 = 0 then i else j) =
          ((if bal.cnt % 2 = 0 then i else j), (pairs.zip (cnts σ)).drop (k + d + 1), 0) := by
        apply scanToken_skip
        intro pc hpc
        obtain ⟨e, he⟩ := List.mem_iff_get?.mp hpc
        rw [List.get?_drop, zip_get3] at he
        cases hp1 : pairs.get? (k + d + 1 + e) with
        | none => rw [hp1] at he; exact absurd he (by simp)
        | some pr2 =>
          rw [hp1] at he
          cases hc1 : (cnts σ).get? (k + d + 1 + e) with
          | none => rw [hc1] at he; exact absurd he (by simp)
          | some c2 =>
            rw [hc1] at he
            have hpc1 : pc.1 = pr2 := by
              injection he with hh
              rw [← hh]
            have hmem2 : pr2 ∈ pairs.drop (k + d + 1) := by
              apply List.get?_mem (n := e)
              rw [List.get?_drop]
              exact hp1
            have hcc := (findOcc_none_iff _ _).mp hfo pr2 hmem2
            rw [hpc1]
            exact hcc
      refine ⟨σ.set (k + d) ⟨bal.cnt + 1, bal.out0, bal.out1⟩, ?_,
        StoreShape_set_cnt pairs order σ (k + d) (bal.cnt + 1) bal hS hbal, ?_⟩
      · rw [hwalk1, hlink, hscan, hskip2]
      · rw [hscan, hskip2]
        dsimp only
        rw [hzip', set_eq_take_cons_drop _ _ _ (by omega), htake_kd]
        simp [List.append_assoc]


/-! ## Attaching the output leaves -/

theorem take_succ_get {α : Type} : ∀ (l : List α) (n : Nat) (x : α),
    l.get? n = some x → l.take (n + 1) = l.take n ++ [x] := by
  intro l
  induction l with
  | nil => intro n x h; exact absurd h (by simp)
  | cons a l ih =>
    intro n x h
    cases n with
    | zero =>
      have : a = x := by simpa using h
      subst this
      rfl
    | succ n =>
      show a :: l.take (n + 1) = a :: (l.take n ++ [x])
      rw [ih n x h]

theorem linkOf_eq_linkOfD (pairs : List (Nat × Nat)) (order : List Nat) (v k : Nat)
    (h : findOcc v (pairs.drop k) ≠ none) :
    linkOf pairs order v k = linkOfD pairs v k := by
  unfold linkOf linkOfD
  cases hf : findOcc v (pairs.drop k) with
  | none => exact absurd hf h
  | some d => rfl

theorem occ_later_some (pairs : List (Nat × Nat)) (x b bl : Nat) (pr : Nat × Nat)
    (hget : pairs.get? bl = some pr) (hx : x = pr.1 ∨ x = pr.2) (hle : b + 1 ≤ bl) :
    findOcc x (pairs.drop (b + 1)) ≠ none := by
  intro hnone
  have hmem : pr ∈ pairs.drop (b + 1) := by
    apply List.get?_mem (n := bl - (b + 1))
    rw [List.get?_drop]
    rwa [show b + 1 + (bl - (b + 1)) = bl by omega]
  have := (findOcc_none_iff x _).mp hnone pr hmem
  tauto

theorem attachLeaves_shape : ∀ (ws : List Wire) (σ : Store) (p : Nat)
    (pairs : List (Nat × Nat)) (order : List Nat),
    order.Nodup →
    order.drop p = ws.map Wire.value →
    (∀ w ∈ ws, w.history = occs pairs w.value ∧ w.history ≠ []) →
    σ.length = pairs.length →
    (∀ b i j, pairs.get? b = some (i, j) → i ≠ j ∧
      ∃ bal, σ.get? b = some bal ∧
        bal.out0 = (if i ∈ order.take p then linkOf pairs order i (b + 1)
                    else linkOfD pairs i (b + 1)) ∧
        bal.out1 = (if j ∈ order.take p then linkOf pairs order j (b + 1)
                    else linkOfD pairs j (b + 1))) →
    ∃ σ2, attachLeaves σ ws p = some σ2 ∧
      σ2.length = pairs.length ∧
      (∀ b i j, pairs.get? b = some (i, j) → i ≠ j ∧
        ∃ bal, σ2.get? b = some bal ∧
          bal.out0 = (if i ∈ order.take p ∨ i ∈ ws.map Wire.value
                      then linkOf pairs order i (b + 1) else linkOfD pairs i (b + 1)) ∧
          bal.out1 = (if j ∈ order.take p ∨ j ∈ ws.map Wire.value
                      then linkOf pairs order j (b + 1) else linkOfD pairs j (b + 1))) := by
  intro ws
  induction ws with
  | nil =>
    intro σ p pairs order hnd hdrop hwires hlen hinv
    refine ⟨σ, rfl, hlen, ?_⟩
    intro b i j hget
    obtain ⟨hij, bal, hbal, h0, h1⟩ := hinv b i j hget
    refine ⟨hij, bal, hbal, ?_, ?_⟩
    · rw [h0]
      exact if_congr (by simp) rfl rfl
    · rw [h1]
      exact if_congr (by simp) rfl rfl
  | cons w ws ih =>
    intro σ p pairs order hnd hdrop hwires hlen hinv
    obtain ⟨hhist, hne⟩ := hwires w (List.mem_cons_self _ _)
    cases hlast : w.history.getLast? with
    | none =>
      exact absurd (List.getLast?_eq_none.mp hlast) hne
    | some bls =>
      obtain ⟨bl, side⟩ := bls
      have hlast2 : (occs pairs w.value).getLast? = some (bl, side) := by
        rw [← hhist]
        exact hlast
      obtain ⟨hbl_lt, ⟨pr0, hpr0, hf0, hf1⟩, hafter⟩ :=
        (occs_getLast pairs w.value).2 bl side hlast2
      have hogetp : order.get? p = some w.value := by
        have hg : (order.drop p).get? 0 = order.get? (p + 0) := List.get?_drop _ _ _
        rw [hdrop] at hg
        simpa using hg.symm
      have hplt : p < order.length := (List.get?_eq_some.mp hogetp).1
      have hvnotin : w.value ∉ order.take p := by
        intro hc
        have hnd2 := hnd
        rw [← List.take_append_drop p order] at hnd2
        obtain ⟨-, -, hdisj⟩ := List.nodup_append.mp hnd2
        refine hdisj hc ?_
        rw [hdrop]
        exact List.mem_cons_self _ _
      have hidx : order.indexOf w.value = p := nodup_indexOf_of_get order p w.value hnd hogetp
      have htake1 : order.take (p + 1) = order.take p ++ [w.value] :=
        take_succ_get order p w.value hogetp
      have hdrop1 : order.drop (p + 1) = ws.map Wire.value := by
        have h2 : List.drop 1 (List.drop p order) = order.drop (p + 1) :=
          List.drop_drop 1 p order
        rw [hdrop] at h2
        simpa using h2.symm
      -- the new invariant after writing the leaf
      have hinv' : ∀ b i j, pairs.get? b = some (i, j) → i ≠ j ∧
          ∃ bal, (setSlot σ bl side (Seg.leaf p)).get? b = some bal ∧
            bal.out0 = (if i ∈ order.take (p + 1) then linkOf pairs order i (b + 1)
                        else linkOfD pairs i (b + 1)) ∧
            bal.out1 = (if j ∈ order.take (p + 1) then linkOf pairs order j (b + 1)
                        else linkOfD pairs j (b + 1)) := by
        intro b i j hget2
        obtain ⟨hij, bal, hbal, hb0, hb1⟩ := hinv b i j hget2
        have hmemw : w.value ∈ order.take (p + 1) := by
          rw [htake1]
          exact List.mem_append.mpr (Or.inr (List.mem_singleton.mpr rfl))
        have hmemiff : ∀ x : Nat, x ≠ w.value →
            ((x ∈ order.take (p + 1)) ↔ (x ∈ order.take p)) := by
          intro x hx
          rw [htake1]
          simp only [List.mem_append, List.mem_singleton]
          constructor
          · intro hc
            rcases hc with hc | hc
            · exact hc
            · exact absurd hc hx
          · intro hc
            exact Or.inl hc
        have hlinkeq : ∀ x : Nat, x = w.value → (x = i ∨ x = j) → b ≠ bl →
            linkOfD pairs x (b + 1) = linkOf pairs order x (b + 1) := by
          intro x hxv hxij hbbl
          have hblt2 : b < bl := by
            have hlt := occ_lt_of_none pairs x b (bl + 1) (i, j) hget2 (by simpa using hxij)
              (by rw [hxv]; exact hafter)
            omega
          refine (linkOf_eq_linkOfD pairs order x (b + 1) ?_).symm
          refine occ_later_some pairs x b bl pr0 hpr0 ?_ (by omega)
          rw [hxv]
          cases side with
          | false => exact Or.inl (hf0 rfl)
          | true => exact Or.inr (hf1 rfl)
        by_cases hbb : b = bl
        · subst hbb
          have hpr0' : pr0 = (i, j) := by
            rw [hget2] at hpr0
            injection hpr0 with hh
            exact hh.symm
          subst hpr0'
          cases side with
          | false =>
            have hvi : w.value = i := hf0 rfl
            rw [setSlot_get_eq σ b false (Seg.leaf p) bal hbal]
            refine ⟨hij, _, rfl, ?_, ?_⟩
            · show Seg.leaf p = _
              rw [if_pos (hvi ▸ hmemw)]
              unfold linkOf
              rw [← hvi, hafter, hidx]
            · show bal.out1 = _
              rw [hb1]
              have hjv : j ≠ w.value := by
                rw [hvi]
                exact fun hc => hij hc.symm
              exact if_congr (hmemiff j hjv).symm rfl rfl
          | true =>
            have hvj : w.value = j := hf1 rfl
            rw [setSlot_get_eq σ b true (Seg.leaf p) bal hbal]
            refine ⟨hij, _, rfl, ?_, ?_⟩
            · show bal.out0 = _
              rw [hb0]
              have hiv : i ≠ w.value := by
                rw [hvj]
                exact hij
              exact if_congr (hmemiff i hiv).symm rfl rfl
            · show Seg.leaf p = _
              rw [if_pos (hvj ▸ hmemw)]
              unfold linkOf
              rw [← hvj, hafter, hidx]
        · rw [setSlot_get_ne σ bl side (Seg.leaf p) b hbb]
          refine ⟨hij, bal, hbal, ?_, ?_⟩
          · rw [hb0]
            by_cases hiv : i = w.value
            · rw [if_neg (by rw [hiv]; exact hvnotin),
                if_pos (by rw [hiv]; exact hmemw)]
              exact hlinkeq i hiv (Or.inl rfl) hbb
            · exact if_congr (hmemiff i hiv).symm rfl rfl
          · rw [hb1]
            by_cases hjv : j = w.value
            · rw [if_neg (by rw [hjv]; exact hvnotin),
                if_pos (by rw [hjv]; exact hmemw)]
              exact hlinkeq j hjv (Or.inr rfl) hbb
            · exact if_congr (hmemiff j hjv).symm rfl rfl
      obtain ⟨σ2, hat2, hlen2, hinv2⟩ := ih (setSlot σ bl side (Seg.leaf p)) (p + 1)
        pairs order hnd hdrop1
        (fun w2 hw2 => hwires w2 (List.mem_cons_of_mem _ hw2))
        (by rw [setSlot_length]; exact hlen) hinv'
      refine ⟨σ2, ?_, hlen2, ?_⟩
      · show attachLeaves σ (w :: ws) p = some σ2
        simp only [attachLeaves]
        rw [hlast]
        exact hat2
      · intro b i j hget2
        obtain ⟨hij, bal, hbal, h0, h1⟩ := hinv2 b i j hget2
        have hiff : ∀ x : Nat,
            ((x ∈ order.take (p + 1) ∨ x ∈ ws.map Wire.value) ↔
             (x ∈ order.take p ∨ x ∈ (w :: ws).map Wire.value)) := by
          intro x
          rw [htake1]
          simp only [List.mem_append, List.mem_singleton, List.map_cons, List.mem_cons]
          tauto
        refine ⟨hij, bal, hbal, ?_, ?_⟩
        · rw [h0]
          exact if_congr (hiff i) rfl rfl
        · rw [h1]
          exact if_congr (hiff j) rfl rfl

/-! ## The first balancer layer and its sort -/

theorem insertByKey_perm (x : Nat × Nat) : ∀ l : List (Nat × Nat),
    (insertByKey x l).Perm (x :: l) := by
  intro l
  induction l with
  | nil => exact List.Perm.refl _
  | cons y ys ih =>
    show (if y.1 ≤ x.1 then y :: insertByKey x ys else x :: y :: ys).Perm _
    by_cases h : y.1 ≤ x.1
    · rw [if_pos h]
      exact (List.Perm.cons y ih).trans (List.Perm.swap x y ys)
    · rw [if_neg h]

theorem sortByKey_perm : ∀ l : List (Nat × Nat), (sortByKey l).Perm l := by
  intro l
  induction l with
  | nil => exact List.Perm.refl _
  | cons x xs ih =>
    show (insertByKey x (sortByKey xs)).Perm _
    exact (insertByKey_perm x (sortByKey xs)).trans (List.Perm.cons x ih)

theorem insertByKey_sorted (x : Nat × Nat) : ∀ l : List (Nat × Nat),
    l.Pairwise (fun a b => a.1 ≤ b.1) →
    (insertByKey x l).Pairwise (fun a b => a.1 ≤ b.1) := by
  intro l
  induction l with
  | nil => intro _; exact List.pairwise_singleton _ _
  | cons y ys ih =>
    intro hp
    obtain ⟨hy, hys⟩ := List.pairwise_cons.mp hp
    show (if y.1 ≤ x.1 then y :: insertByKey x ys else x :: y :: ys).Pairwise _
    by_cases h : y.1 ≤ x.1
    · rw [if_pos h]
      refine List.pairwise_cons.mpr ⟨?_, ih hys⟩
      intro z hz
      have hz2 : z ∈ x :: ys := (insertByKey_perm x ys).subset hz
      rcases List.mem_cons.mp hz2 with rfl | hz3
      · exact h
      · exact hy z hz3
    · rw [if_neg h]
      refine List.pairwise_cons.mpr ⟨?_, hp⟩
      intro z hz
      rcases List.mem_cons.mp hz with rfl | hz3
      · omega
      · have := hy z hz3
        omega

theorem sortByKey_sorted : ∀ l : List (Nat × Nat),
    (sortByKey l).Pairwise (fun a b => a.1 ≤ b.1) := by
  intro l
  induction l with
  | nil => exact List.Pairwise.nil
  | cons x xs ih => exact insertByKey_sorted x (sortByKey xs) ih

theorem popLayer_spec : ∀ (ws : List Wire) (seen : List Nat) (B : Nat → Nat),
    (∀ w ∈ ws, ∃ s r, w.history = (B (w.value / 2), s) :: r) →
    (∀ en ∈ (popLayer ws seen).2, en.2 = B (en.1 / 2) ∧ en.2 ∉ seen ∧
      ∃ w ∈ ws, w.value = en.1) ∧
    (∀ b, b ∈ seen → ((popLayer ws seen).2.countP (fun en => en.2 == b)) = 0) ∧
    (∀ b, b ∉ seen → (∃ w ∈ ws, B (w.value / 2) = b) →
      ((popLayer ws seen).2.countP (fun en => en.2 == b)) = 1) ∧
    (∀ b, (∀ w ∈ ws, B (w.value / 2) ≠ b) →
      ((popLayer ws seen).2.countP (fun en => en.2 == b)) = 0) := by
  intro ws
  induction ws with
  | nil =>
    intro seen B _
    refine ⟨fun en hen => absurd hen (by simp [popLayer]), ?_, ?_, ?_⟩
    · intro b _
      rfl
    · intro b _ hex
      obtain ⟨w, hw, -⟩ := hex
      exact absurd hw (by simp)
    · intro b _
      rfl
  | cons w ws ih =>
    intro seen B hheads
    obtain ⟨s, r, hwh⟩ := hheads w (List.mem_cons_self _ _)
    have hrec : ∀ w2 ∈ ws, ∃ s2 r2, w2.history = (B (w2.value / 2), s2) :: r2 :=
      fun w2 hw2 => hheads w2 (List.mem_cons_of_mem _ hw2)
    by_cases hseen : B (w.value / 2) ∈ seen
    · have hpop : popLayer (w :: ws) seen =
          (⟨w.value, r⟩ :: (popLayer ws seen).1, (popLayer ws seen).2) := by
        simp only [popLayer, hwh]
        rw [if_pos hseen]
      rw [hpop]
      obtain ⟨i1, i2, i3, i4⟩ := ih seen B hrec
      refine ⟨?_, i2, ?_, ?_⟩
      · intro en hen
        obtain ⟨c1, c2, wx, hwx, hval⟩ := i1 en hen
        exact ⟨c1, c2, wx, List.mem_cons_of_mem _ hwx, hval⟩
      · intro b hb hex
        obtain ⟨wx, hwx, hval⟩ := hex
        rcases List.mem_cons.mp hwx with rfl | hwx2
        · exact absurd (hval ▸ hseen) hb
        · exact i3 b hb ⟨wx, hwx2, hval⟩
      · intro b hall
        exact i4 b (fun w2 hw2 => hall w2 (List.mem_cons_of_mem _ hw2))
    · have hpop : popLayer (w :: ws) seen =
          (⟨w.value, r⟩ :: (popLayer ws (B (w.value / 2) :: seen)).1,
           (w.value, B (w.value / 2)) :: (popLayer ws (B (w.value / 2) :: seen)).2) := by
        simp only [popLayer, hwh]
        rw [if_neg hseen]
      rw [hpop]
      obtain ⟨i1, i2, i3, i4⟩ := ih (B (w.value / 2) :: seen) B hrec
      refine ⟨?_, ?_, ?_, ?_⟩
      · intro en hen
        rcases List.mem_cons.mp hen with rfl | hen2
        · exact ⟨rfl, hseen, w, List.mem_cons_self _ _, rfl⟩
        · obtain ⟨c1, c2, wx, hwx, hval⟩ := i1 en hen2
          exact ⟨c1, fun hc => c2 (List.mem_cons_of_mem _ hc), wx,
            List.mem_cons_of_mem _ hwx, hval⟩
      · intro b hb
        rw [List.countP_cons]
        have hbb : B (w.value / 2) ≠ b := fun hc => hseen (hc ▸ hb)
        rw [if_neg (by simp only [beq_iff_eq]; exact hbb)]
        rw [i2 b (List.mem_cons_of_mem _ hb)]
      · intro b hb hex
        rw [List.countP_cons]
        by_cases hbb : B (w.value / 2) = b
        · rw [if_pos (by simp only [beq_iff_eq]; exact hbb)]
          rw [i2 b (by rw [← hbb]; exact List.mem_cons_self _ _)]
        · rw [if_neg (by simp only [beq_iff_eq]; exact hbb)]
          obtain ⟨wx, hwx, hval⟩ := hex
          rcases List.mem_cons.mp hwx with rfl | hwx2
          · exact absurd hval hbb
          · have hnb : b ∉ B (w.value / 2) :: seen := by
              intro hc
              rcases List.mem_cons.mp hc with hc2 | hc2
              · exact hbb hc2.symm
              · exact hb hc2
            rw [i3 b hnb ⟨wx, hwx2, hval⟩]
      · intro b hall
        rw [List.countP_cons]
        have hbb : B (w.value / 2) ≠ b := hall w (List.mem_cons_self _ _)
        rw [if_neg (by simp only [beq_iff_eq]; exact hbb)]
        rw [i4 b (fun w2 hw2 => hall w2 (List.mem_cons_of_mem _ hw2))]
theorem layer0_spec : ∀ (ws : List Wire) (dl : List (Nat × Nat)) (n : Nat) (B : Nat → Nat),
    (ws.map Wire.value).Perm (List.range (2 * n)) →
    (∀ w ∈ ws, w.history = occs dl w.value) →
    (∀ q, q < n → dl.get? (B q) = some (2 * q, 2 * q + 1) ∧
      findOcc (2 * q) dl = some (B q) ∧ findOcc (2 * q + 1) dl = some (B q)) →
    ((sortByKey (popLayer ws []).2).map Prod.snd).length = n ∧
    (∀ q, q < n → ((sortByKey (popLayer ws []).2).map Prod.snd).get? q = some (B q)) := by
  intro ws dl n B hperm hhist hbase
  have hBinj : ∀ q q', q < n → q' < n → B q = B q' → q = q' := by
    intro q q' hq hq' hqq
    have h1 := (hbase q hq).1
    have h2 := (hbase q' hq').1
    rw [hqq, h2] at h1
    simp only [Option.some_inj, Prod.mk.injEq] at h1
    omega
  have hvlt : ∀ w ∈ ws, w.value < 2 * n := by
    intro w hw
    have : w.value ∈ ws.map Wire.value := List.mem_map.mpr ⟨w, hw, rfl⟩
    have := hperm.mem_iff.mp this
    exact List.mem_range.mp this
  have hheads : ∀ w ∈ ws, ∃ s r, w.history = (B (w.value / 2), s) :: r := by
    intro w hw
    have hv := hvlt w hw
    have hq : w.value / 2 < n := Nat.div_lt_of_lt_mul (by omega)
    have hfo : findOcc w.value dl = some (B (w.value / 2)) := by
      rcases Nat.even_or_odd w.value with he | ho
      · obtain ⟨k, hk⟩ := he
        have hv2 : w.value = 2 * (w.value / 2) := by omega
        have h := (hbase _ hq).2.1
        rw [← hv2] at h
        exact h
      · obtain ⟨k, hk⟩ := ho
        have hv2 : w.value = 2 * (w.value / 2) + 1 := by omega
        have h := (hbase _ hq).2.2
        rw [← hv2] at h
        exact h
    have hoh := (occs_head dl w.value).1
    rw [hfo] at hoh
    cases hocc : occs dl w.value with
    | nil => rw [hocc] at hoh; exact absurd hoh (by simp)
    | cons e rest =>
      rw [hocc] at hoh
      simp only [List.head?_cons, Option.map_some'] at hoh
      have he1 : e.1 = B (w.value / 2) := by
        injection hoh with hh
        exact hh.symm
      refine ⟨e.2, rest, ?_⟩
      rw [hhist w hw, hocc, ← he1]
  obtain ⟨p1, p2, p3, p4⟩ := popLayer_spec ws [] B hheads
  have hentry : ∀ en ∈ (popLayer ws []).2, en.2 = B (en.1 / 2) ∧ en.1 < 2 * n := by
    intro en hen
    obtain ⟨c1, _, wx, hwx, hval⟩ := p1 en hen
    exact ⟨c1, hval ▸ hvlt wx hwx⟩
  have hcount : ∀ q, q < n →
      (popLayer ws []).2.countP (fun en => en.2 == B q) = 1 := by
    intro q hq
    refine p3 (B q) (by simp) ?_
    have h2q : (2 * q : Nat) ∈ ws.map Wire.value :=
      hperm.mem_iff.mpr (List.mem_range.mpr (by omega))
    obtain ⟨w, hw, hval⟩ := List.mem_map.mp h2q
    refine ⟨w, hw, ?_⟩
    rw [hval]
    congr 1
    omega
  have hsndperm : ((popLayer ws []).2.map (fun en => en.1 / 2)).Perm (List.range n) := by
    refine List.perm_iff_count.mpr ?_
    intro q
    by_cases hq : q < n
    · have hrhs : (List.range n).count q = 1 :=
        List.count_eq_one_of_mem (List.nodup_range n) (List.mem_range.mpr hq)
      rw [hrhs, List.count_eq_countP, List.countP_map]
      rw [← hcount q hq]
      refine List.countP_congr ?_
      intro en hen
      obtain ⟨c1, c2⟩ := hentry en hen
      simp only [Function.comp_apply, beq_iff_eq, c1]
      constructor
      · intro h
        rw [h]
      · intro h
        exact hBinj _ _ (by omega) hq h
    · have hrhs : (List.range n).count q = 0 :=
        List.count_eq_zero_of_not_mem (by simp only [List.mem_range]; omega)
      rw [hrhs, List.count_eq_countP, List.countP_map]
      refine List.countP_eq_zero.mpr ?_
      intro en hen
      obtain ⟨c1, c2⟩ := hentry en hen
      simp only [Function.comp_apply, beq_iff_eq]
      omega
  have hsperm : (sortByKey (popLayer ws []).2).Perm (popLayer ws []).2 :=
    sortByKey_perm (popLayer ws []).2
  have hbandperm : ((sortByKey (popLayer ws []).2).map (fun en => en.1 / 2)).Perm
      (List.range n) := (hsperm.map _).trans hsndperm
  have hbandsorted : ((sortByKey (popLayer ws []).2).map (fun en => en.1 / 2)).Sorted
      (· ≤ ·) := by
    refine (List.pairwise_map).mpr ?_
    exact (sortByKey_sorted (popLayer ws []).2).imp (fun h => Nat.div_le_div_right h)
  have hband : (sortByKey (popLayer ws []).2).map (fun en => en.1 / 2) = List.range n :=
    List.eq_of_perm_of_sorted hbandperm hbandsorted
      ((List.pairwise_lt_range n).imp le_of_lt)
  have hlen : (sortByKey (popLayer ws []).2).length = n := by
    have := congrArg List.length hband
    simpa using this
  refine ⟨by simpa using hlen, ?_⟩
  intro q hq
  have hgb : ((sortByKey (popLayer ws []).2).map (fun en => en.1 / 2)).get? q =
      some q := by
    rw [hband]
    exact List.get?_range hq
  rw [List.get?_map] at hgb
  cases hge : (sortByKey (popLayer ws []).2).get? q with
  | none => rw [hge] at hgb; exact absurd hgb (by simp)
  | some en =>
    rw [hge] at hgb
    simp only [Option.map_some', Option.some_inj] at hgb
    have hmem : en ∈ (popLayer ws []).2 := hsperm.subset (List.get?_mem hge)
    have := (hentry en hmem).1
    rw [List.get?_map, hge]
    simp only [Option.map_some', Option.some_inj]
    rw [this, hgb]

/-! ## Assembling the constructed network -/

theorem zip_map_zero : ∀ (dl : List (Nat × Nat)) (cs : List Nat),
    dl.length = cs.length → (∀ c ∈ cs, c = 0) →
    dl.zip cs = dl.map (fun pr => (pr, 0)) := by
  intro dl
  induction dl with
  | nil => intro cs _ _; rfl
  | cons pr dl ih =>
    intro cs hlen h0
    cases cs with
    | nil => exact absurd hlen (by simp)
    | cons c cs =>
      have hc : c = 0 := h0 c (List.mem_cons_self _ _)
      simp only [List.zip_cons_cons, List.map_cons, hc]
      rw [ih cs (by simpa using hlen) (fun c2 hc2 => h0 c2 (List.mem_cons_of_mem _ hc2))]

theorem occs_ne_nil_of_findOcc (dl : List (Nat × Nat)) (v b : Nat)
    (h : findOcc v dl = some b) : occs dl v ≠ [] := by
  intro hnil
  have h1 := (occs_head dl v).1
  rw [hnil] at h1
  rw [h] at h1
  exact absurd h1 (by simp)

theorem bitonicNew_eq {L : Type} (outs : List L) (ws : List Wire) (st2 : BState)
    (σ : Store) (hpow : is_power_of_two outs.length = true)
    (hc : construct_bitonic outs.length outs.length 0 ⟨[], []⟩ = some (ws, st2))
    (hσ : attachLeaves st2.store ws 0 = some σ) :
    bitonicNew outs =
      some ⟨outs.length, outs, σ, buildLayers (num_layers outs.length) ws⟩ := by
  unfold bitonicNew
  rw [if_pos hpow]
  simp only [hc, hσ]

theorem bitonicNew_ctx : ∀ (e : Nat) {L : Type} (outs : List L),
    1 ≤ e → outs.length = 2 ^ e →
    ∃ net dl order B,
      bitonicNew outs = some net ∧
      net.outputs = outs ∧
      NetCtx e dl order B net ∧
      dl.zip (cnts net.store) = dl.map (fun pr => (pr, 0)) ∧
      2 * dl.length = 2 ^ e * Lfun e ∧
      net.store.length = dl.length := by
  intro e L outs he hlen
  have h2e : 2 * 2 ^ (e - 1) = 2 ^ e := by
    have h1 : e - 1 + 1 = e := by omega
    conv_rhs => rw [← h1]
    rw [pow_succ]
    ring
  have hB0 : Building ⟨[], []⟩ := ⟨rfl, fun b i j h => absurd h (by simp)⟩
  have hfresh : ∀ v, 0 ≤ v → v < 0 + 2 ^ e → occs ([] : List (Nat × Nat)) v = [] :=
    fun v _ _ => rfl
  obtain ⟨ws, st2, dl, hc, hB2, hhist, hperm, hwlen, hpairs, hdlen, hprmem, hbase,
    hflow, hsteps⟩ := construct_master e (2 ^ e) 0 ⟨[], []⟩ (le_refl _) hB0 hfresh
  have hp2 : st2.pairs = dl := by simpa using hpairs
  have hpermr : (ws.map Wire.value).Perm (List.range (2 ^ e)) := by
    rw [List.range_eq_range']
    exact hperm
  have hnd : (ws.map Wire.value).Nodup :=
    hpermr.nodup_iff.mpr (List.nodup_range _)
  have hhist2 : ∀ w ∈ ws, w.history = occs dl w.value := by
    intro w hw
    rw [hhist w hw, hp2]
  have hbase2 : ∀ q, ∃ b, q < 2 ^ (e - 1) →
      dl.get? b = some (2 * q, 2 * q + 1) ∧
      findOcc (2 * q) dl = some b ∧ findOcc (2 * q + 1) dl = some b := by
    intro q
    by_cases hq : q < 2 ^ (e - 1)
    · obtain ⟨bq, h1, h2, h3⟩ := hbase q (by omega)
      simp only [Nat.zero_add] at h1 h2 h3
      exact ⟨bq, fun _ => ⟨h1, h2, h3⟩⟩
    · exact ⟨0, fun hcon => absurd hcon hq⟩
  choose B hB using hbase2
  have hvmem : ∀ v, v < 2 ^ e → v ∈ ws.map Wire.value := by
    intro v hv
    exact hpermr.mem_iff.mpr (List.mem_range.mpr hv)
  have hheadocc : ∀ w ∈ ws, occs dl w.value ≠ [] := by
    intro w hw
    have hv : w.value < 2 ^ e := by
      have : w.value ∈ ws.map Wire.value := List.mem_map.mpr ⟨w, hw, rfl⟩
      exact List.mem_range.mp (hpermr.mem_iff.mp this)
    have hq : w.value / 2 < 2 ^ (e - 1) := Nat.div_lt_of_lt_mul (by omega)
    rcases Nat.even_or_odd w.value with hev | hod
    · obtain ⟨k, hk⟩ := hev
      have hv2 : w.value = 2 * (w.value / 2) := by omega
      have hf := (hB _ hq).2.1
      rw [← hv2] at hf
      exact occs_ne_nil_of_findOcc dl _ _ hf
    · obtain ⟨k, hk⟩ := hod
      have hv2 : w.value = 2 * (w.value / 2) + 1 := by omega
      have hf := (hB _ hq).2.2
      rw [← hv2] at hf
      exact occs_ne_nil_of_findOcc dl _ _ hf
  have hstlen : st2.store.length = dl.length := by
    have := hB2.1
    rw [hp2] at this
    exact this
  have hinv0 : ∀ b i j, dl.get? b = some (i, j) → i ≠ j ∧
      ∃ bal, st2.store.get? b = some bal ∧
        bal.out0 = (if i ∈ (ws.map Wire.value).take 0 then
            linkOf dl (ws.map Wire.value) i (b + 1) else linkOfD dl i (b + 1)) ∧
        bal.out1 = (if j ∈ (ws.map Wire.value).take 0 then
            linkOf dl (ws.map Wire.value) j (b + 1) else linkOfD dl j (b + 1)) := by
    intro b i j hb
    have hb' : st2.pairs.get? b = some (i, j) := by rw [hp2]; exact hb
    obtain ⟨hne, bal, hbal, _, h0, h1⟩ := hB2.2 b i j hb'
    rw [hp2] at h0 h1
    refine ⟨hne, bal, hbal, ?_, ?_⟩
    · rw [if_neg (by simp), h0]
    · rw [if_neg (by simp), h1]
  obtain ⟨σ, hσ, hσlen, hσshape⟩ := attachLeaves_shape ws st2.store 0 dl
    (ws.map Wire.value) hnd (by rw [List.drop_zero])
    (fun w hw => ⟨hhist2 w hw, by rw [hhist2 w hw]; exact hheadocc w hw⟩)
    hstlen hinv0
  have hshape : StoreShape dl (ws.map Wire.value) σ := by
    refine ⟨hσlen, ?_⟩
    intro b i j hb
    obtain ⟨hne, bal, hbal, h0, h1⟩ := hσshape b i j hb
    have hprm := hprmem (i, j) (List.get?_mem hb)
    refine ⟨hne, bal, hbal, ?_, ?_⟩
    · rw [h0, if_pos (Or.inr hprm.1)]
    · rw [h1, if_pos (Or.inr hprm.2.1)]
  have hpow : is_power_of_two outs.length = true :=
    (is_power_of_two_iff _).mpr ⟨e, hlen⟩
  have hc' : construct_bitonic outs.length outs.length 0 ⟨[], []⟩ = some (ws, st2) := by
    rw [hlen]
    exact hc
  have hbn := bitonicNew_eq outs ws st2 σ hpow hc' hσ
  refine ⟨⟨outs.length, outs, σ, buildLayers (num_layers outs.length) ws⟩, dl,
    ws.map Wire.value, B, hbn, rfl, ?_, ?_⟩
  · have hlayerpos : 1 ≤ num_layers (2 ^ e) := by
      rw [num_layers_pow e he]
      unfold Lfun
      have h2 : 2 ≤ e * (e + 1) := by
        calc 2 = 1 * 2 := by ring
        _ ≤ e * (e + 1) := Nat.mul_le_mul he (by omega)
      omega
    obtain ⟨m, hm⟩ : ∃ m, num_layers (2 ^ e) = m + 1 :=
      ⟨num_layers (2 ^ e) - 1, by omega⟩
    obtain ⟨hL0len, hL0get⟩ := layer0_spec ws dl (2 ^ (e - 1)) B
      (by rw [h2e]; exact hpermr) hhist2 (fun q hq => hB q hq)
    have h2half : 2 ^ e / 2 = 2 ^ (e - 1) := by omega
    refine ⟨by simp [hlen], hnd, hpermr, hshape, hprmem, ?_, ?_, ?_⟩
    · intro q hq
      have hq' : q < 2 ^ (e - 1) := by omega
      have hbal : (buildLayers (num_layers outs.length) ws).take (2 ^ e / 2) =
          (sortByKey (popLayer ws []).2).map Prod.snd := by
        rw [hlen, hm]
        show ((sortByKey (popLayer ws []).2).map Prod.snd ++
          buildLayers m (popLayer ws []).1).take (2 ^ e / 2) = _
        rw [h2half, ← hL0len]
        exact List.take_left _ _
      refine ⟨?_, (hB q hq').2.1, (hB q hq').2.2⟩
      show ((buildLayers (num_layers outs.length) ws).take (2 ^ e / 2)).get? q = _
      rw [hbal]
      exact hL0get q hq'
    · intro S t0 v ht0 hv0 hvz
      exact (hflow S t0 v (by omega) (by omega) hv0
        (fun x _ hx hxt => hvz x (by omega) hxt)).1
    · exact hsteps
  · refine ⟨?_, hdlen, hσlen⟩
    show dl.zip (cnts σ) = _
    have hz : ∀ c ∈ cnts σ, c = 0 := by
      intro c hcm
      obtain ⟨bal, hbm, hbc⟩ := List.mem_map.mp hcm
      rw [← hbc]
      exact bitonicNew_cnt outs _ hbn bal hbm
    exact zip_map_zero dl (cnts σ) (by simp [cnts, hσlen]) hz

theorem traverse_step {L : Type} (e : Nat) (dl : List (Nat × Nat)) (order : List Nat)
    (B : Nat → Nat) (net : BitonicNetwork L) (slot : Nat)
    (he : 1 ≤ e) (hslot : slot < 2 ^ e) (hctx : NetCtx e dl order B net) :
    ∃ net2,
      net.traverse slot =
        some (order.indexOf (scanToken (dl.zip (cnts net.store)) (2 * (slot / 2))).1,
          net2, Lfun e) ∧
      NetCtx e dl order B net2 ∧
      net2.outputs = net.outputs ∧ net2.width = net.width ∧
      net2.balancers = net.balancers ∧
      dl.zip (cnts net2.store) =
        (scanToken (dl.zip (cnts net.store)) (2 * (slot / 2))).2.1 ∧
      (scanToken (dl.zip (cnts net.store)) (2 * (slot / 2))).1 ∈ order ∧
      order.indexOf (scanToken (dl.zip (cnts net.store)) (2 * (slot / 2))).1 < 2 ^ e := by
  obtain ⟨hw, hnd, hperm, hshape, hprmem, hentry, hflow, hsteps⟩ := hctx
  have h2e : 2 * 2 ^ (e - 1) = 2 ^ e := by
    have h1 : e - 1 + 1 = e := by omega
    conv_rhs => rw [← h1]
    rw [pow_succ]
    ring
  have hq : slot / 2 < 2 ^ e / 2 := by omega
  obtain ⟨hEb, hf0, _⟩ := hentry (slot / 2) hq
  have hstlen : net.store.length = dl.length := hshape.1
  have hcntlen : (cnts net.store).length = dl.length := by
    simp [cnts, hstlen]
  have hfst : (dl.zip (cnts net.store)).map Prod.fst = dl :=
    List.map_fst_zip dl (cnts net.store) (by omega)
  have ht0mem : 2 * (slot / 2) ∈ order :=
    hperm.mem_iff.mpr (List.mem_range.mpr (by omega))
  obtain ⟨hexmem, hstepv⟩ := hsteps (dl.zip (cnts net.store)) (2 * (slot / 2)) hfst ht0mem
  obtain ⟨σ2, hwalk, hshape2, hzip2⟩ := walk_scan_aux (dl.length + 1) dl order
    net.store 0 (B (slot / 2)) (2 * (slot / 2)) hshape
    (by rw [List.drop_zero]; exact hf0) (by omega)
  simp only [List.drop_zero, List.take_zero, List.nil_append, Nat.zero_add] at hwalk hzip2
  have hordlen : order.length = 2 ^ e := by
    have := hperm.length_eq
    simpa using this
  have htrav : net.traverse slot =
      some (order.indexOf (scanToken (dl.zip (cnts net.store)) (2 * (slot / 2))).1,
        { net with store := σ2 }, Lfun e) := by
    unfold BitonicNetwork.traverse
    rw [hw, hEb]
    show (walkFrom (net.store.length + 1) net.store (B (slot / 2))).map _ = _
    rw [hstlen, hwalk]
    simp only [Option.map_some']
    rw [hstepv]
  refine ⟨{ net with store := σ2 }, htrav, ?_, rfl, rfl, rfl, hzip2, hexmem, ?_⟩
  · exact ⟨hw, hnd, hperm, hshape2, hprmem, hentry, hflow, hsteps⟩
  · rw [← hordlen]
    exact List.indexOf_lt_length.mpr hexmem

theorem map_fst_pairs : ∀ l : List (Nat × Nat),
    (l.map (fun pr => (pr, (0 : Nat)))).map Prod.fst = l := by
  intro l
  induction l with
  | nil => rfl
  | cons a t ih => simp [ih]

theorem count_replicate_ne (y t0 t : Nat) (hy : y ≠ t0) :
    (List.replicate t t0).count y = 0 :=
  List.count_eq_zero_of_not_mem (fun hm => hy (List.eq_of_mem_replicate hm))

theorem exits_count {L : Type} (e : Nat) (dl : List (Nat × Nat)) (order : List Nat)
    (B : Nat → Nat) (net : BitonicNetwork L) (hctx : NetCtx e dl order B net)
    (t0 : Nat) (ht0 : t0 < 2 ^ e) (t p x : Nat) (hp : order.get? p = some x) :
    ((seqScan (dl.map (fun pr => (pr, 0))) (List.replicate t t0)).1).count x =
      chi t (2 ^ e) p := by
  obtain ⟨hw, hnd, hperm, hshape, hprmem, hentry, hflow, hsteps⟩ := hctx
  have hne : ∀ pr ∈ dl, pr.1 ≠ pr.2 := fun pr hpr => (hprmem pr hpr).2.2
  rw [seqScan_counts dl hne (List.replicate t t0) x]
  have hordlen : order.length = 2 ^ e := by
    have := hperm.length_eq
    simpa using this
  have hchi := hflow t t0 (fun y => (List.replicate t t0).count y) ht0
    (by simp) (by intro y _ hy; exact count_replicate_ne y t0 t hy)
  have := hchi p x hp
  rw [hordlen] at this
  exact this

theorem exit_char {L : Type} (e : Nat) (dl : List (Nat × Nat)) (order : List Nat)
    (B : Nat → Nat) (net : BitonicNetwork L) (hctx : NetCtx e dl order B net)
    (t0 t : Nat) (ht0 : t0 < 2 ^ e) :
    order.indexOf
      (scanToken ((seqScan (dl.map (fun pr => (pr, 0))) (List.replicate t t0)).2) t0).1 =
      t % 2 ^ e := by
  obtain ⟨hw, hnd, hperm, hshape, hprmem, hentry, hflow, hsteps⟩ := hctx
  have hordlen : order.length = 2 ^ e := by
    have := hperm.length_eq
    simpa using this
  have hZfst : ((seqScan (dl.map (fun pr => (pr, 0))) (List.replicate t t0)).2).map
      Prod.fst = dl := by
    rw [seqScan_fst]
    exact map_fst_pairs dl
  have ht0mem : t0 ∈ order := hperm.mem_iff.mpr (List.mem_range.mpr ht0)
  obtain ⟨hexmem, -⟩ := hsteps _ t0 hZfst ht0mem
  obtain ⟨pex, hpex⟩ := List.mem_iff_get?.mp hexmem
  have hplt : pex < 2 ^ e := by
    rw [← hordlen]
    exact (List.get?_eq_some.mp hpex).1
  have hEsucc : (seqScan (dl.map (fun pr => (pr, 0))) (List.replicate (t + 1) t0)).1 =
      (seqScan (dl.map (fun pr => (pr, 0))) (List.replicate t t0)).1 ++
      [(scanToken ((seqScan (dl.map (fun pr => (pr, 0)))
        (List.replicate t t0)).2) t0).1] := by
    rw [List.replicate_succ', seqScan_append_tokens]
    simp [seqScan]
  have hct := exits_count e dl order B net
    ⟨hw, hnd, hperm, hshape, hprmem, hentry, hflow, hsteps⟩ t0 ht0 t pex _ hpex
  have hct1 := exits_count e dl order B net
    ⟨hw, hnd, hperm, hshape, hprmem, hentry, hflow, hsteps⟩ t0 ht0 (t + 1) pex _ hpex
  rw [hEsucc, List.count_append] at hct1
  rw [hct] at hct1
  have hcx : ([(scanToken ((seqScan (dl.map (fun pr => (pr, 0)))
      (List.replicate t t0)).2) t0).1].count
      (scanToken ((seqScan (dl.map (fun pr => (pr, 0)))
        (List.replicate t t0)).2) t0).1) = 1 := by
    simp
  rw [hcx] at hct1
  have hch := chi_succ_eq t (2 ^ e) pex hplt
  have hpeq : pex = t % 2 ^ e := by
    by_cases hc : pex = t % 2 ^ e
    · exact hc
    · rw [if_neg hc] at hch
      omega
  rw [nodup_indexOf_of_get order pex _ hnd hpex, hpeq]

theorem traverseRun_master {L : Type} : ∀ (R t : Nat) (e : Nat) (dl : List (Nat × Nat))
    (order : List Nat) (B : Nat → Nat) (net : BitonicNetwork L) (slot : Nat),
    1 ≤ e → slot < 2 ^ e → NetCtx e dl order B net →
    dl.zip (cnts net.store) =
      (seqScan (dl.map (fun pr => (pr, 0))) (List.replicate t (2 * (slot / 2)))).2 →
    ∃ net2,
      traverseRun net slot R = some ((List.range' t R).map (fun s => s % 2 ^ e), net2) ∧
      NetCtx e dl order B net2 ∧
      net2.outputs = net.outputs ∧ net2.width = net.width ∧
      net2.balancers = net.balancers ∧
      dl.zip (cnts net2.store) =
        (seqScan (dl.map (fun pr => (pr, 0)))
          (List.replicate (t + R) (2 * (slot / 2)))).2 := by
  intro R
  induction R with
  | zero =>
    intro t e dl order B net slot he hslot hctx hZ
    exact ⟨net, rfl, hctx, rfl, rfl, rfl, hZ⟩
  | succ R ih =>
    intro t e dl order B net slot he hslot hctx hZ
    have ht0 : 2 * (slot / 2) < 2 ^ e := by omega
    obtain ⟨net2, htrav, hctx2, ho2, hw2, hb2, hz2, hexm, hexlt⟩ :=
      traverse_step e dl order B net slot he hslot hctx
    rw [hZ] at htrav hz2
    rw [exit_char e dl order B net hctx (2 * (slot / 2)) t ht0] at htrav
    have hz2' : dl.zip (cnts net2.store) =
        (seqScan (dl.map (fun pr => (pr, 0)))
          (List.replicate (t + 1) (2 * (slot / 2)))).2 := by
      rw [hz2, List.replicate_succ', seqScan_append_tokens]
      simp [seqScan]
    obtain ⟨net3, hrun, hctx3, ho3, hw3, hb3, hz3⟩ :=
      ih (t + 1) e dl order B net2 slot he hslot hctx2 hz2'
    refine ⟨net3, ?_, hctx3, by rw [ho3, ho2], by rw [hw3, hw2], by rw [hb3, hb2], ?_⟩
    · show traverseRun net slot (R + 1) = _
      unfold traverseRun
      rw [htrav]
      simp only
      rw [hrun]
      have hr : List.range' t (R + 1) = t :: List.range' (t + 1) R := rfl
      rw [hr, List.map_cons]
    · rw [hz3]
      have : t + 1 + R = t + (R + 1) := by omega
      rw [this]

theorem traverseRun_ctx {L : Type} : ∀ (R : Nat) (e : Nat) (dl : List (Nat × Nat))
    (order : List Nat) (B : Nat → Nat) (net : BitonicNetwork L) (slot2 : Nat),
    1 ≤ e → slot2 < 2 ^ e → NetCtx e dl order B net →
    ∃ ps net2, traverseRun net slot2 R = some (ps, net2) ∧
      NetCtx e dl order B net2 := by
  intro R
  induction R with
  | zero =>
    intro e dl order B net slot2 he hslot2 hctx
    exact ⟨[], net, rfl, hctx⟩
  | succ R ih =>
    intro e dl order B net slot2 he hslot2 hctx
    obtain ⟨net2, htrav, hctx2, -, -, -, -, -, -⟩ :=
      traverse_step e dl order B net slot2 he hslot2 hctx
    obtain ⟨ps, net3, hrun, hctx3⟩ := ih e dl order B net2 slot2 he hslot2 hctx2
    refine ⟨order.indexOf
      (scanToken (dl.zip (cnts net.store)) (2 * (slot2 / 2))).1 :: ps, net3, ?_, hctx3⟩
    show traverseRun net slot2 (R + 1) = _
    unfold traverseRun
    rw [htrav]
    simp only
    rw [hrun]

theorem countingRun_master : ∀ (R t : Nat) (e : Nat) (dl : List (Nat × Nat))
    (order : List Nat) (B : Nat → Nat) (c : BitonicCountingNetwork) (slot : Nat),
    1 ≤ e → slot < 2 ^ e → NetCtx e dl order B c →
    dl.zip (cnts c.store) =
      (seqScan (dl.map (fun pr => (pr, 0))) (List.replicate t (2 * (slot / 2)))).2 →
    (∀ p, p < 2 ^ e → c.outputs.get? p = some (p + 2 ^ e * chi t (2 ^ e) p)) →
    ∃ c2,
      countingRun c slot R = some (List.range' t R, c2) ∧
      NetCtx e dl order B c2 ∧
      dl.zip (cnts c2.store) =
        (seqScan (dl.map (fun pr => (pr, 0)))
          (List.replicate (t + R) (2 * (slot / 2)))).2 ∧
      (∀ p, p < 2 ^ e → c2.outputs.get? p = some (p + 2 ^ e * chi (t + R) (2 ^ e) p)) := by
  intro R
  induction R with
  | zero =>
    intro t e dl order B c slot he hslot hctx hZ houts
    exact ⟨c, rfl, hctx, hZ, houts⟩
  | succ R ih =>
    intro t e dl order B c slot he hslot hctx hZ houts
    have hwpos : 0 < 2 ^ e := Nat.pos_pow_of_pos e (by omega)
    have ht0 : 2 * (slot / 2) < 2 ^ e := by omega
    obtain ⟨c', htrav, hctx2, ho2, hw2, hb2, hz2, hexm, hexlt⟩ :=
      traverse_step e dl order B c slot he hslot hctx
    rw [hZ] at htrav hz2
    rw [exit_char e dl order B c hctx (2 * (slot / 2)) t ht0] at htrav
    have hmlt : t % 2 ^ e < 2 ^ e := Nat.mod_lt t hwpos
    have hget : c'.outputs.get? (t % 2 ^ e) =
        some (t % 2 ^ e + 2 ^ e * chi t (2 ^ e) (t % 2 ^ e)) := by
      rw [ho2]
      exact houts _ hmlt
    have hval : t % 2 ^ e + 2 ^ e * chi t (2 ^ e) (t % 2 ^ e) = t := by
      rw [chi_mod_self t (2 ^ e) hwpos]
      exact Nat.mod_add_div t (2 ^ e)
    rw [hval] at hget
    have hnext : countingNext c slot =
        some (t, { c' with outputs := c'.outputs.set (t % 2 ^ e) (bucketInc t c'.width) }) := by
      unfold countingNext
      rw [htrav]
      simp only
      rw [hget]
      rfl
    have hz2' : dl.zip (cnts ({ c' with outputs := c'.outputs.set (t % 2 ^ e) (bucketInc t c'.width) } : BitonicCountingNetwork).store) =
        (seqScan (dl.map (fun pr => (pr, 0)))
          (List.replicate (t + 1) (2 * (slot / 2)))).2 := by
      show dl.zip (cnts c'.store) = _
      rw [hz2, List.replicate_succ', seqScan_append_tokens]
      simp [seqScan]
    have hctx2' : NetCtx e dl order B ({ c' with outputs := c'.outputs.set (t % 2 ^ e) (bucketInc t c'.width) } : BitonicCountingNetwork) := by
      obtain ⟨x1, x2, x3, x4, x5, x6, x7, x8⟩ := hctx2
      exact ⟨x1, x2, x3, x4, x5, x6, x7, x8⟩
    have houts' : ∀ p, p < 2 ^ e →
        (({ c' with outputs := c'.outputs.set (t % 2 ^ e) (bucketInc t c'.width) } : BitonicCountingNetwork).outputs).get? p =
        some (p + 2 ^ e * chi (t + 1) (2 ^ e) p) := by
      intro p hp
      show (c'.outputs.set (t % 2 ^ e) (bucketInc t c'.width)).get? p = _
      by_cases hpe : p = t % 2 ^ e
      · subst hpe
        rw [List.get?_set_eq, hget]
        have hcw : c'.width = 2 ^ e := by
          rw [hw2]
          exact hctx.1
        show some (bucketInc t c'.width) = _
        rw [hcw]
        have hcs : chi (t + 1) (2 ^ e) (t % 2 ^ e) =
            chi t (2 ^ e) (t % 2 ^ e) + 1 := by
          rw [chi_succ_eq t (2 ^ e) _ hmlt, if_pos rfl]
        rw [hcs, chi_mod_self t (2 ^ e) hwpos]
        show some (t + 2 ^ e) = _
        congr 1
        have hmd := Nat.mod_add_div t (2 ^ e)
        rw [Nat.mul_add, Nat.mul_one]
        omega
      · rw [List.get?_set_ne _ _ (fun hc => hpe hc.symm)]
        have hcs : chi (t + 1) (2 ^ e) p = chi t (2 ^ e) p := by
          rw [chi_succ_eq t (2 ^ e) p hp, if_neg hpe]
          omega
        rw [hcs, ho2]
        exact houts p hp
    obtain ⟨c2, hrun, hctx3, hz3, houts3⟩ :=
      ih (t + 1) e dl order B _ slot he hslot hctx2' hz2' houts'
    have hta : t + 1 + R = t + (R + 1) := by omega
    refine ⟨c2, ?_, hctx3, by rw [hz3, hta], by rw [← hta]; exact houts3⟩
    show countingRun c slot (R + 1) = _
    unfold countingRun
    rw [hnext]
    simp only
    rw [hrun]
    rfl

theorem count_mod_range (w : Nat) (hw : 0 < w) : ∀ (T k : Nat), k < w →
    ((List.range T).map (fun s => s % w)).count k = chi T w k := by
  intro T
  induction T with
  | zero =>
    intro k hk
    rw [chi_zero w k hw]
    rfl
  | succ T ih =>
    intro k hk
    rw [List.range_succ, List.map_append, List.count_append, ih k hk,
      chi_succ_eq T w k hk]
    congr 1
    by_cases hc : k = T % w
    · rw [if_pos hc, hc]
      simp
    · rw [if_neg hc]
      exact List.count_eq_zero_of_not_mem (by simp [hc])

/-! ## The claims about whole-network counting -/

/-- C1: on a freshly constructed counting network of power-of-two width
`2 ^ e` (`e ≥ 1`), `T` sequential `next()` calls from one thread (any fixed
entry slot) return exactly `0, 1, …, T-1`, in order; in particular their
sorted sequence is `0..T`. -/
theorem counting_sequential_complete (e slot T : Nat) (he : 1 ≤ e)
    (hslot : slot < 2 ^ e) :
    ∃ c c2, countingNew (2 ^ e) = some c ∧
      countingRun c slot T = some (List.range T, c2) := by
  obtain ⟨net, dl, order, B, hbn, houts, hctx, hzip, hdlen, hstl⟩ :=
    bitonicNew_ctx e (List.range (2 ^ e)) he (List.length_range _)
  have hwpos : 0 < 2 ^ e := Nat.pos_pow_of_pos e (by omega)
  have hz0 : dl.zip (cnts net.store) =
      (seqScan (dl.map (fun pr => (pr, 0)))
        (List.replicate 0 (2 * (slot / 2)))).2 := by
    rw [hzip]
    rfl
  have houts0 : ∀ p, p < 2 ^ e →
      net.outputs.get? p = some (p + 2 ^ e * chi 0 (2 ^ e) p) := by
    intro p hp
    rw [houts, List.get?_range hp, chi_zero _ _ hwpos]
    simp
  obtain ⟨c2, hrun, -, -, -⟩ :=
    countingRun_master T 0 e dl order B net slot he hslot hctx hz0 houts0
  refine ⟨net, c2, hbn, ?_⟩
  rw [List.range_eq_range']
  exact hrun

/-- Witness: width 8, 24 sequential calls from slot 0 return 0..23 in order. -/
theorem counting_sequential_complete_witness :
    1 ≤ 3 ∧ (0 : Nat) < 2 ^ 3 ∧
    ∃ c c2, countingNew (2 ^ 3) = some c ∧
      countingRun c 0 24 = some (List.range 24, c2) :=
  ⟨by decide, by decide, counting_sequential_complete 3 0 24 (by decide) (by decide)⟩

/-- C3: the construction gate.  Every output sequence whose length is not a
power of two is rejected (`BitonicNetwork::new` fails), but the gate is not
an if-and-only-if: length 1 passes the power-of-two test and construction
still fails, refuting "for every power of two ≥ 1 construction succeeds". -/
theorem construction_gate :
    (∀ outs : List Nat, is_power_of_two outs.length = false →
      bitonicNew outs = none) ∧
    is_power_of_two 1 = true ∧ countingNew 1 = none := by
  refine ⟨?_, rfl, rfl⟩
  intro outs h
  simp [bitonicNew, h]

/-- C5 (amended): for every power-of-two width `2 ^ e` (`e ≥ 1`) the
constructed network holds exactly `w/2 · L(w)` balancers, and for width 4
the emission order is `[(0,1), (2,3), (0,3), (1,2), (0,1), (3,2)]` — the
final pair joins wire 3 on top, so the claimed order `…, (2,3)]` and the
invariant `i < j` on emitted pairs are both wrong in that last pair. -/
theorem merge_emission_amended :
    (∀ e, 1 ≤ e → ∃ net, bitonicNew (List.range (2 ^ e)) = some net ∧
      2 * net.store.length = 2 ^ e * num_layers (2 ^ e)) ∧
    (construct_bitonic 4 4 0 ⟨[], []⟩).map (fun r => r.2.pairs) =
      some [(0, 1), (2, 3), (0, 3), (1, 2), (0, 1), (3, 2)] := by
  refine ⟨?_, by decide⟩
  intro e he
  obtain ⟨net, dl, order, B, hbn, houts, hctx, hzip, hdlen, hstl⟩ :=
    bitonicNew_ctx e (List.range (2 ^ e)) he (List.length_range _)
  refine ⟨net, hbn, ?_⟩
  rw [hstl, num_layers_pow e he]
  exact hdlen

/-- C6: the step property.  After any number `T` of sequential traversals of
a fresh power-of-two network from one fixed entry slot, the exit tallies
`x_k` satisfy `x_j ≤ x_i` and `x_i ≤ x_j + 1` for all `i < j`. -/
theorem step_property_single_threaded (e T slot : Nat) (he : 1 ≤ e)
    (hslot : slot < 2 ^ e) :
    ∃ net ps net2,
      bitonicNew (List.range (2 ^ e)) = some net ∧
      traverseRun net slot T = some (ps, net2) ∧
      ∀ i j, i < j → j < 2 ^ e →
        ps.count j ≤ ps.count i ∧ ps.count i ≤ ps.count j + 1 := by
  obtain ⟨net, dl, order, B, hbn, houts, hctx, hzip, hdlen, hstl⟩ :=
    bitonicNew_ctx e (List.range (2 ^ e)) he (List.length_range _)
  have hwpos : 0 < 2 ^ e := Nat.pos_pow_of_pos e (by omega)
  have hz0 : dl.zip (cnts net.store) =
      (seqScan (dl.map (fun pr => (pr, 0)))
        (List.replicate 0 (2 * (slot / 2)))).2 := by
    rw [hzip]
    rfl
  obtain ⟨net2, hrun, -, -, -, -, -⟩ :=
    traverseRun_master T 0 e dl order B net slot he hslot hctx hz0
  refine ⟨net, _, net2, hbn, hrun, ?_⟩
  intro i j hij hj
  have hcnt : ∀ k, k < 2 ^ e →
      ((List.range' 0 T).map (fun s => s % 2 ^ e)).count k = chi T (2 ^ e) k := by
    intro k hk
    rw [← List.range_eq_range']
    exact count_mod_range (2 ^ e) hwpos T k hk
  rw [hcnt i (by omega), hcnt j hj]
  exact chi_step T (2 ^ e) i j (by omega) hj

/-- Witness for the step property: width 2, three traversals from slot 0. -/
theorem step_property_single_threaded_witness :
    1 ≤ 1 ∧ (0 : Nat) < 2 ^ 1 ∧
    ∃ net ps net2,
      bitonicNew (List.range (2 ^ 1)) = some net ∧
      traverseRun net 0 3 = some (ps, net2) ∧
      ∀ i j, i < j → j < 2 ^ 1 →
        ps.count j ≤ ps.count i ∧ ps.count i ≤ ps.count j + 1 :=
  ⟨by decide, by decide, step_property_single_threaded 1 3 0 (by decide) (by decide)⟩

/-- C8: termination and depth.  On a constructed network of width `2 ^ e`
(`e ≥ 1`), after any number of prior traversals from any entry slot,
`traverse` from any entry slot terminates at an output position, after
exactly `num_layers w = L(w) = log2(w)·(log2(w)+1)/2` balancer toggles. -/
theorem traverse_terminates_depth {L : Type} (e T slot slot2 : Nat) (outs : List L)
    (he : 1 ≤ e) (hlen : outs.length = 2 ^ e) (hslot : slot < 2 ^ e)
    (hslot2 : slot2 < 2 ^ e) :
    ∃ net ps net1 p net2,
      bitonicNew outs = some net ∧
      traverseRun net slot2 T = some (ps, net1) ∧
      net1.traverse slot = some (p, net2, num_layers (2 ^ e)) ∧
      p < 2 ^ e ∧ num_layers (2 ^ e) = Lfun e := by
  obtain ⟨net, dl, order, B, hbn, houts, hctx, hzip, hdlen, hstl⟩ :=
    bitonicNew_ctx e outs he hlen
  obtain ⟨ps, net1, hrun, hctx1⟩ :=
    traverseRun_ctx T e dl order B net slot2 he hslot2 hctx
  obtain ⟨net2, htrav, -, -, -, -, -, -, hexlt⟩ :=
    traverse_step e dl order B net1 slot he hslot hctx1
  rw [num_layers_pow e he]
  exact ⟨net, ps, net1, _, net2, hbn, hrun, htrav, hexlt, rfl⟩

/-- Witness for termination and depth: width 4, one prior traversal from
slot 1, then a traversal from slot 0 taking exactly 3 toggles. -/
theorem traverse_terminates_depth_witness :
    1 ≤ 2 ∧ (List.range 4).length = 2 ^ 2 ∧ (0 : Nat) < 2 ^ 2 ∧ (1 : Nat) < 2 ^ 2 ∧
    ∃ net ps net1 p net2,
      bitonicNew (List.range 4) = some net ∧
      traverseRun net 1 1 = some (ps, net1) ∧
      net1.traverse 0 = some (p, net2, num_layers (2 ^ 2)) ∧
      p < 2 ^ 2 ∧ num_layers (2 ^ 2) = Lfun 2 :=
  ⟨by decide, by decide, by decide, by decide,
   traverse_terminates_depth 2 1 0 1 (List.range 4) (by decide) (by decide)
     (by decide) (by decide)⟩

/-- Witness for the duplicate interleaving: both entry-slot choices 0. -/
theorem concurrent_duplicate_interleaving_witness :
    interleavedRun 0 0 = some ([0, 3], [1, 0]) :=
  concurrent_duplicate_interleaving.1 0 (by decide) 0 (by decide)

end CountingNetworks
